import Mathlib

set_option linter.unusedSectionVars false
set_option linter.unusedVariables false

/-!
# Polynomial engine: dense and sparse representations

Shallow embedding of `src/polynomial_dense.cpp` and `src/polynomial_sparse.cpp`.

Modelling conventions.

* The coefficient type `T` is a commutative ring with decidable equality.  `T()` and `T(0)`
  are `0`, `T(1)` is `1`.  The coefficient division `/` of the C++ type is a parameter
  `dv : T → T → T`, so that the same embedding serves a field (`dv a b = a / b`) and the
  integers (truncating division).
* `std::vector<T>` is `List T`; `std::map<size_t, T>` is a `List (Nat × T)` whose keys are
  strictly increasing (the order in which the map is iterated).
* Sizes and exponents are `size_t`, modelled by `Nat`.  The length of a `std::vector` is
  bounded by memory, so the dense `static_cast<int>(p.size())` is taken as exact.  The keys
  of the sparse map are not bounded by memory, and the embedding follows the code where they
  leave the range of the type: the sparse `Degree()` returns the largest key narrowed to
  `int` (`toInt`, the low 32 bits as a two's complement number), and `operator*=` adds keys
  modulo `2^64`.  The conversion `int → size_t` of a `Degree()` is `toSizeT`.  The `int`
  subtraction `cur.Degree() - other.Degree()` of `operator/` is exact; the theorems about the
  sparse form bound the exponents so that it does not overflow.
* A `while` loop whose termination depends on the coefficient arithmetic takes a fuel
  argument: it returns `none` when more than `fuel` iterations would be needed.
* `std::equal` returns `none` when it would read past the end of its second range.
-/

/-- Conversion `int → size_t`: a non-negative value is unchanged, a negative value `d`
becomes `2^64 + d` (so `-1` becomes `SIZE_MAX`). -/
def toSizeT (d : Int) : Nat := if 0 ≤ d then d.toNat else 2 ^ 64 - d.natAbs

/-- Conversion `size_t → int` (the `return it->first` of the sparse `Degree()`): the low 32
bits of the value, read as a two's complement number. -/
def toInt (k : Nat) : Int :=
  if k % 2 ^ 32 < 2 ^ 31 then ((k % 2 ^ 32 : Nat) : Int) else ((k % 2 ^ 32 : Nat) : Int) - 2 ^ 32

/-- `std::equal(first1, last1, first2)`: compares the first range with the range of the same
length starting at `first2`; `none` when the second range is exhausted first. -/
def std_equal {α : Type} [DecidableEq α] : List α → List α → Option Bool
  | [], _ => some true
  | _ :: _, [] => none
  | a :: as, b :: bs => if a = b then std_equal as bs else some false

namespace Dense

variable {T : Type} [CommRing T] [DecidableEq T]

/-- `cut()`: `while (p.size() && p.back() == T()) p.pop_back();` -/
def cut (p : List T) : List T := p.rdropWhile (fun c => decide (c = 0))

/-- `Polynomial(std::vector<T> v) : p(v) { cut(); }` -/
def fromVector (v : List T) : List T := cut v

/-- `Polynomial(const T& k) { p = {k}; cut(); }` (also the implicit conversion `T → Polynomial`). -/
def fromScalar (k : T) : List T := cut [k]

/-- `Polynomial(Iter begin, Iter end)`: copies the range into `p`, then `cut()`. -/
def fromRange (xs : List T) : List T := cut xs

/-- `Degree()`: `static_cast<int>(p.size()) - 1`. -/
def Degree (p : List T) : Int := (p.length : Int) - 1

/-- `operator[](size_t i)`: `(i >= p.size() ? T() : p[i])`. -/
def opIndex (p : List T) (i : Nat) : T := if i ≥ p.length then 0 else p.getD i 0

/-- `operator==`: `(p.size() == other.p.size()) && std::equal(begin(p), end(p), begin(other.p))`. -/
def opEq (p other : List T) : Option Bool :=
  if p.length = other.length then std_equal p other else some false

/-- `operator!=`: `!(*this == other)`. -/
def opNe (p other : List T) : Option Bool := (opEq p other).map not

/-- `p.resize(n)` of `std::vector`: truncates or pads with `T()`. -/
def resize (p : List T) (n : Nat) : List T := p.take n ++ List.replicate (n - p.length) 0

/-- `operator+=`. -/
def opAddAssign (p other : List T) : List T :=
  let p1 := if p.length < other.length then resize p other.length else p
  let p2 := (List.range (min p1.length other.length)).foldl
    (fun acc i => acc.set i (acc.getD i 0 + other.getD i 0)) p1
  cut p2

/-- `operator-=`. -/
def opSubAssign (p other : List T) : List T :=
  let p1 := if p.length < other.length then resize p other.length else p
  let p2 := (List.range (min p1.length other.length)).foldl
    (fun acc i => acc.set i (acc.getD i 0 - other.getD i 0)) p1
  cut p2

/-- The length `new_size = p.size() * other.p.size()` of the buffer of `operator*=`. -/
def new_size (p other : List T) : Nat := p.length * other.length

/-- The double loop of `operator*=`: `res[i + j] += p[i] * other.p[j]`. -/
def mulLoop (p other res : List T) : List T :=
  (List.range p.length).foldl (fun res i =>
    (List.range other.length).foldl (fun res j =>
      res.set (i + j) (res.getD (i + j) 0 + p.getD i 0 * other.getD j 0)) res) res

/-- `operator*=`. -/
def opMulAssign (p other : List T) : List T :=
  cut (mulLoop p other (List.replicate (new_size p other) 0))

/-- `operator+`: `res = *this; res += r`. -/
def opAdd (p r : List T) : List T := opAddAssign p r

/-- `operator-`: `res = *this; res -= r`. -/
def opSub (p r : List T) : List T := opSubAssign p r

/-- `operator*`: `res = *this; res *= r`. -/
def opMul (p r : List T) : List T := opMulAssign p r

/-- `operator&` (composition).  The loop state is `(res, cur)`; each step does
`res += cur * p[i]; cur *= r`, where `p[i]` is converted to a polynomial. -/
def opAnd (p r : List T) : List T :=
  ((List.range p.length).foldl (fun (st : List T × List T) i =>
      (opAddAssign st.1 (opMul st.2 (fromScalar (p.getD i 0))), opMulAssign st.2 r))
    (fromScalar 0, fromScalar 1)).1

/-- The loop of `operator/` with state `(res, cur)`; returns the final state.  `fuel` bounds
the number of iterations. -/
def divLoop (dv : T → T → T) : Nat → List T → List T → List T → Option (List T × List T)
  | fuel, res, cur, other =>
    if Degree cur ≥ Degree other then
      match fuel with
      | 0 => none
      | fuel + 1 =>
        let dif := toSizeT (Degree cur - Degree other)
        let v := List.replicate (dif + 1) (0 : T)
        let v := v.set (v.length - 1)
          (dv (opIndex cur (toSizeT (Degree cur))) (opIndex other (toSizeT (Degree other))))
        let t := fromVector v
        divLoop dv fuel (opAddAssign res t) (opSubAssign cur (opMul other t)) other
    else some (res, cur)

/-- `operator/`: `res = T(), cur = *this, other = r`, run the loop, return `res`. -/
def opDiv (dv : T → T → T) (fuel : Nat) (p r : List T) : Option (List T) :=
  (divLoop dv fuel (fromScalar 0) p r).map Prod.fst

/-- `operator%`: `*this - ((*this / r) * r)`. -/
def opMod (dv : T → T → T) (fuel : Nat) (p r : List T) : Option (List T) :=
  (opDiv dv fuel p r).map (fun d => opSub p (opMul d r))

/-- The loop of `operator,`: `while (other != T(0)) { cur = cur % other; swap(cur, other); }`.
The first argument bounds every inner division, the second the iterations of this loop. -/
def gcdLoop (dv : T → T → T) (fuel : Nat) : Nat → List T → List T → Option (List T)
  | n, cur, other =>
    match opNe other (fromScalar 0), n with
    | none, _ => none
    | some false, _ => some cur
    | some true, 0 => none
    | some true, n + 1 =>
      match opMod dv fuel cur other with
      | none => none
      | some r => gcdLoop dv fuel n other r

/-- `operator,` (GCD): run the loop, then `return cur / cur[cur.Degree()]`. -/
def opComma (dv : T → T → T) (fuel : Nat) (p r : List T) : Option (List T) :=
  (gcdLoop dv fuel fuel p r).bind fun cur =>
    opDiv dv fuel cur (fromScalar (opIndex cur (toSizeT (Degree cur))))

/-- `operator()(T v)`: the loop state is `(cur, res)`; each step does
`res += cur * p[i]; cur *= v`. -/
def opCall (p : List T) (v : T) : T :=
  if p.isEmpty then 0
  else ((List.range p.length).foldl
    (fun (st : T × T) i => (st.1 * v, st.2 + st.1 * p.getD i 0)) (1, 0)).2

/-- The class invariant of the dense form: `p` is empty or `p.back() != T()`. -/
def Canonical (p : List T) : Prop := ∀ c ∈ p.getLast?, c ≠ 0

instance (p : List T) : Decidable (Canonical p) := by
  unfold Canonical; infer_instance

end Dense

namespace Sparse

variable {T : Type} [CommRing T] [DecidableEq T]

/-- `p.find(i)`: the value stored under key `i`, if any. -/
def find (m : List (Nat × T)) (i : Nat) : Option T :=
  (m.find? (fun e => e.1 == i)).map Prod.snd

/-- `p.erase(i)`. -/
def erase (m : List (Nat × T)) (i : Nat) : List (Nat × T) := m.filter (fun e => e.1 != i)

/-- `p[i] = v` of `std::map`: overwrite the entry with key `i`, or insert it in key order. -/
def assign : List (Nat × T) → Nat → T → List (Nat × T)
  | [], i, v => [(i, v)]
  | (k, w) :: m, i, v =>
    if i < k then (i, v) :: (k, w) :: m
    else if i = k then (k, v) :: m
    else (k, w) :: assign m i v

/-- `get(i)`: `(p.find(i) == p.end() ? T() : p.at(i))`. -/
def get (p : List (Nat × T)) (i : Nat) : T :=
  match find p i with
  | none => 0
  | some v => v

/-- `set(i, v)`: erase a stored entry when `v == T()`, store `v` when `v != T()`. -/
def set (p : List (Nat × T)) (i : Nat) (v : T) : List (Nat × T) :=
  if v = 0 ∧ (find p i).isSome then erase p i
  else if v ≠ 0 then assign p i v
  else p

/-- The loop of `b_pow` with state `(res, a, b)`. -/
def b_powLoop (res a : T) (b : Nat) : T :=
  let res := if b &&& 1 ≠ 0 then res * a else res
  if h : b >>> 1 = 0 then res else b_powLoop res (a * a) (b >>> 1)
termination_by b
decreasing_by
  rw [Nat.shiftRight_eq_div_pow] at h ⊢
  omega

/-- `b_pow(a, b)`: exponentiation by squaring on coefficients. -/
def b_pow (a : T) (b : Nat) : T := b_powLoop 1 a b

/-- `Polynomial(const std::vector<T>& v)`: `set(i, v[i])` for every position. -/
def fromVector (v : List T) : List (Nat × T) :=
  (List.range v.length).foldl (fun p i => set p i (v.getD i 0)) []

/-- `Polynomial(const T& k)`: `set(0, k)` (also the implicit conversion `T → Polynomial`). -/
def fromScalar (k : T) : List (Nat × T) := set [] 0 k

/-- `Polynomial(Iter begin, Iter end)`: `set(i, *begin)` for the `i`-th element. -/
def fromRange (xs : List T) : List (Nat × T) :=
  (xs.foldl (fun (st : List (Nat × T) × Nat) x => (set st.1 st.2 x, st.2 + 1)) ([], 0)).1

/-- `Degree()`: `-1` for the empty map, otherwise the largest key, a `size_t`, returned as
`int`. -/
def Degree (p : List (Nat × T)) : Int :=
  match p.getLast? with
  | none => -1
  | some e => toInt e.1

/-- `operator[](size_t i)`: `get(i)`. -/
def opIndex (p : List (Nat × T)) (i : Nat) : T := get p i

/-- `operator==`: `(Degree() == other.Degree()) && std::equal(begin(p), end(p), begin(other.p))`. -/
def opEq (p other : List (Nat × T)) : Option Bool :=
  if Degree p = Degree other then std_equal p other else some false

/-- `operator!=`: `!(*this == other)`. -/
def opNe (p other : List (Nat × T)) : Option Bool := (opEq p other).map not

/-- `operator+=`: `set(k, get(k) + v)` for every entry `(k, v)` of a copy of `other`. -/
def opAddAssign (p other : List (Nat × T)) : List (Nat × T) :=
  other.foldl (fun p e => set p e.1 (get p e.1 + e.2)) p

/-- `operator-=`: `set(k, get(k) - v)` for every entry `(k, v)` of a copy of `other`. -/
def opSubAssign (p other : List (Nat × T)) : List (Nat × T) :=
  other.foldl (fun p e => set p e.1 (get p e.1 - e.2)) p

/-- `operator*=`: clear `p`, then for every pair of entries of the copies
`set(k1 + k2, get(k1 + k2) + v1 * v2)`, where the sum `k1 + k2` of two `size_t` keys is taken
modulo `2^64`. -/
def opMulAssign (p other : List (Nat × T)) : List (Nat × T) :=
  p.foldl (fun acc e1 =>
    other.foldl (fun acc e2 =>
      set acc ((e1.1 + e2.1) % 2 ^ 64)
        (get acc ((e1.1 + e2.1) % 2 ^ 64) + e1.2 * e2.2)) acc) []

/-- `operator+`: `res = *this; res += r`. -/
def opAdd (p r : List (Nat × T)) : List (Nat × T) := opAddAssign p r

/-- `operator-`: `res = *this; res -= r`. -/
def opSub (p r : List (Nat × T)) : List (Nat × T) := opSubAssign p r

/-- `operator*`: `res = *this; res *= r`. -/
def opMul (p r : List (Nat × T)) : List (Nat × T) := opMulAssign p r

/-- The loop of `pow` with state `(res, cur, b)`. -/
def powLoop (res cur : List (Nat × T)) (b : Nat) : List (Nat × T) :=
  let res := if b &&& 1 ≠ 0 then opMulAssign res cur else res
  if h : b >>> 1 = 0 then res else powLoop res (opMulAssign cur cur) (b >>> 1)
termination_by b
decreasing_by
  rw [Nat.shiftRight_eq_div_pow] at h ⊢
  omega

/-- `pow(b)`: polynomial exponentiation by squaring, `res = T(1), cur = *this`. -/
def pow (p : List (Nat × T)) (b : Nat) : List (Nat × T) := powLoop (fromScalar 1) p b

/-- `operator&` (composition): `res += r.pow(k) * v` for every entry `(k, v)` of `p`. -/
def opAnd (p r : List (Nat × T)) : List (Nat × T) :=
  p.foldl (fun res e => opAddAssign res (opMul (pow r e.1) (fromScalar e.2))) (fromScalar 0)

/-- The loop of `operator/` with state `(res, cur)`; returns the final state.  `fuel` bounds
the number of iterations. -/
def divLoop (dv : T → T → T) :
    Nat → List (Nat × T) → List (Nat × T) → List (Nat × T) →
      Option (List (Nat × T) × List (Nat × T))
  | fuel, res, cur, other =>
    if Degree cur ≥ Degree other then
      match fuel with
      | 0 => none
      | fuel + 1 =>
        let dif := toSizeT (Degree cur - Degree other)
        let t := set (fromScalar 0) dif
          (dv (opIndex cur (toSizeT (Degree cur))) (opIndex other (toSizeT (Degree other))))
        divLoop dv fuel (opAddAssign res t) (opSubAssign cur (opMul other t)) other
    else some (res, cur)

/-- `operator/`: `res = T(), cur = *this, other = r`, run the loop, return `res`. -/
def opDiv (dv : T → T → T) (fuel : Nat) (p r : List (Nat × T)) : Option (List (Nat × T)) :=
  (divLoop dv fuel (fromScalar 0) p r).map Prod.fst

/-- `operator%`: `*this - ((*this / r) * r)`. -/
def opMod (dv : T → T → T) (fuel : Nat) (p r : List (Nat × T)) : Option (List (Nat × T)) :=
  (opDiv dv fuel p r).map (fun d => opSub p (opMul d r))

/-- The loop of `operator,`: `while (other != T(0)) { cur = cur % other; swap(cur, other); }`.
The first argument bounds every inner division, the second the iterations of this loop. -/
def gcdLoop (dv : T → T → T) (fuel : Nat) :
    Nat → List (Nat × T) → List (Nat × T) → Option (List (Nat × T))
  | n, cur, other =>
    match opNe other (fromScalar 0), n with
    | none, _ => none
    | some false, _ => some cur
    | some true, 0 => none
    | some true, n + 1 =>
      match opMod dv fuel cur other with
      | none => none
      | some r => gcdLoop dv fuel n other r

/-- `operator,` (GCD): run the loop, then `return cur / cur[cur.Degree()]`. -/
def opComma (dv : T → T → T) (fuel : Nat) (p r : List (Nat × T)) : Option (List (Nat × T)) :=
  (gcdLoop dv fuel fuel p r).bind fun cur =>
    opDiv dv fuel cur (fromScalar (opIndex cur (toSizeT (Degree cur))))

/-- `operator()(T v)`: `res += v_k * b_pow(v, k)` for every entry `(k, v_k)`. -/
def opCall (p : List (Nat × T)) (v : T) : T :=
  p.foldl (fun res e => res + e.2 * b_pow v e.1) 0

/-- The keys of a `std::map` are strictly increasing in iteration order. -/
def Sorted (p : List (Nat × T)) : Prop := p.Pairwise (fun a b => a.1 < b.1)

/-- The class invariant of the sparse form: no stored entry has value `T()`. -/
def NoZero (p : List (Nat × T)) : Prop := ∀ e ∈ p, e.2 ≠ 0

/-- A well-formed sparse polynomial: a `std::map` that stores no zero. -/
def Canonical (p : List (Nat × T)) : Prop := Sorted p ∧ NoZero p

instance (p : List (Nat × T)) : Decidable (Sorted p) := by
  unfold Sorted; infer_instance

instance (p : List (Nat × T)) : Decidable (NoZero p) := by
  unfold NoZero; infer_instance

instance (p : List (Nat × T)) : Decidable (Canonical p) := by
  unfold Canonical; infer_instance

/-- No sum of a stored exponent of `p` and a stored exponent of `q` leaves the range of
`size_t`: the key additions of `p * q` do not wrap. -/
def NoWrap (p q : List (Nat × T)) : Prop := ∀ a ∈ p, ∀ b ∈ q, a.1 + b.1 < 2 ^ 64

instance (p q : List (Nat × T)) : Decidable (NoWrap p q) := by
  unfold NoWrap; infer_instance

/-- No product of a stored exponent of `p` and a stored exponent of `q` leaves the range of
`size_t`: the key additions of the powers computed by `p & q` do not wrap. -/
def NoWrapPow (p q : List (Nat × T)) : Prop := ∀ a ∈ p, ∀ b ∈ q, a.1 * b.1 < 2 ^ 64

instance (p q : List (Nat × T)) : Decidable (NoWrapPow p q) := by
  unfold NoWrapPow; infer_instance

end Sparse

/-- Abstraction relation of the dense form: the Mathlib polynomial `P` has, at every
exponent, the coefficient that `operator[]` reads from `p`. -/
def Dense.Rep {T : Type} [CommRing T] (p : List T) (P : Polynomial T) : Prop :=
  ∀ i, P.coeff i = Dense.opIndex p i

/-- Abstraction relation of the sparse form: the Mathlib polynomial `P` has, at every
exponent, the coefficient that `operator[]` reads from `p`. -/
def Sparse.Rep {T : Type} [CommRing T] (p : List (Nat × T)) (P : Polynomial T) : Prop :=
  ∀ i, P.coeff i = Sparse.opIndex p i

/-- The number of coefficients up to the leading one, `Degree() + 1`, of a sparse polynomial. -/
def Sparse.bound {T : Type} (p : List (Nat × T)) : Nat :=
  match p.getLast? with
  | none => 0
  | some e => e.1 + 1

/-- One iteration of the loop of `operator/` in the dense form: the loop body applied to the
state `(res, cur)`. -/
def Dense.divStep {T : Type} [CommRing T] [DecidableEq T] (dv : T → T → T)
    (res cur other : List T) : List T × List T :=
  let dif := toSizeT (Dense.Degree cur - Dense.Degree other)
  let v := List.replicate (dif + 1) (0 : T)
  let v := v.set (v.length - 1)
    (dv (Dense.opIndex cur (toSizeT (Dense.Degree cur)))
      (Dense.opIndex other (toSizeT (Dense.Degree other))))
  let t := Dense.fromVector v
  (Dense.opAddAssign res t, Dense.opSubAssign cur (Dense.opMul other t))

/-- One iteration of the loop of `operator/` in the sparse form: the loop body applied to the
state `(res, cur)`. -/
def Sparse.divStep {T : Type} [CommRing T] [DecidableEq T] (dv : T → T → T)
    (res cur other : List (Nat × T)) : List (Nat × T) × List (Nat × T) :=
  let dif := toSizeT (Sparse.Degree cur - Sparse.Degree other)
  let t := Sparse.set (Sparse.fromScalar 0) dif
    (dv (Sparse.opIndex cur (toSizeT (Sparse.Degree cur)))
      (Sparse.opIndex other (toSizeT (Sparse.Degree other))))
  (Sparse.opAddAssign res t, Sparse.opSubAssign cur (Sparse.opMul other t))

/-- The indices `i + j` at which the double loop of the dense `operator*=` accesses `res`,
in loop order. -/
def Dense.mulWrites {T : Type} (p other : List T) : List Nat :=
  (List.range p.length).flatMap (fun i => (List.range other.length).map (fun j => i + j))

/-- The double loop of the dense `operator*=` with every access `res[i + j]` checked against
the buffer: `none` as soon as an index lies outside `res`. -/
def Dense.mulLoopChecked {T : Type} [CommRing T] (p other res : List T) : Option (List T) :=
  (List.range p.length).foldlM (fun res i =>
    (List.range other.length).foldlM (fun res j =>
      if i + j < res.length then
        some (res.set (i + j) (res.getD (i + j) 0 + p.getD i 0 * other.getD j 0))
      else none) res) res

/-- The loop `while (--i) { ... }` of the dense `operator<<`.  The first argument is the value
of `i` before the decrement, `out` the text written so far; `shw` writes a coefficient.  The
loop is entered with `i >= 1` only. -/
def Dense.printLoop {T : Type} [CommRing T] [DecidableEq T] [LT T]
    [DecidableRel (fun a b : T => a < b)] (shw : T → String) (p : List T) :
    Nat → String → String
  | 0, out => out
  | i + 1, out =>
    if i = 0 then out
    else if Dense.opIndex p i = 0 then Dense.printLoop shw p i out
    else
      let out := if 0 < Dense.opIndex p i then out ++ "+" else out
      let out := if Dense.opIndex p i = -1 then out ++ "-" else out
      let out := if Dense.opIndex p i ≠ 1 ∧ Dense.opIndex p i ≠ -1
        then out ++ shw (Dense.opIndex p i) ++ "*" else out
      let out := out ++ "x"
      let out := if i > 1 then out ++ "^" ++ toString i else out
      Dense.printLoop shw p i out

/-- `operator<<` of the dense form: the text written to the stream. -/
def Dense.print {T : Type} [CommRing T] [DecidableEq T] [LT T]
    [DecidableRel (fun a b : T => a < b)] (shw : T → String) (p : List T) : String :=
  if Dense.Degree p = -1 then shw 0
  else if Dense.Degree p = 0 then shw (Dense.opIndex p 0)
  else if Dense.Degree p > 0 then
    let i := toSizeT (Dense.Degree p)
    let out := ""
    let out := if Dense.opIndex p i = -1 then out ++ "-"
      else if Dense.opIndex p i ≠ 1 then out ++ shw (Dense.opIndex p i) ++ "*" else out
    let out := out ++ "x"
    let out := if i > 1 then out ++ "^" ++ toString i else out
    let out := Dense.printLoop shw p i out
    let out := if 0 < Dense.opIndex p 0 then out ++ "+" else out
    if Dense.opIndex p 0 ≠ 0 then out ++ shw (Dense.opIndex p 0) else out
  else ""

/-- The body of the loop `while (true) { --it; ... }` of the sparse `operator<<` for the
entry `e`. -/
def Sparse.printEntry {T : Type} [CommRing T] [DecidableEq T] [LT T]
    [DecidableRel (fun a b : T => a < b)] (shw : T → String) (out : String) (e : Nat × T) :
    String :=
  if e.1 = 0 then
    let out := if 0 < e.2 then out ++ "+" else out
    if e.2 ≠ 0 then out ++ shw e.2 else out
  else
    let out := if 0 < e.2 then out ++ "+" else out
    let out := if e.2 = -1 then out ++ "-" else out
    let out := if e.2 ≠ 1 ∧ e.2 ≠ -1 then out ++ shw e.2 ++ "*" else out
    let out := out ++ "x"
    if e.1 > 1 then out ++ "^" ++ toString e.1 else out

/-- `operator<<` of the sparse form: the text written to the stream.  The iterator starts at
the last entry and walks back to `p.begin()`. -/
def Sparse.print {T : Type} [CommRing T] [DecidableEq T] [LT T]
    [DecidableRel (fun a b : T => a < b)] (shw : T → String) (p : List (Nat × T)) : String :=
  if Sparse.Degree p = -1 then shw 0
  else if Sparse.Degree p = 0 then shw (Sparse.opIndex p 0)
  else if Sparse.Degree p > 0 then
    match p.reverse with
    | [] => ""
    | lead :: rest =>
      let out := ""
      let out := if lead.2 = -1 then out ++ "-"
        else if lead.2 ≠ 1 then out ++ shw lead.2 ++ "*" else out
      let out := out ++ "x"
      let out := if lead.1 > 1 then out ++ "^" ++ toString lead.1 else out
      rest.foldl (Sparse.printEntry shw) out
  else ""

/-- Canonical text of one term `c x^e`, following the specification: `+` before a positive
coefficient of a term that is not the first; for `e >= 1` nothing when `c == 1`, `-` when
`c == -1`, otherwise `c` and `*`, then `x`, then `^e` when `e > 1`; for `e == 0` just `c`. -/
def termTextSpec (first : Bool) (e : Nat) (c : ℤ) : String :=
  (if first = false ∧ 0 < c then "+" else "") ++
    (if 1 ≤ e then
      (if c = 1 then "" else if c = -1 then "-" else toString c ++ "*") ++ "x" ++
        (if e > 1 then "^" ++ toString e else "")
    else toString c)

/-- Concatenation of the canonical texts of the terms at the exponents `es`, none of them
the first term. -/
def restTextSpec (coeff : Nat → ℤ) : List Nat → String
  | [] => ""
  | e :: es => termTextSpec false e (coeff e) ++ restTextSpec coeff es

/-- Canonical text of the polynomial with coefficients `coeff` and degree `deg`, following
the specification: `0` for the zero polynomial, the coefficient for degree `0`, otherwise the
terms with nonzero coefficient from the degree down to exponent `0`. -/
def canonicalTextSpec (coeff : Nat → ℤ) (deg : ℤ) : String :=
  if deg = -1 then "0"
  else if deg = 0 then toString (coeff 0)
  else
    match ((List.range (deg.toNat + 1)).reverse).filter (fun e => decide (coeff e ≠ 0)) with
    | [] => ""
    | e :: es => termTextSpec true e (coeff e) ++ restTextSpec coeff es

/-- The number of elements of the second range that `std::equal(first1, last1, first2)`
dereferences: one for every element of the first range up to and including the first
mismatch.  A value above the length of the second range is a read past its end. -/
def std_equal_reads {α : Type} [DecidableEq α] : List α → List α → Nat
  | [], _ => 0
  | _ :: _, [] => 1
  | a :: as, b :: bs => if a = b then std_equal_reads as bs + 1 else 1

/-! ## Dense form: `cut`, canonical vectors and coefficient access -/

namespace Dense

variable {T : Type} [CommRing T] [DecidableEq T]

theorem opIndex_eq_getD (p : List T) (i : Nat) : opIndex p i = p.getD i 0 := by
  unfold opIndex
  split
  · rw [List.getD_eq_default]; omega
  · rfl

theorem cut_append_zeros (p : List T) : ∃ k, p = cut p ++ List.replicate k 0 := by
  induction p using List.reverseRecOn with
  | nil => exact ⟨0, by simp [cut]⟩
  | append_singleton l a ih =>
    by_cases h : a = 0
    · obtain ⟨k, hk⟩ := ih
      refine ⟨k + 1, ?_⟩
      unfold cut at *
      rw [List.rdropWhile_concat_pos _ _ _ (by simpa using h)]
      subst h
      rw [List.replicate_succ', ← List.append_assoc, ← hk]
    · exact ⟨0, by unfold cut; rw [List.rdropWhile_concat_neg _ _ _ (by simpa using h)]; simp⟩

theorem getD_append_zeros (p : List T) (k i : Nat) :
    (p ++ List.replicate k 0).getD i 0 = p.getD i 0 := by
  by_cases h : i < p.length
  · rw [List.getD_append _ _ _ _ h]
  · push_neg at h
    rw [List.getD_append_right _ _ _ _ h, List.getD_eq_default p 0 h]
    by_cases h2 : i - p.length < k
    · rw [List.getD_eq_getElem _ _ (by simpa using h2)]; simp
    · rw [List.getD_eq_default _ _ (by simpa using h2)]

theorem getD_cut (p : List T) (i : Nat) : (cut p).getD i 0 = p.getD i 0 := by
  obtain ⟨k, hk⟩ := cut_append_zeros p
  conv_rhs => rw [hk]
  rw [getD_append_zeros]

theorem canonical_iff (p : List T) : Canonical p ↔ ∀ h : p ≠ [], p.getLast h ≠ 0 := by
  unfold Canonical
  constructor
  · intro h hne
    exact h _ (by rw [List.getLast?_eq_getLast _ hne]; rfl)
  · intro h c hc
    cases p with
    | nil => simp at hc
    | cons a l =>
      rw [List.getLast?_eq_getLast _ (List.cons_ne_nil a l)] at hc
      simp only [Option.mem_def, Option.some.injEq] at hc
      rw [← hc]; exact h _

theorem canonical_cut (p : List T) : Canonical (cut p) := by
  rw [canonical_iff]
  intro h
  have := List.rdropWhile_last_not (fun c : T => decide (c = 0)) p h
  simpa using this

theorem cut_eq_self {p : List T} (h : Canonical p) : cut p = p := by
  unfold cut
  rw [List.rdropWhile_eq_self_iff]
  intro hl
  have := (canonical_iff p).1 h hl
  simpa using this

theorem canonical_nil_dense : Canonical ([] : List T) := by
  intro c hc; simp at hc

/-- A canonical list is no longer than `n` exactly when all its coefficients from `n` on vanish. -/
theorem length_le_iff {p : List T} (h : Canonical p) (n : Nat) :
    p.length ≤ n ↔ ∀ m, n ≤ m → p.getD m 0 = 0 := by
  constructor
  · intro hle m hm
    exact List.getD_eq_default _ _ (by omega)
  · intro hz
    by_contra hlt
    push_neg at hlt
    have hne : p ≠ [] := by intro h0; subst h0; simp at hlt
    have h1 := (canonical_iff p).1 h hne
    apply h1
    have h2 := hz (p.length - 1) (by omega)
    rw [List.getLast_eq_getElem]
    rw [List.getD_eq_getElem _ _ (by omega)] at h2
    exact h2

theorem canonical_ext_dense {p q : List T} (hp : Canonical p) (hq : Canonical q)
    (h : ∀ i, p.getD i 0 = q.getD i 0) : p = q := by
  have hlen : p.length = q.length := by
    apply le_antisymm
    · rw [length_le_iff hp]; intro m hm; rw [h]; exact (length_le_iff hq _).1 le_rfl m hm
    · rw [length_le_iff hq]; intro m hm; rw [← h]; exact (length_le_iff hp _).1 le_rfl m hm
  apply List.ext_getElem hlen
  intro i h1 h2
  have := h i
  rwa [List.getD_eq_getElem _ _ h1, List.getD_eq_getElem _ _ h2] at this

end Dense

/-! ## Dense form: the loops of `+=` and `-=` -/

namespace Dense

variable {T : Type} [CommRing T] [DecidableEq T]

/-- Effect of a loop `for i < n: acc[i] = f i acc[i]` on the length and on every entry. -/
theorem foldl_range_set (f : Nat → T → T) (n : Nat) (l : List T) :
    ((List.range n).foldl (fun acc i => acc.set i (f i (acc.getD i 0))) l).length = l.length ∧
    ∀ k, k < l.length →
      ((List.range n).foldl (fun acc i => acc.set i (f i (acc.getD i 0))) l).getD k 0 =
        if k < n then f k (l.getD k 0) else l.getD k 0 := by
  induction n with
  | zero => simp
  | succ n ih =>
    obtain ⟨ihl, ihv⟩ := ih
    rw [List.range_succ, List.foldl_append]
    simp only [List.foldl_cons, List.foldl_nil, List.length_set]
    refine ⟨ihl, fun k hk => ?_⟩
    rw [List.getD_eq_getElem _ _ (by rw [List.length_set, ihl]; exact hk), List.getElem_set]
    by_cases hkn : n = k
    · subst hkn
      simp only [if_true, Nat.lt_succ_self]
      rw [ihv n hk]; simp
    · rw [if_neg hkn, ← List.getD_eq_getElem _ 0, ihv k hk]
      by_cases h1 : k < n
      · rw [if_pos h1, if_pos (by omega)]
      · rw [if_neg h1, if_neg (by omega)]

theorem getD_resize (p : List T) (n i : Nat) (h : p.length ≤ n) :
    (resize p n).getD i 0 = p.getD i 0 := by
  unfold resize
  rw [List.take_of_length_le h, getD_append_zeros]

theorem length_resize (p : List T) (n : Nat) : (resize p n).length = n := by
  unfold resize
  simp only [List.length_append, List.length_take, List.length_replicate]
  omega

/-- Pointwise description of the loop shared by `+=` and `-=`. -/
theorem getD_pointwise (g : T → T → T) (hg : g 0 0 = 0) (p other : List T) (i : Nat) :
    ((List.range (min (if p.length < other.length then resize p other.length else p).length
        other.length)).foldl (fun acc i => acc.set i (g (acc.getD i 0) (other.getD i 0)))
      (if p.length < other.length then resize p other.length else p)).getD i 0 =
    if i < other.length then g (p.getD i 0) (other.getD i 0) else p.getD i 0 := by
  set p1 := (if p.length < other.length then resize p other.length else p) with hp1
  have hlen : other.length ≤ p1.length := by
    rw [hp1]; split
    · rw [length_resize]
    · omega
  have hget : ∀ k, p1.getD k 0 = p.getD k 0 := by
    intro k; rw [hp1]; split
    · exact getD_resize _ _ _ (by omega)
    · rfl
  rw [min_eq_right hlen]
  obtain ⟨hl, hv⟩ := foldl_range_set (fun i a => g a (other.getD i 0)) other.length p1
  by_cases hi : i < p1.length
  · rw [hv i hi, hget]
  · push_neg at hi
    rw [List.getD_eq_default _ _ (by rw [hl]; exact hi)]
    rw [if_neg (by omega), ← hget, List.getD_eq_default _ _ hi]

theorem getD_opAddAssign (p other : List T) (i : Nat) :
    (opAddAssign p other).getD i 0 = p.getD i 0 + other.getD i 0 := by
  unfold opAddAssign
  simp only
  rw [getD_cut, getD_pointwise (fun a b => a + b) (by simp)]
  split
  · rfl
  · rw [List.getD_eq_default other 0 (by omega), add_zero]

theorem getD_opSubAssign (p other : List T) (i : Nat) :
    (opSubAssign p other).getD i 0 = p.getD i 0 - other.getD i 0 := by
  unfold opSubAssign
  simp only
  rw [getD_cut, getD_pointwise (fun a b => a - b) (by simp)]
  split
  · rfl
  · rw [List.getD_eq_default other 0 (by omega), sub_zero]

theorem canonical_opAddAssign_dense (p other : List T) : Canonical (opAddAssign p other) :=
  canonical_cut _

theorem canonical_opSubAssign_dense (p other : List T) : Canonical (opSubAssign p other) :=
  canonical_cut _

theorem canonical_opMulAssign_dense (p other : List T) : Canonical (opMulAssign p other) :=
  canonical_cut _

end Dense

/-! ## Dense form: the double loop of `*=` -/

namespace Dense

variable {T : Type} [CommRing T] [DecidableEq T]

/-- Inner loop of `operator*=` for a fixed `i`: entry `k` receives `c * other[k - i]`. -/
theorem mul_inner_dense (other : List T) (i : Nat) (c : T) (n : Nat) (res : List T) :
    ((List.range n).foldl (fun res j =>
        res.set (i + j) (res.getD (i + j) 0 + c * other.getD j 0)) res).length = res.length ∧
    ∀ k, k < res.length →
      ((List.range n).foldl (fun res j =>
        res.set (i + j) (res.getD (i + j) 0 + c * other.getD j 0)) res).getD k 0 =
        res.getD k 0 + if i ≤ k ∧ k < i + n then c * other.getD (k - i) 0 else 0 := by
  induction n with
  | zero =>
    refine ⟨rfl, fun k _ => ?_⟩
    rw [if_neg (by omega)]; simp
  | succ n ih =>
    obtain ⟨ihl, ihv⟩ := ih
    rw [List.range_succ, List.foldl_append]
    simp only [List.foldl_cons, List.foldl_nil, List.length_set]
    refine ⟨ihl, fun k hk => ?_⟩
    rw [List.getD_eq_getElem _ _ (by rw [List.length_set, ihl]; exact hk), List.getElem_set]
    by_cases hkn : i + n = k
    · subst hkn
      simp only [if_true]
      rw [ihv _ hk, if_neg (by omega), if_pos (by omega), add_zero, Nat.add_sub_cancel_left]
    · rw [if_neg hkn, ← List.getD_eq_getElem _ 0, ihv k hk]
      by_cases h1 : i ≤ k ∧ k < i + n
      · rw [if_pos h1, if_pos (by omega)]
      · rw [if_neg h1, if_neg (by omega)]

/-- The double loop of `operator*=`: entry `k` of the buffer receives the `k`-th convolution sum. -/
theorem mul_outer_dense (p other : List T) (n : Nat) (res : List T) :
    ((List.range n).foldl (fun res i =>
      (List.range other.length).foldl (fun res j =>
        res.set (i + j) (res.getD (i + j) 0 + p.getD i 0 * other.getD j 0)) res) res).length
      = res.length ∧
    ∀ k, k < res.length →
      ((List.range n).foldl (fun res i =>
        (List.range other.length).foldl (fun res j =>
          res.set (i + j) (res.getD (i + j) 0 + p.getD i 0 * other.getD j 0)) res) res).getD k 0
      = res.getD k 0 + ∑ i in Finset.range n,
          if i ≤ k ∧ k < i + other.length then p.getD i 0 * other.getD (k - i) 0 else 0 := by
  induction n with
  | zero => simp
  | succ n ih =>
    obtain ⟨ihl, ihv⟩ := ih
    rw [List.range_succ, List.foldl_append]
    simp only [List.foldl_cons, List.foldl_nil]
    obtain ⟨hl, hv⟩ := mul_inner_dense other n (p.getD n 0) other.length
      ((List.range n).foldl (fun res i =>
        (List.range other.length).foldl (fun res j =>
          res.set (i + j) (res.getD (i + j) 0 + p.getD i 0 * other.getD j 0)) res) res)
    refine ⟨hl.trans ihl, fun k hk => ?_⟩
    rw [hv k (by rw [ihl]; exact hk), ihv k hk, Finset.sum_range_succ, add_assoc]

/-- Coefficients of the product computed by `operator*=`. -/
theorem getD_opMulAssign (p other : List T) (k : Nat) :
    (opMulAssign p other).getD k 0 =
      ∑ i in Finset.range (k + 1), p.getD i 0 * other.getD (k - i) 0 := by
  unfold opMulAssign mulLoop new_size
  rw [getD_cut]
  obtain ⟨hl, hv⟩ := mul_outer_dense p other p.length (List.replicate (p.length * other.length) 0)
  have key : ∀ N, p.length ≤ N → k + 1 ≤ N →
      (∑ i in Finset.range p.length,
        if i ≤ k ∧ k < i + other.length then p.getD i 0 * other.getD (k - i) 0 else 0) =
      ∑ i in Finset.range (k + 1), p.getD i 0 * other.getD (k - i) 0 := by
    intro N h1 h2
    have e1 : (∑ i in Finset.range p.length,
        if i ≤ k ∧ k < i + other.length then p.getD i 0 * other.getD (k - i) 0 else 0) =
        ∑ i in Finset.range N, if i ≤ k then p.getD i 0 * other.getD (k - i) 0 else 0 := by
      rw [← Finset.sum_subset (Finset.range_subset.2 h1)]
      · apply Finset.sum_congr rfl
        intro i _
        by_cases hik : i ≤ k
        · by_cases h3 : k < i + other.length
          · rw [if_pos ⟨hik, h3⟩, if_pos hik]
          · rw [if_neg (by tauto), if_pos hik, List.getD_eq_default other 0 (by omega), mul_zero]
        · rw [if_neg (by tauto), if_neg hik]
      · intro i _ hi
        rw [Finset.mem_range] at hi
        rw [List.getD_eq_default p 0 (by omega), zero_mul, ite_self]
    have e2 : (∑ i in Finset.range (k + 1), p.getD i 0 * other.getD (k - i) 0) =
        ∑ i in Finset.range N, if i ≤ k then p.getD i 0 * other.getD (k - i) 0 else 0 := by
      rw [← Finset.sum_subset (Finset.range_subset.2 h2)]
      · apply Finset.sum_congr rfl
        intro i hi
        rw [Finset.mem_range] at hi
        rw [if_pos (by omega)]
      · intro i _ hi
        rw [Finset.mem_range] at hi
        rw [if_neg (by omega)]
    rw [e1, e2]
  by_cases hk : k < p.length * other.length
  · rw [hv k (by simpa using hk), key (p.length + k + 1) (by omega) (by omega)]
    rw [List.getD_eq_getElem _ _ (by simpa using hk)]
    simp
  · push_neg at hk
    rw [List.getD_eq_default _ _ (by rw [hl]; simpa using hk)]
    symm
    apply Finset.sum_eq_zero
    intro i hi
    rw [Finset.mem_range] at hi
    by_cases h1 : i < p.length
    · have h2 : other.length ≤ k - i := by
        by_contra h3
        push_neg at h3
        have h4 : (i + 1) * (k - i + 1) ≤ p.length * other.length :=
          Nat.mul_le_mul (by omega) (by omega)
        have h5 : k + 1 ≤ (i + 1) * (k - i + 1) := by
          have : (i + 1) * (k - i + 1) = i * (k - i) + i + (k - i) + 1 := by ring
          rw [this]
          have : i + (k - i) = k := by omega
          omega
        omega
      rw [List.getD_eq_default other 0 h2, mul_zero]
    · rw [List.getD_eq_default p 0 (by omega), zero_mul]

end Dense

/-! ## Dense form: the abstraction relation and evaluation -/

namespace Dense

variable {T : Type} [CommRing T] [DecidableEq T]

theorem rep_iff_dense (p : List T) (P : Polynomial T) : Rep p P ↔ ∀ i, P.coeff i = p.getD i 0 := by
  unfold Rep
  simp only [opIndex_eq_getD]

theorem rep_nil_dense : Rep ([] : List T) 0 := by
  rw [rep_iff_dense]; intro i; simp

theorem Rep.cut {p : List T} {P : Polynomial T} (h : Rep p P) : Rep (cut p) P := by
  rw [rep_iff_dense] at *; intro i; rw [getD_cut, h]

theorem Rep.add_dense {p q : List T} {P Q : Polynomial T} (hp : Rep p P) (hq : Rep q Q) :
    Rep (opAddAssign p q) (P + Q) := by
  rw [rep_iff_dense] at *; intro i
  rw [getD_opAddAssign, Polynomial.coeff_add, hp, hq]

theorem Rep.sub_dense {p q : List T} {P Q : Polynomial T} (hp : Rep p P) (hq : Rep q Q) :
    Rep (opSubAssign p q) (P - Q) := by
  rw [rep_iff_dense] at *; intro i
  rw [getD_opSubAssign, Polynomial.coeff_sub, hp, hq]

theorem Rep.mul_dense {p q : List T} {P Q : Polynomial T} (hp : Rep p P) (hq : Rep q Q) :
    Rep (opMulAssign p q) (P * Q) := by
  rw [rep_iff_dense] at *; intro k
  rw [getD_opMulAssign, Polynomial.coeff_mul, Finset.Nat.sum_antidiagonal_eq_sum_range_succ_mk]
  apply Finset.sum_congr rfl
  intro i _
  rw [hp, hq]

theorem rep_cons {a : T} {l : List T} {P : Polynomial T} (h : Rep l P) :
    Rep (a :: l) (Polynomial.C a + Polynomial.X * P) := by
  rw [rep_iff_dense] at *; intro i
  cases i with
  | zero => simp
  | succ i => simp [h i]

theorem rep_exists_dense (p : List T) : ∃ P : Polynomial T, Rep p P := by
  induction p with
  | nil => exact ⟨0, rep_nil_dense⟩
  | cons a l ih =>
    obtain ⟨P, hP⟩ := ih
    exact ⟨_, rep_cons hP⟩

theorem Rep.unique_dense {p : List T} {P Q : Polynomial T} (hp : Rep p P) (hq : Rep p Q) : P = Q := by
  apply Polynomial.ext; intro i; rw [hp i, hq i]

theorem rep_fromScalar_dense (k : T) : Rep (fromScalar k) (Polynomial.C k) := by
  unfold fromScalar
  apply Rep.cut
  have := rep_cons (a := k) (rep_nil_dense (T := T))
  simpa using this

theorem rep_fromVector_dense {v : List T} {P : Polynomial T} (h : Rep v P) : Rep (fromVector v) P :=
  h.cut

theorem Rep.ext_dense {p q : List T} {P : Polynomial T} (hp : Canonical p) (hq : Canonical q)
    (h1 : Rep p P) (h2 : Rep q P) : p = q := by
  rw [rep_iff_dense] at h1 h2
  exact canonical_ext_dense hp hq (fun i => by rw [← h1, ← h2])

theorem Rep.length_le_iff_deg {p : List T} {P : Polynomial T} (hc : Canonical p) (h : Rep p P)
    (n : Nat) : p.length ≤ n ↔ P.degree < n := by
  rw [rep_iff_dense] at h
  rw [Dense.length_le_iff hc, Polynomial.degree_lt_iff_coeff_zero]
  simp only [h]

theorem Rep.eq_nil_iff_dense {p : List T} {P : Polynomial T} (hc : Canonical p) (h : Rep p P) :
    p = [] ↔ P = 0 := by
  constructor
  · intro h0; subst h0; exact h.unique_dense rep_nil_dense
  · intro h0; subst h0; exact Rep.ext_dense hc canonical_nil_dense h rep_nil_dense

theorem Rep.length {p : List T} {P : Polynomial T} (hc : Canonical p) (h : Rep p P)
    (h0 : P ≠ 0) : p.length = P.natDegree + 1 := by
  apply le_antisymm
  · rw [Rep.length_le_iff_deg hc h]
    have := Polynomial.degree_le_natDegree (p := P)
    exact lt_of_le_of_lt this (by exact_mod_cast Nat.lt_succ_self _)
  · by_contra hlt
    push_neg at hlt
    have h1 : p.length ≤ P.natDegree := by omega
    rw [Rep.length_le_iff_deg hc h, Polynomial.degree_eq_natDegree h0] at h1
    exact absurd h1 (lt_irrefl _)

/-- In a canonical polynomial `p[p.Degree()]` is the leading coefficient (and `T()` for zero). -/
theorem Rep.lead_dense {p : List T} {P : Polynomial T} (hc : Canonical p) (h : Rep p P) :
    opIndex p (toSizeT (Degree p)) = P.leadingCoeff := by
  by_cases h0 : P = 0
  · have := (Rep.eq_nil_iff_dense hc h).2 h0
    subst this; subst h0
    simp [opIndex]
  · have hl := Rep.length hc h h0
    have : toSizeT (Degree p) = P.natDegree := by
      unfold toSizeT Degree
      rw [hl, if_pos (by push_cast; omega)]
      simp
    rw [this, ← h, Polynomial.leadingCoeff]

theorem Rep.degree_eq_dense {p : List T} {P : Polynomial T} (hc : Canonical p) (h : Rep p P)
    (h0 : P ≠ 0) : Degree p = P.natDegree := by
  unfold Degree; rw [Rep.length hc h h0]; simp

/-- The loop of `operator()` after `n` steps: `cur = v^n`, `res = Σ_{i<n} v^i * p[i]`. -/
theorem eval_loop (p : List T) (v : T) (n : Nat) :
    (List.range n).foldl (fun (st : T × T) i => (st.1 * v, st.2 + st.1 * p.getD i 0)) (1, 0) =
      (v ^ n, ∑ i in Finset.range n, v ^ i * p.getD i 0) := by
  induction n with
  | zero => simp
  | succ n ih =>
    rw [List.range_succ, List.foldl_append, ih]
    simp [Finset.sum_range_succ, pow_succ]

theorem Rep.eval_dense {p : List T} {P : Polynomial T} (h : Rep p P) (v : T) :
    opCall p v = P.eval v := by
  have hsum : opCall p v = ∑ i in Finset.range p.length, v ^ i * p.getD i 0 := by
    unfold opCall
    split
    · rename_i he
      have : p = [] := by simpa using he
      subst this; simp
    · rw [eval_loop]
  rw [hsum]
  rw [rep_iff_dense] at h
  have hdeg : P.degree < p.length := by
    rw [Polynomial.degree_lt_iff_coeff_zero]
    intro m hm; rw [h]; exact List.getD_eq_default _ _ hm
  by_cases h0 : P = 0
  · subst h0
    simp only [Polynomial.eval_zero]
    apply Finset.sum_eq_zero
    intro i _; rw [← h]; simp
  · rw [Polynomial.eval_eq_sum_range' ((Polynomial.natDegree_lt_iff_degree_lt h0).2 hdeg)]
    apply Finset.sum_congr rfl
    intro i _; rw [h, mul_comm]

end Dense

/-! ## Equality, one step of long division, composition -/

/-- `std::equal` on ranges of equal length decides equality of the ranges. -/
theorem std_equal_eq_decide {α : Type} [DecidableEq α] :
    ∀ (p q : List α), p.length = q.length → std_equal p q = some (decide (p = q))
  | [], [], _ => by simp [std_equal]
  | [], _ :: _, h => by simp at h
  | _ :: _, [], h => by simp at h
  | a :: as, b :: bs, h => by
    have ih := std_equal_eq_decide as bs (by simpa using h)
    unfold std_equal
    by_cases hab : a = b
    · rw [if_pos hab, ih]; simp [hab]
    · rw [if_neg hab]; simp [hab]

theorem std_equal_self {α : Type} [DecidableEq α] (p : List α) : std_equal p p = some true := by
  rw [std_equal_eq_decide p p rfl]; simp

/-- One step of long division cancels the leading term: with `c` the quotient of the leading
coefficients, the degree of `Cur - Q * (c x^d)` drops. -/
theorem poly_div_step {T : Type} [CommRing T] (Cur Q : Polynomial T) (c : T)
    (hc : Q.leadingCoeff * c = Cur.leadingCoeff) (hCur : Cur ≠ 0)
    (hdeg : Q.natDegree ≤ Cur.natDegree) :
    (Cur - Q * Polynomial.monomial (Cur.natDegree - Q.natDegree) c).degree < Cur.degree := by
  have hlc : Cur.leadingCoeff ≠ 0 := Polynomial.leadingCoeff_ne_zero.2 hCur
  have hc0 : c ≠ 0 := by
    intro h; rw [h, mul_zero] at hc; exact hlc hc.symm
  have hQ : Q ≠ 0 := by
    intro h; rw [h, Polynomial.leadingCoeff_zero, zero_mul] at hc; exact hlc hc.symm
  have hprod : Q.leadingCoeff *
      (Polynomial.monomial (Cur.natDegree - Q.natDegree) c).leadingCoeff ≠ 0 := by
    rw [Polynomial.leadingCoeff_monomial, hc]; exact hlc
  apply Polynomial.degree_sub_lt _ hCur
  · rw [Polynomial.leadingCoeff_mul' hprod, Polynomial.leadingCoeff_monomial, hc]
  · rw [Polynomial.degree_mul' hprod, Polynomial.degree_monomial _ hc0,
      Polynomial.degree_eq_natDegree hCur, Polynomial.degree_eq_natDegree hQ]
    rw [← Nat.cast_add]
    congr 1
    omega

theorem span_pair_zero {F : Type} [Field F] (C : Polynomial F) :
    Ideal.span {C, (0 : Polynomial F)} = Ideal.span {C} := by
  rw [Ideal.span_pair_comm]
  exact Submodule.span_insert_zero

/-- Field division is exact: `b * (a / b) = a` for `b ≠ 0`. -/
theorem field_dv {F : Type} [Field F] (b : F) (hb : b ≠ 0) :
    ∀ a, b * (fun x y : F => x / y) a b = a := by
  intro a; field_simp

namespace Dense

variable {T : Type} [CommRing T] [DecidableEq T]

theorem opEq_eq_decide (p q : List T) : opEq p q = some (decide (p = q)) := by
  unfold opEq
  split
  · rename_i h; exact std_equal_eq_decide p q h
  · rename_i h
    have : p ≠ q := fun e => h (by rw [e])
    simp [this]

theorem opEq_self_dense (p : List T) : opEq p p = some true := by
  rw [opEq_eq_decide]; simp

theorem opNe_nil_dense (p : List T) : opNe p (fromScalar 0) = some (decide (p ≠ [])) := by
  unfold opNe
  rw [opEq_eq_decide]
  have : fromScalar (0 : T) = [] := by simp [fromScalar, cut, List.rdropWhile_singleton]
  rw [this]
  simp

theorem fromScalar_zero_dense : fromScalar (0 : T) = [] := by
  simp [fromScalar, cut, List.rdropWhile_singleton]

/-- The single-term polynomial `t` built in each iteration of `operator/`. -/
theorem rep_term_dense (d : Nat) (c : T) :
    Rep (fromVector ((List.replicate (d + 1) (0 : T)).set
      ((List.replicate (d + 1) (0 : T)).length - 1) c)) (Polynomial.monomial d c) := by
  apply Rep.cut
  rw [rep_iff_dense]
  intro i
  rw [Polynomial.coeff_monomial, List.length_replicate, Nat.add_sub_cancel]
  by_cases h : d = i
  · subst h
    rw [if_pos rfl, List.getD_eq_getElem _ _ (by simp), List.getElem_set_self]
  · rw [if_neg h]
    by_cases h2 : i < d + 1
    · rw [List.getD_eq_getElem _ _ (by simpa using h2), List.getElem_set_ne h]
      simp
    · rw [List.getD_eq_default _ _ (by simpa using h2)]

theorem Rep.length_lt_iff {p q : List T} {P Q : Polynomial T} (hp : Canonical p)
    (hq : Canonical q) (h1 : Rep p P) (h2 : Rep q Q) :
    p.length < q.length ↔ P.degree < Q.degree := by
  by_cases hQ : Q = 0
  · have := (Rep.eq_nil_iff_dense hq h2).2 hQ
    subst this; subst hQ
    simp
  · have hl := Rep.length hq h2 hQ
    rw [Polynomial.degree_eq_natDegree hQ, ← Rep.length_le_iff_deg hp h1, hl]
    omega

/-- Composition loop of `operator&` after `n` steps. -/
theorem and_loop {p r : List T} {R : Polynomial T} (hr : Rep r R) (n : Nat) :
    Rep ((List.range n).foldl (fun (st : List T × List T) i =>
      (opAddAssign st.1 (opMul st.2 (fromScalar (p.getD i 0))), opMulAssign st.2 r))
      (fromScalar 0, fromScalar 1)).1
      (∑ i in Finset.range n, Polynomial.C (p.getD i 0) * R ^ i) ∧
    Rep ((List.range n).foldl (fun (st : List T × List T) i =>
      (opAddAssign st.1 (opMul st.2 (fromScalar (p.getD i 0))), opMulAssign st.2 r))
      (fromScalar 0, fromScalar 1)).2 (R ^ n) := by
  induction n with
  | zero =>
    simp only [List.range_zero, List.foldl_nil, Finset.range_zero, Finset.sum_empty, pow_zero]
    constructor
    · simpa using rep_fromScalar_dense (0 : T)
    · simpa using rep_fromScalar_dense (1 : T)
  | succ n ih =>
    rw [List.range_succ, List.foldl_append]
    simp only [List.foldl_cons, List.foldl_nil]
    constructor
    · rw [Finset.sum_range_succ, mul_comm (Polynomial.C _)]
      exact Rep.add_dense ih.1 (Rep.mul_dense ih.2 (rep_fromScalar_dense _))
    · rw [pow_succ]
      exact Rep.mul_dense ih.2 hr

theorem Rep.natDegree_lt {p : List T} {P : Polynomial T} (h : Rep p P) (hne : p ≠ []) :
    P.natDegree < p.length := by
  rw [rep_iff_dense] at h
  have hpos : 0 < p.length := List.length_pos.2 hne
  by_cases h0 : P = 0
  · subst h0; simpa using hpos
  · rw [Polynomial.natDegree_lt_iff_degree_lt h0, Polynomial.degree_lt_iff_coeff_zero]
    intro m hm; rw [h]; exact List.getD_eq_default _ _ hm

/-- `operator&` computes the composition `P ∘ R`. -/
theorem Rep.comp_dense {p r : List T} {P R : Polynomial T} (hp : Rep p P) (hr : Rep r R) :
    Rep (opAnd p r) (P.comp R) := by
  have h := (and_loop (p := p) hr p.length).1
  have e : P.comp R = ∑ i in Finset.range p.length, Polynomial.C (p.getD i 0) * R ^ i := by
    by_cases hne : p = []
    · subst hne
      have : P = 0 := hp.unique_dense rep_nil_dense
      subst this; simp
    · rw [Polynomial.comp, Polynomial.eval₂_eq_sum_range' _ (hp.natDegree_lt hne)]
      apply Finset.sum_congr rfl
      intro i _
      rw [(rep_iff_dense p P).1 hp i]
  rw [e]
  exact h

theorem canonical_opAnd_dense (p r : List T) : Canonical (opAnd p r) := by
  unfold opAnd
  cases h : p.length with
  | zero =>
    simp only [List.range_zero, List.foldl_nil]
    exact canonical_cut _
  | succ n =>
    rw [List.range_succ, List.foldl_append]
    simp only [List.foldl_cons, List.foldl_nil]
    exact canonical_cut _

end Dense

/-! ## Dense form: the loop of `operator/` -/

namespace Dense

variable {T : Type} [CommRing T] [DecidableEq T]

theorem degree_ge_iff_dense (cur other : List T) :
    Degree cur ≥ Degree other ↔ other.length ≤ cur.length := by
  unfold Degree; omega

theorem toSizeT_degree_sub_dense (cur other : List T) (h : other.length ≤ cur.length) :
    toSizeT (Degree cur - Degree other) = cur.length - other.length := by
  unfold toSizeT Degree
  rw [if_pos (by omega)]
  omega

/-- Correctness of the division loop, for a divisor whose leading coefficient `b` divides
exactly (`b * dv a b = a`): with fuel for `cur.size() - other.size() + 1` iterations the loop
exits, the invariant `res * other + cur` is preserved and the final `cur` is shorter than
`other`. -/
theorem divLoop_spec_dense (dv : T → T → T) {other : List T} {Q : Polynomial T}
    (ho : Canonical other) (hQ : Rep other Q) (hQ0 : Q ≠ 0)
    (hdv : ∀ a, Q.leadingCoeff * dv a Q.leadingCoeff = a) :
    ∀ (fuel : Nat) (res cur : List T) (Res Cur : Polynomial T),
      Canonical res → Canonical cur → Rep res Res → Rep cur Cur →
      cur.length + 1 ≤ fuel + other.length →
      ∃ res' cur' Res' Cur', divLoop dv fuel res cur other = some (res', cur') ∧
        Canonical res' ∧ Canonical cur' ∧ Rep res' Res' ∧ Rep cur' Cur' ∧
        Res' * Q + Cur' = Res * Q + Cur ∧ cur'.length < other.length := by
  have holen : other.length = Q.natDegree + 1 := Rep.length ho hQ hQ0
  intro fuel
  induction fuel with
  | zero =>
    intro res cur Res Cur hres hcur hRes hCur hfuel
    rw [divLoop, if_neg (by rw [degree_ge_iff_dense]; omega)]
    exact ⟨res, cur, Res, Cur, rfl, hres, hcur, hRes, hCur, rfl, by omega⟩
  | succ fuel ih =>
    intro res cur Res Cur hres hcur hRes hCur hfuel
    rw [divLoop]
    by_cases hcond : Degree cur ≥ Degree other
    · rw [if_pos hcond]
      rw [degree_ge_iff_dense] at hcond
      have hCur0 : Cur ≠ 0 := by
        intro h0
        have := (Rep.eq_nil_iff_dense hcur hCur).2 h0
        subst this
        simp only [List.length_nil] at hcond; omega
      have hclen : cur.length = Cur.natDegree + 1 := Rep.length hcur hCur hCur0
      simp only
      rw [toSizeT_degree_sub_dense cur other hcond, Rep.lead_dense hcur hCur, Rep.lead_dense ho hQ]
      have hd : cur.length - other.length = Cur.natDegree - Q.natDegree := by omega
      have ht := rep_term_dense (cur.length - other.length) (dv Cur.leadingCoeff Q.leadingCoeff)
      have hres1 := Rep.add_dense hRes ht
      have hcur1 := Rep.sub_dense hCur (Rep.mul_dense hQ ht)
      have hlt : (opSubAssign cur (opMulAssign other (fromVector
          ((List.replicate (cur.length - other.length + 1) (0 : T)).set
            ((List.replicate (cur.length - other.length + 1) (0 : T)).length - 1)
            (dv Cur.leadingCoeff Q.leadingCoeff))))).length < cur.length := by
        apply (Rep.length_lt_iff (canonical_opSubAssign_dense _ _) hcur hcur1 hCur).2
        rw [hd]
        exact poly_div_step Cur Q _ (hdv _) hCur0 (by omega)
      obtain ⟨res', cur', Res', Cur', h1, h2, h3, h4, h5, h6, h7⟩ :=
        ih _ _ _ _ (canonical_opAddAssign_dense _ _) (canonical_opSubAssign_dense _ _) hres1 hcur1
          (by omega)
      refine ⟨res', cur', Res', Cur', h1, h2, h3, h4, h5, ?_, h7⟩
      rw [h6]; ring
    · rw [if_neg hcond]
      rw [degree_ge_iff_dense] at hcond
      exact ⟨res, cur, Res, Cur, rfl, hres, hcur, hRes, hCur, rfl, by omega⟩

/-- More fuel does not change a result of the division loop. -/
theorem divLoop_mono_dense (dv : T → T → T) (other : List T) :
    ∀ (fuel k : Nat) (res cur : List T) (x : List T × List T),
      divLoop dv fuel res cur other = some x → divLoop dv (fuel + k) res cur other = some x := by
  intro fuel
  induction fuel with
  | zero =>
    intro k res cur x h
    unfold divLoop at h
    by_cases hcond : Degree cur ≥ Degree other
    · rw [if_pos hcond] at h; simp at h
    · rw [if_neg hcond] at h
      unfold divLoop; rw [if_neg hcond]; exact h
  | succ fuel ih =>
    intro k res cur x h
    unfold divLoop at h
    have e : fuel + 1 + k = (fuel + k) + 1 := by omega
    rw [e]; unfold divLoop
    by_cases hcond : Degree cur ≥ Degree other
    · rw [if_pos hcond] at h ⊢
      exact ih k _ _ x h
    · rw [if_neg hcond] at h ⊢; exact h

end Dense

/-! ## Dense form: quotient, remainder and the Euclidean loop -/

namespace Dense

variable {T : Type} [CommRing T] [DecidableEq T]

/-- Quotient and remainder: with enough fuel `operator/` returns the `res` of the loop,
`operator%` returns the final `cur` of the loop, and that remainder is shorter than the
divisor. -/
theorem div_mod_spec_dense (dv : T → T → T) {p q : List T} {P Q : Polynomial T}
    (hp : Canonical p) (hq : Canonical q) (hP : Rep p P) (hQ : Rep q Q) (hQ0 : Q ≠ 0)
    (hdv : ∀ a, Q.leadingCoeff * dv a Q.leadingCoeff = a)
    (fuel : Nat) (hfuel : p.length + 1 ≤ fuel + q.length) :
    ∃ a r A, divLoop dv fuel (fromScalar 0) p q = some (a, r) ∧
      opDiv dv fuel p q = some a ∧ opMod dv fuel p q = some r ∧
      Canonical a ∧ Canonical r ∧ Rep a A ∧ Rep r (P - A * Q) ∧ r.length < q.length := by
  obtain ⟨a, r, A, R, h1, h2, h3, h4, h5, h6, h7⟩ :=
    divLoop_spec_dense dv hq hQ hQ0 hdv fuel (fromScalar 0) p 0 P
      (canonical_cut _) hp (by rw [fromScalar_zero_dense]; exact rep_nil_dense) hP hfuel
  have hR : R = P - A * Q := by
    have : A * Q + R = P := by rw [h6]; ring
    rw [← this]; ring
  subst hR
  have hdiv : opDiv dv fuel p q = some a := by
    unfold opDiv; rw [h1]; rfl
  have hmod : opMod dv fuel p q = some (opSub p (opMul a q)) := by
    unfold opMod; rw [hdiv]; rfl
  have hr : opSub p (opMul a q) = r :=
    Rep.ext_dense (canonical_opSubAssign_dense _ _) h3 (Rep.sub_dense hP (Rep.mul_dense h4 hQ)) h5
  rw [hr] at hmod
  exact ⟨a, r, A, h1, hdiv, hmod, h2, h3, h4, h5, h7⟩

/-- Every Mathlib polynomial is represented by a canonical coefficient vector. -/
theorem rep_surj_dense (P : Polynomial T) : ∃ p : List T, Canonical p ∧ Rep p P := by
  refine ⟨cut ((List.range (P.natDegree + 1)).map P.coeff), canonical_cut _, Rep.cut ?_⟩
  rw [rep_iff_dense]
  intro i
  by_cases h : i < P.natDegree + 1
  · rw [List.getD_eq_getElem _ _ (by simpa using h)]
    simp
  · rw [List.getD_eq_default _ _ (by simpa using h)]
    exact Polynomial.coeff_eq_zero_of_natDegree_lt (by omega)

end Dense

namespace Dense

variable {F : Type} [Field F] [DecidableEq F]

/-- Over a field, `p % q` is the zero polynomial exactly when `Q` divides `P`. -/
theorem mod_eq_nil_iff_dense {p q : List F} {P Q : Polynomial F}
    (hp : Canonical p) (hq : Canonical q) (hP : Rep p P) (hQ : Rep q Q) (hQ0 : Q ≠ 0)
    (fuel : Nat) (hfuel : p.length + 1 ≤ fuel + q.length) :
    opMod (fun x y : F => x / y) fuel p q = some [] ↔ Q ∣ P := by
  obtain ⟨a, r, A, _, _, hmod, _, hr, _, hR, hlt⟩ :=
    div_mod_spec_dense (fun x y : F => x / y) hp hq hP hQ hQ0
      (field_dv _ (Polynomial.leadingCoeff_ne_zero.2 hQ0)) fuel hfuel
  rw [hmod]
  constructor
  · intro h
    have : r = [] := by simpa using h
    subst this
    have h0 : P - A * Q = 0 := hR.unique_dense rep_nil_dense
    exact ⟨A, by rw [mul_comm]; exact sub_eq_zero.1 h0⟩
  · intro hdvd
    have hdeg : (P - A * Q).degree < Q.degree :=
      (Rep.length_lt_iff hr hq hR hQ).1 hlt
    have h0 : P - A * Q = 0 :=
      Polynomial.eq_zero_of_dvd_of_degree_lt (dvd_sub hdvd (Dvd.intro_left A rfl)) hdeg
    rw [h0] at hR
    rw [(Rep.eq_nil_iff_dense hr hR).2 rfl]

/-- The Euclidean loop of `operator,`: with fuel for `other.size()` iterations it exits with
a `cur` that generates the same ideal as the initial pair. -/
theorem gcdLoop_spec_dense (fuel : Nat) :
    ∀ (n : Nat) (cur other : List F) (C O : Polynomial F),
      Canonical cur → Canonical other → Rep cur C → Rep other O →
      other.length ≤ n → cur.length ≤ fuel → other.length ≤ fuel →
      ∃ g G, gcdLoop (fun x y : F => x / y) fuel n cur other = some g ∧ Canonical g ∧
        Rep g G ∧ Ideal.span {G} = Ideal.span {C, O} ∧ g.length ≤ fuel := by
  intro n
  induction n with
  | zero =>
    intro cur other C O hc ho hC hO hn hcf hof
    have : other = [] := List.length_eq_zero.1 (by omega)
    subst this
    have hO0 : O = 0 := hO.unique_dense rep_nil_dense
    subst hO0
    unfold gcdLoop
    rw [opNe_nil_dense]
    simp only [ne_eq, not_true_eq_false, decide_False]
    refine ⟨cur, C, rfl, hc, hC, ?_, hcf⟩
    exact (span_pair_zero C).symm
  | succ n ih =>
    intro cur other C O hc ho hC hO hn hcf hof
    unfold gcdLoop
    rw [opNe_nil_dense]
    by_cases h0 : other = []
    · subst h0
      have hO0 : O = 0 := hO.unique_dense rep_nil_dense
      subst hO0
      simp only [ne_eq, not_true_eq_false, decide_False]
      refine ⟨cur, C, rfl, hc, hC, ?_, hcf⟩
      exact (span_pair_zero C).symm
    · simp only [ne_eq, h0, not_false_eq_true, decide_True]
      have hO0 : O ≠ 0 := fun h => h0 ((Rep.eq_nil_iff_dense ho hO).2 h)
      have hpos : 0 < other.length := List.length_pos.2 h0
      obtain ⟨a, r, A, _, _, hmod, _, hr, _, hR, hlt⟩ :=
        div_mod_spec_dense (fun x y : F => x / y) hc ho hC hO hO0
          (field_dv _ (Polynomial.leadingCoeff_ne_zero.2 hO0)) fuel (by omega)
      rw [hmod]
      simp only
      obtain ⟨g, G, h1, h2, h3, h4, h5⟩ :=
        ih other r O (C - A * O) ho hr hO hR (by omega) hof (by omega)
      refine ⟨g, G, h1, h2, h3, ?_, h5⟩
      rw [h4]
      have e : C - A * O = C + O * (-A) := by ring
      rw [e, Ideal.span_pair_add_mul_right, Ideal.span_pair_comm]

end Dense

/-! ## Dense form: `operator,` returns the monic generator -/

/-- Dividing a nonzero polynomial by its leading coefficient gives the monic generator of the
same ideal. -/
theorem poly_normalize {F : Type} [Field F] (G A : Polynomial F) (hG : G ≠ 0)
    (h : G = A * Polynomial.C G.leadingCoeff) :
    A.Monic ∧ Ideal.span {A} = Ideal.span {G} ∧ A.degree = G.degree := by
  have hlc : G.leadingCoeff ≠ 0 := Polynomial.leadingCoeff_ne_zero.2 hG
  refine ⟨?_, ?_, ?_⟩
  · have h1 : G.leadingCoeff = A.leadingCoeff * G.leadingCoeff := by
      conv_lhs => rw [h, Polynomial.leadingCoeff_mul, Polynomial.leadingCoeff_C]
    have h2 : A.leadingCoeff * G.leadingCoeff = 1 * G.leadingCoeff := by rw [one_mul, ← h1]
    exact mul_right_cancel₀ hlc h2
  · conv_rhs => rw [h]
    rw [Ideal.span_singleton_mul_right_unit (Polynomial.isUnit_C.2 (IsUnit.mk0 _ hlc))]
  · conv_rhs => rw [h]
    rw [Polynomial.degree_mul_C hlc]

theorem span_pair_ne_zero {F : Type} [Field F] {G P Q : Polynomial F}
    (h : Ideal.span {G} = Ideal.span {P, Q}) (hne : P ≠ 0 ∨ Q ≠ 0) : G ≠ 0 := by
  intro h0
  subst h0
  have hP : P ∈ Ideal.span {(0 : Polynomial F)} := by
    rw [h]; exact Ideal.subset_span (by simp)
  have hQ : Q ∈ Ideal.span {(0 : Polynomial F)} := by
    rw [h]; exact Ideal.subset_span (by simp)
  rw [Ideal.mem_span_singleton, zero_dvd_iff] at hP hQ
  tauto

namespace Dense

variable {F : Type} [Field F] [DecidableEq F]

theorem length_fromScalar {c : F} (hc : c ≠ 0) : (fromScalar c).length = 1 := by
  simp [fromScalar, cut, List.rdropWhile_singleton, hc]

/-- Over a field `operator,` returns the monic generator of the ideal `(P, Q)`. -/
theorem opComma_spec_dense {p q : List F} {P Q : Polynomial F}
    (hp : Canonical p) (hq : Canonical q) (hP : Rep p P) (hQ : Rep q Q)
    (hne : P ≠ 0 ∨ Q ≠ 0) (fuel : Nat) (hf1 : p.length ≤ fuel) (hf2 : q.length ≤ fuel) :
    ∃ g G, opComma (fun x y : F => x / y) fuel p q = some g ∧ Canonical g ∧ Rep g G ∧
      G.Monic ∧ Ideal.span {G} = Ideal.span {P, Q} ∧ g.length ≤ fuel := by
  obtain ⟨g0, G0, h1, h2, h3, h4, h5⟩ := gcdLoop_spec_dense fuel fuel p q P Q hp hq hP hQ hf2 hf1 hf2
  have hG0 : G0 ≠ 0 := span_pair_ne_zero h4 hne
  have hlc : G0.leadingCoeff ≠ 0 := Polynomial.leadingCoeff_ne_zero.2 hG0
  have hC0 : Polynomial.C G0.leadingCoeff ≠ 0 := by
    rw [Ne, Polynomial.C_eq_zero]; exact hlc
  obtain ⟨a, r, A, _, hdiv, _, ha, hr, hA, hR, hlt⟩ :=
    div_mod_spec_dense (fun x y : F => x / y) (q := fromScalar G0.leadingCoeff) h2
      (canonical_cut _) h3 (rep_fromScalar_dense G0.leadingCoeff) hC0
      (by rw [Polynomial.leadingCoeff_C]; exact field_dv _ hlc) fuel
      (by rw [length_fromScalar hlc]; omega)
  rw [length_fromScalar hlc] at hlt
  have hrnil : r = [] := List.length_eq_zero.1 (by omega)
  subst hrnil
  have hGA : G0 = A * Polynomial.C G0.leadingCoeff := sub_eq_zero.1 (hR.unique_dense rep_nil_dense)
  obtain ⟨hmonic, hspan, hdeg⟩ := poly_normalize G0 A hG0 hGA
  refine ⟨a, A, ?_, ha, hA, hmonic, hspan.trans h4, ?_⟩
  · unfold opComma
    rw [h1]
    simp only [Option.some_bind]
    rw [Rep.lead_dense h2 h3]
    exact hdiv
  · have : a.length ≤ g0.length := by
      rw [Rep.length_le_iff_deg ha hA, hdeg, ← Rep.length_le_iff_deg h2 h3]
    omega

end Dense

/-! ## Sparse form: the `std::map` operations behind `get` and `set` -/

namespace Sparse

variable {T : Type} [CommRing T] [DecidableEq T]

theorem find_nil (i : Nat) : find ([] : List (Nat × T)) i = none := rfl

theorem find_cons (k : Nat) (w : T) (m : List (Nat × T)) (i : Nat) :
    find ((k, w) :: m) i = if k = i then some w else find m i := by
  unfold find
  rw [List.find?_cons]
  by_cases h : k = i
  · have : (k == i) = true := by simpa using h
    simp [this, h]
  · have : (k == i) = false := by simpa using h
    simp [this, h]

theorem find_erase (m : List (Nat × T)) (i j : Nat) :
    find (erase m i) j = if j = i then none else find m j := by
  induction m with
  | nil => simp [erase, find]
  | cons e t ih =>
    obtain ⟨k, w⟩ := e
    unfold erase at ih ⊢
    rw [List.filter_cons]
    by_cases hk : k = i
    · subst hk
      simp only [bne_self_eq_false, Bool.false_eq_true, if_false]
      rw [ih, find_cons]
      by_cases hj : j = k
      · simp [hj]
      · simp only [if_neg hj, if_neg (Ne.symm hj)]
    · have : ((k, w).1 != i) = true := by simpa using hk
      rw [if_pos this, find_cons, find_cons, ih]
      by_cases hj : k = j
      · subst hj; rw [if_pos rfl, if_neg hk, if_pos rfl]
      · rw [if_neg hj, if_neg hj]

theorem find_assign (m : List (Nat × T)) (i : Nat) (v : T) (j : Nat) :
    find (assign m i v) j = if j = i then some v else find m j := by
  induction m with
  | nil =>
    unfold assign
    rw [find_cons, find_nil]
    by_cases h : i = j
    · simp [h]
    · rw [if_neg h, if_neg (Ne.symm h)]
  | cons e t ih =>
    obtain ⟨k, w⟩ := e
    unfold assign
    by_cases h1 : i < k
    · rw [if_pos h1, find_cons]
      by_cases h : i = j
      · simp [h]
      · rw [if_neg h, if_neg (Ne.symm h)]
    · rw [if_neg h1]
      by_cases h2 : i = k
      · subst h2
        rw [if_pos rfl, find_cons, find_cons]
        by_cases h : i = j
        · simp [h]
        · rw [if_neg h, if_neg (Ne.symm h), if_neg h]
      · rw [if_neg h2, find_cons, find_cons, ih]
        by_cases h : k = j
        · subst h
          rw [if_pos rfl, if_neg (Ne.symm h2), if_pos rfl]
        · rw [if_neg h, if_neg h]

theorem get_set (m : List (Nat × T)) (i : Nat) (v : T) (j : Nat) :
    get (set m i v) j = if j = i then v else get m j := by
  unfold set
  by_cases h1 : v = 0 ∧ (find m i).isSome
  · rw [if_pos h1]
    unfold get
    rw [find_erase]
    by_cases hj : j = i
    · rw [if_pos hj, if_pos hj, h1.1]
    · rw [if_neg hj, if_neg hj]
  · rw [if_neg h1]
    by_cases h2 : v ≠ 0
    · rw [if_pos h2]
      unfold get
      rw [find_assign]
      by_cases hj : j = i
      · rw [if_pos hj, if_pos hj]
      · rw [if_neg hj, if_neg hj]
    · rw [if_neg h2]
      push_neg at h2
      by_cases hj : j = i
      · rw [if_pos hj, h2, hj]
        have : find m i = none := by
          cases hf : find m i with
          | none => rfl
          | some x => exact absurd ⟨h2, by rw [hf]; rfl⟩ h1
        unfold get; rw [this]
      · rw [if_neg hj]

theorem mem_assign {m : List (Nat × T)} {i : Nat} {v : T} {e : Nat × T}
    (h : e ∈ assign m i v) : e = (i, v) ∨ e ∈ m := by
  induction m with
  | nil => simpa [assign] using h
  | cons a t ih =>
    obtain ⟨k, w⟩ := a
    unfold assign at h
    by_cases h1 : i < k
    · rw [if_pos h1] at h
      rcases List.mem_cons.1 h with h | h
      · exact Or.inl h
      · exact Or.inr h
    · rw [if_neg h1] at h
      by_cases h2 : i = k
      · rw [if_pos h2] at h
        rcases List.mem_cons.1 h with h | h
        · left; rw [h, h2]
        · right; exact List.mem_cons_of_mem _ h
      · rw [if_neg h2] at h
        rcases List.mem_cons.1 h with h | h
        · right; rw [h]; exact List.mem_cons_self _ _
        · rcases ih h with h | h
          · exact Or.inl h
          · right; exact List.mem_cons_of_mem _ h

theorem sorted_assign {m : List (Nat × T)} (hs : Sorted m) (i : Nat) (v : T) :
    Sorted (assign m i v) := by
  induction m with
  | nil => simp [assign, Sorted]
  | cons a t ih =>
    obtain ⟨k, w⟩ := a
    unfold Sorted at hs ih ⊢
    rw [List.pairwise_cons] at hs
    unfold assign
    by_cases h1 : i < k
    · rw [if_pos h1, List.pairwise_cons]
      refine ⟨?_, List.pairwise_cons.2 hs⟩
      intro e he
      rcases List.mem_cons.1 he with he | he
      · rw [he]; exact h1
      · exact lt_trans h1 (hs.1 e he)
    · rw [if_neg h1]
      by_cases h2 : i = k
      · rw [if_pos h2]
        exact List.pairwise_cons.2 hs
      · rw [if_neg h2, List.pairwise_cons]
        refine ⟨?_, ih hs.2⟩
        intro e he
        rcases mem_assign he with he | he
        · rw [he]; show k < i; omega
        · exact hs.1 e he

theorem sorted_set {m : List (Nat × T)} (hs : Sorted m) (i : Nat) (v : T) :
    Sorted (set m i v) := by
  unfold set
  split
  · exact List.Pairwise.filter _ hs
  · split
    · exact sorted_assign hs i v
    · exact hs

theorem noZero_set {m : List (Nat × T)} (hz : NoZero m) (i : Nat) (v : T) :
    NoZero (set m i v) := by
  unfold set
  split
  · intro e he
    exact hz e (List.mem_of_mem_filter he)
  · split
    · rename_i hv
      intro e he
      rcases mem_assign he with he | he
      · rw [he]; exact hv
      · exact hz e he
    · exact hz

theorem canonical_set {m : List (Nat × T)} (h : Canonical m) (i : Nat) (v : T) :
    Canonical (set m i v) :=
  ⟨sorted_set h.1 i v, noZero_set h.2 i v⟩

theorem canonical_nil_sparse : Canonical ([] : List (Nat × T)) :=
  ⟨List.Pairwise.nil, fun _ h => by simp at h⟩

end Sparse

/-! ## Sparse form: the abstraction relation, `+=`, `-=` and `*=` -/

namespace Sparse

variable {T : Type} [CommRing T] [DecidableEq T]

theorem rep_iff_sparse (m : List (Nat × T)) (P : Polynomial T) :
    Rep m P ↔ ∀ i, P.coeff i = get m i := Iff.rfl

theorem get_nil (i : Nat) : get ([] : List (Nat × T)) i = 0 := rfl

theorem get_cons (k : Nat) (w : T) (m : List (Nat × T)) (i : Nat) :
    get ((k, w) :: m) i = if k = i then w else get m i := by
  unfold get
  rw [find_cons]
  by_cases h : k = i
  · rw [if_pos h, if_pos h]
  · rw [if_neg h, if_neg h]

theorem rep_nil_sparse : Rep ([] : List (Nat × T)) 0 := by
  intro i; simp [opIndex, get_nil]

theorem Rep.unique_sparse {m : List (Nat × T)} {P Q : Polynomial T} (hp : Rep m P) (hq : Rep m Q) :
    P = Q := by
  apply Polynomial.ext; intro i; rw [hp i, hq i]

theorem Rep.set_add {m : List (Nat × T)} {P : Polynomial T} (h : Rep m P) (i : Nat) (c : T) :
    Rep (set m i (get m i + c)) (P + Polynomial.monomial i c) := by
  rw [rep_iff_sparse] at *
  intro j
  rw [get_set, Polynomial.coeff_add, Polynomial.coeff_monomial, h]
  by_cases hj : j = i
  · subst hj; simp
  · rw [if_neg hj, if_neg (Ne.symm hj), add_zero]

theorem Rep.set_sub {m : List (Nat × T)} {P : Polynomial T} (h : Rep m P) (i : Nat) (c : T) :
    Rep (set m i (get m i - c)) (P - Polynomial.monomial i c) := by
  rw [rep_iff_sparse] at *
  intro j
  rw [get_set, Polynomial.coeff_sub, Polynomial.coeff_monomial, h]
  by_cases hj : j = i
  · subst hj; simp
  · rw [if_neg hj, if_neg (Ne.symm hj), sub_zero]

theorem get_eq_zero_of_not_key {m : List (Nat × T)} {i : Nat} (h : ∀ e ∈ m, e.1 ≠ i) :
    get m i = 0 := by
  induction m with
  | nil => rfl
  | cons a t ih =>
    obtain ⟨k, w⟩ := a
    rw [get_cons, if_neg (h (k, w) (List.mem_cons_self _ _))]
    exact ih (fun e he => h e (List.mem_cons_of_mem _ he))

theorem get_of_mem {m : List (Nat × T)} (hs : Sorted m) {e : Nat × T} (he : e ∈ m) :
    get m e.1 = e.2 := by
  induction m with
  | nil => simp at he
  | cons a t ih =>
    obtain ⟨k, w⟩ := a
    unfold Sorted at hs ih
    rw [List.pairwise_cons] at hs
    rw [get_cons]
    rcases List.mem_cons.1 he with h | h
    · rw [h, if_pos rfl]
    · have := hs.1 e h
      rw [if_neg (by simp only at this; omega)]
      exact ih hs.2 h

/-- A sorted map represents the sum of its terms. -/
theorem rep_sum {m : List (Nat × T)} (hs : Sorted m) :
    Rep m ((m.map fun e => Polynomial.monomial e.1 e.2).sum) := by
  induction m with
  | nil => simpa using rep_nil_sparse (T := T)
  | cons a t ih =>
    obtain ⟨k, w⟩ := a
    unfold Sorted at hs ih
    rw [List.pairwise_cons] at hs
    have ih := ih hs.2
    rw [rep_iff_sparse] at *
    intro j
    rw [List.map_cons, List.sum_cons, Polynomial.coeff_add, Polynomial.coeff_monomial, ih,
      get_cons]
    by_cases h : k = j
    · subst h
      rw [if_pos rfl, if_pos rfl, get_eq_zero_of_not_key, add_zero]
      intro e he
      have := hs.1 e he
      simp only at this; omega
    · rw [if_neg h, if_neg h, zero_add]

theorem Rep.sum_eq {m : List (Nat × T)} {P : Polynomial T} (hs : Sorted m) (h : Rep m P) :
    (m.map fun e => Polynomial.monomial e.1 e.2).sum = P :=
  (rep_sum hs).unique_sparse h

theorem rep_exists_sparse {m : List (Nat × T)} (hs : Sorted m) : ∃ P : Polynomial T, Rep m P :=
  ⟨_, rep_sum hs⟩

theorem canonical_foldl {α : Type} (g : List (Nat × T) → α → List (Nat × T))
    (hg : ∀ acc a, Canonical acc → Canonical (g acc a)) (l : List α) :
    ∀ acc, Canonical acc → Canonical (l.foldl g acc) := by
  induction l with
  | nil => intro acc h; exact h
  | cons a t ih => intro acc h; exact ih _ (hg acc a h)

theorem canonical_opAddAssign_sparse {p : List (Nat × T)} (hp : Canonical p) (other : List (Nat × T)) :
    Canonical (opAddAssign p other) :=
  canonical_foldl _ (fun _ _ h => canonical_set h _ _) other p hp

theorem canonical_opSubAssign_sparse {p : List (Nat × T)} (hp : Canonical p) (other : List (Nat × T)) :
    Canonical (opSubAssign p other) :=
  canonical_foldl _ (fun _ _ h => canonical_set h _ _) other p hp

theorem canonical_opMulAssign_sparse (p other : List (Nat × T)) : Canonical (opMulAssign p other) :=
  canonical_foldl _
    (fun _ _ h => canonical_foldl _ (fun _ _ h => canonical_set h _ _) other _ h) p []
    canonical_nil_sparse

theorem add_fold (other : List (Nat × T)) :
    ∀ (p : List (Nat × T)) (P : Polynomial T), Rep p P →
      Rep (opAddAssign p other) (P + (other.map fun e => Polynomial.monomial e.1 e.2).sum) := by
  induction other with
  | nil => intro p P h; simpa [opAddAssign] using h
  | cons e t ih =>
    intro p P h
    have := ih _ _ (h.set_add e.1 e.2)
    unfold opAddAssign at this ⊢
    rw [List.foldl_cons, List.map_cons, List.sum_cons, ← add_assoc]
    exact this

theorem sub_fold (other : List (Nat × T)) :
    ∀ (p : List (Nat × T)) (P : Polynomial T), Rep p P →
      Rep (opSubAssign p other) (P - (other.map fun e => Polynomial.monomial e.1 e.2).sum) := by
  induction other with
  | nil => intro p P h; simpa [opSubAssign] using h
  | cons e t ih =>
    intro p P h
    have := ih _ _ (h.set_sub e.1 e.2)
    unfold opSubAssign at this ⊢
    rw [List.foldl_cons, List.map_cons, List.sum_cons, ← sub_sub]
    exact this

theorem Rep.add_sparse {p q : List (Nat × T)} {P Q : Polynomial T} (hq : Sorted q)
    (hP : Rep p P) (hQ : Rep q Q) : Rep (opAddAssign p q) (P + Q) := by
  have := add_fold q p P hP
  rwa [Rep.sum_eq hq hQ] at this

theorem Rep.sub_sparse {p q : List (Nat × T)} {P Q : Polynomial T} (hq : Sorted q)
    (hP : Rep p P) (hQ : Rep q Q) : Rep (opSubAssign p q) (P - Q) := by
  have := sub_fold q p P hP
  rwa [Rep.sum_eq hq hQ] at this

theorem mul_inner_sparse (k : Nat) (v : T) (other : List (Nat × T))
    (hw : ∀ e ∈ other, k + e.1 < 2 ^ 64) :
    ∀ (acc : List (Nat × T)) (Acc : Polynomial T), Rep acc Acc →
      Rep (other.foldl (fun acc e2 =>
          set acc ((k + e2.1) % 2 ^ 64) (get acc ((k + e2.1) % 2 ^ 64) + v * e2.2)) acc)
        (Acc + Polynomial.monomial k v *
          (other.map fun e => Polynomial.monomial e.1 e.2).sum) := by
  induction other with
  | nil => intro acc Acc h; simpa using h
  | cons e t ih =>
    intro acc Acc h
    have := ih (fun x hx => hw x (List.mem_cons_of_mem _ hx)) _ _
      (h.set_add (k + e.1) (v * e.2))
    rw [List.foldl_cons, Nat.mod_eq_of_lt (hw e (List.mem_cons_self _ _)), List.map_cons,
      List.sum_cons, mul_add, Polynomial.monomial_mul_monomial, ← add_assoc]
    exact this

theorem mul_outer_sparse (other : List (Nat × T)) (p : List (Nat × T)) (hw : NoWrap p other) :
    ∀ (acc : List (Nat × T)) (Acc : Polynomial T), Rep acc Acc →
      Rep (p.foldl (fun acc e1 => other.foldl (fun acc e2 =>
          set acc ((e1.1 + e2.1) % 2 ^ 64)
            (get acc ((e1.1 + e2.1) % 2 ^ 64) + e1.2 * e2.2)) acc) acc)
        (Acc + (p.map fun e => Polynomial.monomial e.1 e.2).sum *
          (other.map fun e => Polynomial.monomial e.1 e.2).sum) := by
  induction p with
  | nil => intro acc Acc h; simpa using h
  | cons e t ih =>
    intro acc Acc h
    have := ih (fun a ha b hb => hw a (List.mem_cons_of_mem _ ha) b hb) _ _
      (mul_inner_sparse e.1 e.2 other (fun b hb => hw e (List.mem_cons_self _ _) b hb) acc Acc h)
    rw [List.foldl_cons, List.map_cons, List.sum_cons, add_mul, ← add_assoc]
    exact this

/-- The product represents the product of the polynomials when no key addition wraps. -/
theorem Rep.mul_sparse {p q : List (Nat × T)} {P Q : Polynomial T} (hp : Sorted p) (hq : Sorted q)
    (hw : NoWrap p q) (hP : Rep p P) (hQ : Rep q Q) : Rep (opMulAssign p q) (P * Q) := by
  have := mul_outer_sparse q p hw [] 0 rep_nil_sparse
  rw [Rep.sum_eq hp hP, Rep.sum_eq hq hQ, zero_add] at this
  exact this

theorem noWrap_nil_left (q : List (Nat × T)) : NoWrap ([] : List (Nat × T)) q := by
  intro a ha; simp at ha

theorem noWrap_nil_right (p : List (Nat × T)) : NoWrap p ([] : List (Nat × T)) := by
  intro a _ b hb; simp at hb

end Sparse

/-! ## Sparse form: canonical maps, `Degree`, constructors -/

namespace Sparse

variable {T : Type} [CommRing T] [DecidableEq T]

/-- A `size_t` below `2^31` is returned unchanged as `int`. -/
theorem toInt_of_lt {k : Nat} (h : k < 2 ^ 31) : toInt k = (k : Int) := by
  unfold toInt
  have h1 : k % 2 ^ 32 = k := Nat.mod_eq_of_lt (by omega)
  rw [h1, if_pos h]

/-- When every exponent is below `2^31`, `Degree()` is the largest exponent, `bound - 1`. -/
theorem degree_eq_bound (p : List (Nat × T)) (h : bound p ≤ 2 ^ 31) :
    Degree p = (bound p : Int) - 1 := by
  unfold Degree
  unfold bound at h ⊢
  cases he : p.getLast? with
  | none => rfl
  | some e =>
    rw [he] at h
    simp only at h ⊢
    rw [toInt_of_lt (by omega)]
    push_cast; omega

theorem last_max {m : List (Nat × T)} (hs : Sorted m) {e : Nat × T}
    (he : m.getLast? = some e) : e ∈ m ∧ ∀ a ∈ m, a.1 ≤ e.1 := by
  induction m with
  | nil => simp at he
  | cons a t ih =>
    unfold Sorted at hs ih
    rw [List.pairwise_cons] at hs
    cases t with
    | nil =>
      simp only [List.getLast?_singleton, Option.some.injEq] at he
      subst he
      simp
    | cons b u =>
      rw [List.getLast?_cons_cons] at he
      obtain ⟨h1, h2⟩ := ih hs.2 he
      refine ⟨List.mem_cons_of_mem _ h1, ?_⟩
      intro x hx
      rcases List.mem_cons.1 hx with hx | hx
      · rw [hx]; exact le_of_lt (hs.1 e h1)
      · exact h2 x hx

/-- Every stored exponent of a well-formed map is below `bound`. -/
theorem key_lt_bound {m : List (Nat × T)} (hs : Sorted m) {a : Nat × T} (ha : a ∈ m) :
    a.1 < bound m := by
  unfold bound
  cases he : m.getLast? with
  | none =>
    have : m = [] := List.getLast?_eq_none_iff.1 he
    subst this
    simp at ha
  | some e =>
    have := (last_max hs he).2 a ha
    simp only
    omega

/-- Exponents whose bounds add up to at most `2^64 + 1` do not wrap when added. -/
theorem noWrap_of_bound {p q : List (Nat × T)} (hp : Sorted p) (hq : Sorted q)
    (h : bound p + bound q ≤ 2 ^ 64 + 1) : NoWrap p q := by
  intro a ha b hb
  have h1 := key_lt_bound hp ha
  have h2 := key_lt_bound hq hb
  omega

theorem bound_le_iff {m : List (Nat × T)} (h : Canonical m) (n : Nat) :
    bound m ≤ n ↔ ∀ j, n ≤ j → get m j = 0 := by
  unfold bound
  cases he : m.getLast? with
  | none =>
    have : m = [] := List.getLast?_eq_none_iff.1 he
    subst this
    simp [get_nil]
  | some e =>
    obtain ⟨h1, h2⟩ := last_max h.1 he
    simp only
    constructor
    · intro hle j hj
      apply get_eq_zero_of_not_key
      intro a ha
      have := h2 a ha
      omega
    · intro hz
      by_contra hlt
      have := hz e.1 (by omega)
      rw [get_of_mem h.1 h1] at this
      exact h.2 e h1 this

theorem canonical_ext_sparse {p q : List (Nat × T)} (hp : Canonical p) (hq : Canonical q)
    (h : ∀ i, get p i = get q i) : p = q := by
  induction p generalizing q with
  | nil =>
    cases q with
    | nil => rfl
    | cons b u =>
      have := h b.1
      rw [get_nil, get_of_mem hq.1 (List.mem_cons_self _ _)] at this
      exact absurd this.symm (hq.2 b (List.mem_cons_self _ _))
  | cons a t ih =>
    cases q with
    | nil =>
      have := h a.1
      rw [get_nil, get_of_mem hp.1 (List.mem_cons_self _ _)] at this
      exact absurd this (hp.2 a (List.mem_cons_self _ _))
    | cons b u =>
      obtain ⟨k, v⟩ := a
      obtain ⟨k', v'⟩ := b
      have hps := hp.1
      have hqs := hq.1
      unfold Sorted at hps hqs
      rw [List.pairwise_cons] at hps hqs
      have hv : v ≠ 0 := hp.2 (k, v) (List.mem_cons_self _ _)
      have hv' : v' ≠ 0 := hq.2 (k', v') (List.mem_cons_self _ _)
      have hk : k = k' := by
        rcases Nat.lt_trichotomy k k' with hlt | heq | hgt
        · exfalso
          have := h k
          rw [get_cons, if_pos rfl, get_cons, if_neg (by omega), get_eq_zero_of_not_key] at this
          · exact hv this
          · intro e he
            have := hqs.1 e he
            simp only at this; omega
        · exact heq
        · exfalso
          have := h k'
          rw [get_cons, if_neg (by omega), get_cons, if_pos rfl, get_eq_zero_of_not_key] at this
          · exact hv' this.symm
          · intro e he
            have := hps.1 e he
            simp only at this; omega
      subst hk
      have hvv : v = v' := by
        have := h k
        rwa [get_cons, if_pos rfl, get_cons, if_pos rfl] at this
      subst hvv
      have ht : Canonical t := ⟨hps.2, fun e he => hp.2 e (List.mem_cons_of_mem _ he)⟩
      have hu : Canonical u := ⟨hqs.2, fun e he => hq.2 e (List.mem_cons_of_mem _ he)⟩
      rw [ih ht hu]
      intro i
      by_cases hi : k = i
      · subst hi
        rw [get_eq_zero_of_not_key, get_eq_zero_of_not_key]
        · intro e he
          have := hqs.1 e he
          simp only at this; omega
        · intro e he
          have := hps.1 e he
          simp only at this; omega
      · have := h i
        rwa [get_cons, if_neg hi, get_cons, if_neg hi] at this

theorem Rep.ext_sparse {p q : List (Nat × T)} {P : Polynomial T} (hp : Canonical p) (hq : Canonical q)
    (h1 : Rep p P) (h2 : Rep q P) : p = q :=
  canonical_ext_sparse hp hq (fun i => by rw [← (rep_iff_sparse p P).1 h1 i, ← (rep_iff_sparse q P).1 h2 i])

theorem Rep.bound_le_iff_deg {p : List (Nat × T)} {P : Polynomial T} (hc : Canonical p)
    (h : Rep p P) (n : Nat) : bound p ≤ n ↔ P.degree < n := by
  rw [rep_iff_sparse] at h
  rw [Sparse.bound_le_iff hc, Polynomial.degree_lt_iff_coeff_zero]
  simp only [h]

theorem Rep.eq_nil_iff_sparse {p : List (Nat × T)} {P : Polynomial T} (hc : Canonical p)
    (h : Rep p P) : p = [] ↔ P = 0 := by
  constructor
  · intro h0; subst h0; exact h.unique_sparse rep_nil_sparse
  · intro h0; subst h0; exact Rep.ext_sparse hc canonical_nil_sparse h rep_nil_sparse

theorem Rep.bound_eq {p : List (Nat × T)} {P : Polynomial T} (hc : Canonical p) (h : Rep p P)
    (h0 : P ≠ 0) : bound p = P.natDegree + 1 := by
  apply le_antisymm
  · rw [Rep.bound_le_iff_deg hc h]
    have := Polynomial.degree_le_natDegree (p := P)
    exact lt_of_le_of_lt this (by exact_mod_cast Nat.lt_succ_self _)
  · by_contra hlt
    push_neg at hlt
    have h1 : Sparse.bound p ≤ P.natDegree := by omega
    rw [Rep.bound_le_iff_deg hc h, Polynomial.degree_eq_natDegree h0] at h1
    exact absurd h1 (lt_irrefl _)

theorem bound_nil : bound ([] : List (Nat × T)) = 0 := rfl

/-- In a canonical polynomial `p[p.Degree()]` is the leading coefficient (and `T()` for zero). -/
theorem Rep.lead_sparse {p : List (Nat × T)} {P : Polynomial T} (hc : Canonical p) (h : Rep p P)
    (hr : bound p ≤ 2 ^ 31) : opIndex p (toSizeT (Degree p)) = P.leadingCoeff := by
  by_cases h0 : P = 0
  · have := (Rep.eq_nil_iff_sparse hc h).2 h0
    subst this; subst h0
    simp [opIndex, get_nil]
  · have hl := Rep.bound_eq hc h h0
    have : toSizeT (Degree p) = P.natDegree := by
      rw [degree_eq_bound p hr, hl]
      unfold toSizeT
      rw [if_pos (by push_cast; omega)]
      simp
    rw [this, ← h, Polynomial.leadingCoeff]

theorem Rep.degree_eq_sparse {p : List (Nat × T)} {P : Polynomial T} (hc : Canonical p)
    (h : Rep p P) (h0 : P ≠ 0) (hr : bound p ≤ 2 ^ 31) : Degree p = P.natDegree := by
  rw [degree_eq_bound p hr, Rep.bound_eq hc h h0]; simp

/-- The degree of the polynomial of a well-formed map is below its bound. -/
theorem Rep.natDegree_lt_bound {p : List (Nat × T)} {P : Polynomial T} (hc : Canonical p)
    (h : Rep p P) (h0 : P ≠ 0) : P.natDegree < bound p := by
  rw [Rep.bound_eq hc h h0]; omega

/-- The degree of the polynomial of a well-formed map is at most its bound. -/
theorem Rep.natDegree_le_bound {p : List (Nat × T)} {P : Polynomial T} (hc : Canonical p)
    (h : Rep p P) : P.natDegree ≤ bound p := by
  by_cases h0 : P = 0
  · rw [h0, Polynomial.natDegree_zero]; omega
  · exact le_of_lt (Rep.natDegree_lt_bound hc h h0)

theorem Rep.bound_lt_iff {p q : List (Nat × T)} {P Q : Polynomial T} (hp : Canonical p)
    (hq : Canonical q) (h1 : Rep p P) (h2 : Rep q Q) :
    bound p < bound q ↔ P.degree < Q.degree := by
  by_cases hQ : Q = 0
  · have := (Rep.eq_nil_iff_sparse hq h2).2 hQ
    subst this; subst hQ
    simp [bound_nil]
  · have hl := Rep.bound_eq hq h2 hQ
    rw [Polynomial.degree_eq_natDegree hQ, ← Rep.bound_le_iff_deg hp h1, hl]
    omega

theorem fromScalar_zero_sparse : fromScalar (0 : T) = [] := by
  simp [fromScalar, set, find]

theorem opEq_self_sparse (p : List (Nat × T)) : opEq p p = some true := by
  unfold opEq
  rw [if_pos rfl, std_equal_self]

theorem opNe_nil_sparse (p : List (Nat × T)) (hr : bound p ≤ 2 ^ 31) :
    opNe p (fromScalar 0) = some (decide (p ≠ [])) := by
  rw [fromScalar_zero_sparse]
  unfold opNe opEq
  cases p with
  | nil => simp [std_equal]
  | cons a t =>
    have : Degree (a :: t) ≠ Degree ([] : List (Nat × T)) := by
      rw [degree_eq_bound _ hr, degree_eq_bound _ (by rw [bound_nil]; omega), bound_nil]
      unfold bound
      cases h : (a :: t).getLast? with
      | none => simp at h
      | some e => simp only; push_cast; omega
    rw [if_neg this]
    simp

theorem canonical_fromScalar (k : T) : Canonical (fromScalar k) :=
  canonical_set canonical_nil_sparse 0 k

theorem rep_fromScalar_sparse (k : T) : Rep (fromScalar k) (Polynomial.C k) := by
  rw [rep_iff_sparse]
  intro i
  unfold fromScalar
  rw [get_set, get_nil, Polynomial.coeff_C]

/-- The vector constructor stores exactly the entries of the vector. -/
theorem get_fromVector (v : List T) (j : Nat) : get (fromVector v) j = v.getD j 0 := by
  have key : ∀ n, get ((List.range n).foldl (fun p i => set p i (v.getD i 0)) []) j =
      if j < n then v.getD j 0 else 0 := by
    intro n
    induction n with
    | zero => simp [get_nil]
    | succ n ih =>
      rw [List.range_succ, List.foldl_append]
      simp only [List.foldl_cons, List.foldl_nil]
      rw [get_set, ih]
      by_cases h : j = n
      · subst h; simp
      · rw [if_neg h]
        by_cases h2 : j < n
        · rw [if_pos h2, if_pos (by omega)]
        · rw [if_neg h2, if_neg (by omega)]
  unfold fromVector
  rw [key]
  split
  · rfl
  · rw [List.getD_eq_default _ _ (by omega)]

theorem canonical_fromVector (v : List T) : Canonical (fromVector v) :=
  canonical_foldl _ (fun _ _ h => canonical_set h _ _) _ [] canonical_nil_sparse

theorem rep_fromVector_sparse {v : List T} {P : Polynomial T} (h : Dense.Rep v P) :
    Rep (fromVector v) P := by
  rw [rep_iff_sparse]
  intro i
  rw [get_fromVector, ← Dense.opIndex_eq_getD]
  exact h i

/-- Every Mathlib polynomial is represented by a canonical sparse polynomial. -/
theorem rep_surj_sparse (P : Polynomial T) : ∃ p : List (Nat × T), Canonical p ∧ Rep p P := by
  obtain ⟨v, _, hv⟩ := Dense.rep_surj_dense P
  exact ⟨fromVector v, canonical_fromVector v, rep_fromVector_sparse hv⟩

end Sparse

/-! ## Sparse form: `b_pow`, `pow`, composition and evaluation -/

namespace Sparse

variable {T : Type} [CommRing T] [DecidableEq T]

theorem and_one_ne_zero_iff (b : Nat) : (b &&& 1 ≠ 0) ↔ b % 2 = 1 := by
  rw [Nat.and_one_is_mod]; omega

theorem shiftRight_one_eq (b : Nat) : b >>> 1 = b / 2 := by
  rw [Nat.shiftRight_eq_div_pow]

/-- The loop of `b_pow` multiplies `res` by `a^b`. -/
theorem b_powLoop_eq (b : Nat) : ∀ (res a : T), b_powLoop res a b = res * a ^ b := by
  induction b using Nat.strong_induction_on with
  | _ b ih =>
    intro res a
    rw [b_powLoop]
    simp only [and_one_ne_zero_iff, shiftRight_one_eq]
    have hb : b = 2 * (b / 2) + b % 2 := (Nat.div_add_mod b 2).symm
    by_cases h0 : b / 2 = 0
    · rw [dif_pos h0]
      by_cases h1 : b % 2 = 1
      · rw [if_pos h1]
        have : b = 1 := by omega
        rw [this, pow_one]
      · rw [if_neg h1]
        have : b = 0 := by omega
        rw [this, pow_zero, mul_one]
    · rw [dif_neg h0, ih (b / 2) (by omega)]
      by_cases h1 : b % 2 = 1
      · rw [if_pos h1]
        conv_rhs => rw [hb, h1, pow_succ, pow_mul]
        ring
      · rw [if_neg h1]
        have h2 : b % 2 = 0 := by omega
        conv_rhs => rw [hb, h2, add_zero, pow_mul]
        ring

/-- `b_pow(a, b)` is `a^b`, for every `b` including `0`. -/
theorem b_pow_eq (a : T) (b : Nat) : b_pow a b = a ^ b := by
  unfold b_pow; rw [b_powLoop_eq, one_mul]

/-- A stored exponent of a well-formed map is at most the degree of its polynomial. -/
theorem Rep.key_le_natDegree {p : List (Nat × T)} {P : Polynomial T} (hc : Canonical p)
    (h : Rep p P) {a : Nat × T} (ha : a ∈ p) : a.1 ≤ P.natDegree := by
  apply Polynomial.le_natDegree_of_ne_zero
  rw [h a.1]
  show get p a.1 ≠ 0
  rw [get_of_mem hc.1 ha]
  exact hc.2 a ha

/-- The degree of the polynomial of a nonzero well-formed map is one of its exponents. -/
theorem Rep.exists_key_natDegree {p : List (Nat × T)} {P : Polynomial T}
    (h : Rep p P) (h0 : P ≠ 0) : ∃ b ∈ p, b.1 = P.natDegree := by
  by_contra hne
  push_neg at hne
  have h1 : get p P.natDegree = 0 := get_eq_zero_of_not_key hne
  have h2 : P.coeff P.natDegree = 0 := by rw [h P.natDegree]; exact h1
  exact h0 (Polynomial.leadingCoeff_eq_zero.1 h2)

/-- Products of polynomials whose degrees add up to less than `2^64` do not wrap. -/
theorem Rep.noWrap {p q : List (Nat × T)} {P Q : Polynomial T} (hp : Canonical p)
    (hq : Canonical q) (hP : Rep p P) (hQ : Rep q Q)
    (h : P.natDegree + Q.natDegree < 2 ^ 64) : NoWrap p q := by
  intro a ha b hb
  have h1 := Rep.key_le_natDegree hp hP ha
  have h2 := Rep.key_le_natDegree hq hQ hb
  omega

/-- The loop of `pow` multiplies `res` by `cur^b`, when the degree of the result stays below
`2^64`. -/
theorem powLoop_spec (b : Nat) : ∀ (res cur : List (Nat × T)) (Res Cur : Polynomial T),
    Canonical res → Canonical cur → Rep res Res → Rep cur Cur →
    Res.natDegree + b * Cur.natDegree < 2 ^ 64 →
    Canonical (powLoop res cur b) ∧ Rep (powLoop res cur b) (Res * Cur ^ b) := by
  induction b using Nat.strong_induction_on with
  | _ b ih =>
    intro res cur Res Cur hres hcur hRes hCur hw
    rw [powLoop]
    simp only [and_one_ne_zero_iff, shiftRight_one_eq]
    have hb : b = 2 * (b / 2) + b % 2 := (Nat.div_add_mod b 2).symm
    have hmul : Rep (opMulAssign res cur) (Res * Cur) ∨ b % 2 ≠ 1 := by
      by_cases h1 : b % 2 = 1
      · left
        have hb1 : Cur.natDegree ≤ b * Cur.natDegree :=
          Nat.le_mul_of_pos_left _ (by omega)
        exact Rep.mul_sparse hres.1 hcur.1
          (Rep.noWrap hres hcur hRes hCur (by omega)) hRes hCur
      · right; exact h1
    by_cases h0 : b / 2 = 0
    · rw [dif_pos h0]
      by_cases h1 : b % 2 = 1
      · rw [if_pos h1]
        have : b = 1 := by omega
        rw [this, pow_one]
        exact ⟨canonical_opMulAssign_sparse _ _, hmul.resolve_right (by omega)⟩
      · rw [if_neg h1]
        have : b = 0 := by omega
        rw [this, pow_zero, mul_one]
        exact ⟨hres, hRes⟩
    · rw [dif_neg h0]
      have hk : 2 * (b / 2) * Cur.natDegree ≤ b * Cur.natDegree :=
        Nat.mul_le_mul_right _ (by omega)
      have hsq : Rep (opMulAssign cur cur) (Cur * Cur) := by
        have h2 : 2 * Cur.natDegree ≤ 2 * (b / 2) * Cur.natDegree := by
          have : 1 ≤ b / 2 := by omega
          calc 2 * Cur.natDegree = 2 * 1 * Cur.natDegree := by ring
            _ ≤ 2 * (b / 2) * Cur.natDegree :=
              Nat.mul_le_mul_right _ (Nat.mul_le_mul_left _ this)
        exact Rep.mul_sparse hcur.1 hcur.1
          (Rep.noWrap hcur hcur hCur hCur (by omega)) hCur hCur
      have hsqd : (b / 2) * (Cur * Cur).natDegree ≤ 2 * (b / 2) * Cur.natDegree := by
        have h3 : (Cur * Cur).natDegree ≤ 2 * Cur.natDegree := by
          have := Polynomial.natDegree_mul_le (p := Cur) (q := Cur)
          omega
        calc (b / 2) * (Cur * Cur).natDegree ≤ (b / 2) * (2 * Cur.natDegree) :=
              Nat.mul_le_mul_left _ h3
          _ = 2 * (b / 2) * Cur.natDegree := by ring
      by_cases h1 : b % 2 = 1
      · rw [if_pos h1]
        have hodd : b * Cur.natDegree = 2 * (b / 2) * Cur.natDegree + Cur.natDegree := by
          conv_lhs => rw [hb, h1]
          ring
        have hrd : (Res * Cur).natDegree ≤ Res.natDegree + Cur.natDegree :=
          Polynomial.natDegree_mul_le
        have := ih (b / 2) (by omega) _ _ _ _ (canonical_opMulAssign_sparse res cur)
          (canonical_opMulAssign_sparse cur cur) (hmul.resolve_right (by omega)) hsq (by omega)
        refine ⟨this.1, ?_⟩
        have e : Res * Cur ^ b = Res * Cur * (Cur * Cur) ^ (b / 2) := by
          conv_lhs => rw [hb, h1, pow_succ, pow_mul]
          ring
        rw [e]; exact this.2
      · rw [if_neg h1]
        have h2 : b % 2 = 0 := by omega
        have := ih (b / 2) (by omega) _ _ _ _ hres
          (canonical_opMulAssign_sparse cur cur) hRes hsq (by omega)
        refine ⟨this.1, ?_⟩
        have e : Res * Cur ^ b = Res * (Cur * Cur) ^ (b / 2) := by
          conv_lhs => rw [hb, h2, add_zero, pow_mul]
          ring
        rw [e]; exact this.2

theorem pow_spec {p : List (Nat × T)} {P : Polynomial T} (hp : Canonical p) (hP : Rep p P)
    (b : Nat) (hw : b * P.natDegree < 2 ^ 64) :
    Canonical (pow p b) ∧ Rep (pow p b) (P ^ b) := by
  have h1 : (1 : Polynomial T).natDegree + b * P.natDegree < 2 ^ 64 := by
    rw [Polynomial.natDegree_one]; omega
  have := powLoop_spec b (fromScalar 1) p 1 P (canonical_fromScalar 1)
    hp (by simpa using rep_fromScalar_sparse (1 : T)) hP h1
  rw [one_mul] at this
  exact this

theorem and_fold {r : List (Nat × T)} {R : Polynomial T} (hr : Canonical r) (hR : Rep r R)
    (p : List (Nat × T)) (hw : ∀ e ∈ p, e.1 * R.natDegree < 2 ^ 64) :
    ∀ (res : List (Nat × T)) (Res : Polynomial T),
    Canonical res → Rep res Res →
    Canonical (p.foldl (fun res e =>
      opAddAssign res (opMul (pow r e.1) (fromScalar e.2))) res) ∧
    Rep (p.foldl (fun res e => opAddAssign res (opMul (pow r e.1) (fromScalar e.2))) res)
      (Res + ((p.map fun e => Polynomial.monomial e.1 e.2).sum).comp R) := by
  induction p with
  | nil => intro res Res h1 h2; simpa using ⟨h1, h2⟩
  | cons e t ih =>
    intro res Res h1 h2
    have hwe := hw e (List.mem_cons_self _ _)
    obtain ⟨hc, hrep⟩ := pow_spec hr hR e.1 hwe
    have hnw : NoWrap (pow r e.1) (fromScalar e.2) := by
      apply Rep.noWrap hc (canonical_fromScalar _) hrep (rep_fromScalar_sparse _)
      rw [Polynomial.natDegree_C]
      have := Polynomial.natDegree_pow_le (p := R) (n := e.1)
      omega
    have hm : Rep (opMul (pow r e.1) (fromScalar e.2)) (R ^ e.1 * Polynomial.C e.2) :=
      Rep.mul_sparse hc.1 (canonical_fromScalar _).1 hnw hrep (rep_fromScalar_sparse _)
    have := ih (fun x hx => hw x (List.mem_cons_of_mem _ hx)) _ _
      (canonical_opAddAssign_sparse h1 _)
      (Rep.add_sparse (canonical_opMulAssign_sparse _ _).1 h2 hm)
    rw [List.foldl_cons, List.map_cons, List.sum_cons, Polynomial.add_comp,
      Polynomial.monomial_comp, ← add_assoc, mul_comm (Polynomial.C e.2)]
    exact this

/-- The products of exponents of `NoWrapPow` bound the exponent times the degree. -/
theorem Rep.noWrapPow {p r : List (Nat × T)} {R : Polynomial T} (hR : Rep r R)
    (hw : NoWrapPow p r) : ∀ e ∈ p, e.1 * R.natDegree < 2 ^ 64 := by
  intro e he
  by_cases h0 : R = 0
  · rw [h0, Polynomial.natDegree_zero, Nat.mul_zero]; exact Nat.two_pow_pos 64
  · obtain ⟨b, hb, hbe⟩ := Rep.exists_key_natDegree hR h0
    rw [← hbe]
    exact hw e he b hb

/-- `operator&` computes the composition `P ∘ R`, when no exponent of `p` times the degree of
`r` reaches `2^64`. -/
theorem Rep.comp_sparse {p r : List (Nat × T)} {P R : Polynomial T} (hp : Sorted p)
    (hr : Canonical r) (hw : ∀ e ∈ p, e.1 * R.natDegree < 2 ^ 64) (hP : Rep p P)
    (hR : Rep r R) :
    Canonical (opAnd p r) ∧ Rep (opAnd p r) (P.comp R) := by
  have := and_fold hr hR p hw (fromScalar 0) 0 (canonical_fromScalar 0)
    (by simpa using rep_fromScalar_sparse (0 : T))
  rw [zero_add, Rep.sum_eq hp hP] at this
  exact this

theorem eval_fold (v : T) (p : List (Nat × T)) : ∀ acc : T,
    p.foldl (fun res e => res + e.2 * b_pow v e.1) acc =
      acc + ((p.map fun e => Polynomial.monomial e.1 e.2).sum).eval v := by
  induction p with
  | nil => intro acc; simp
  | cons e t ih =>
    intro acc
    rw [List.foldl_cons, ih, List.map_cons, List.sum_cons, Polynomial.eval_add,
      Polynomial.eval_monomial, b_pow_eq, add_assoc]

theorem Rep.eval_sparse {p : List (Nat × T)} {P : Polynomial T} (hp : Sorted p) (h : Rep p P)
    (v : T) : opCall p v = P.eval v := by
  unfold opCall
  rw [eval_fold, zero_add, Rep.sum_eq hp h]

end Sparse

/-! ## Sparse form: division and the Euclidean loop -/

namespace Sparse

variable {T : Type} [CommRing T] [DecidableEq T]

theorem degree_ge_iff_sparse (cur other : List (Nat × T)) (hc : bound cur ≤ 2 ^ 31)
    (ho : bound other ≤ 2 ^ 31) :
    Degree cur ≥ Degree other ↔ bound other ≤ bound cur := by
  rw [degree_eq_bound cur hc, degree_eq_bound other ho]; omega

theorem toSizeT_degree_sub_sparse (cur other : List (Nat × T)) (hc : bound cur ≤ 2 ^ 31)
    (ho : bound other ≤ 2 ^ 31) (h : bound other ≤ bound cur) :
    toSizeT (Degree cur - Degree other) = bound cur - bound other := by
  rw [degree_eq_bound cur hc, degree_eq_bound other ho]
  unfold toSizeT
  rw [if_pos (by omega)]
  omega

/-- Adding a single term keeps the exponents below a bound that holds for both. -/
theorem bound_add_term_le {res : List (Nat × T)} {Res : Polynomial T} (hres : Canonical res)
    (hRes : Rep res Res) {t : List (Nat × T)} (ht : Canonical t) {d : Nat} {c : T}
    (hT : Rep t (Polynomial.monomial d c)) {n : Nat} (hn : bound res ≤ n) (hd : d < n) :
    bound (opAddAssign res t) ≤ n := by
  rw [Rep.bound_le_iff_deg (canonical_opAddAssign_sparse hres t) (Rep.add_sparse ht.1 hRes hT)]
  have h1 : Res.degree < (n : WithBot ℕ) := (Rep.bound_le_iff_deg hres hRes n).1 hn
  have h2 : (Polynomial.monomial d c).degree < (n : WithBot ℕ) :=
    lt_of_le_of_lt (Polynomial.degree_monomial_le d c) (by exact_mod_cast hd)
  exact lt_of_le_of_lt (Polynomial.degree_add_le _ _) (max_lt h1 h2)

/-- The single-term polynomial `t` built in each iteration of `operator/`. -/
theorem rep_term_sparse (d : Nat) (c : T) :
    Canonical (set (fromScalar 0) d c) ∧
    Rep (set (fromScalar 0) d c) (Polynomial.monomial d c) := by
  refine ⟨canonical_set (canonical_fromScalar 0) d c, ?_⟩
  rw [rep_iff_sparse]
  intro i
  rw [get_set, fromScalar_zero_sparse, get_nil, Polynomial.coeff_monomial]
  by_cases h : d = i
  · rw [if_pos h, if_pos h.symm]
  · rw [if_neg h, if_neg (Ne.symm h)]

/-- Correctness of the division loop, for a divisor whose leading coefficient `b` divides
exactly (`b * dv a b = a`): with fuel for `Degree(cur) - Degree(other) + 1` iterations the
loop exits, the invariant `res * other + cur` is preserved and the final `cur` has smaller
degree than `other`. -/
theorem divLoop_spec_sparse (dv : T → T → T) {other : List (Nat × T)} {Q : Polynomial T}
    (ho : Canonical other) (hQ : Rep other Q) (hQ0 : Q ≠ 0)
    (hdv : ∀ a, Q.leadingCoeff * dv a Q.leadingCoeff = a) (hor : bound other ≤ 2 ^ 31) :
    ∀ (fuel : Nat) (res cur : List (Nat × T)) (Res Cur : Polynomial T),
      Canonical res → Canonical cur → Rep res Res → Rep cur Cur →
      bound res ≤ 2 ^ 31 → bound cur ≤ 2 ^ 31 →
      bound cur + 1 ≤ fuel + bound other →
      ∃ res' cur' Res' Cur', divLoop dv fuel res cur other = some (res', cur') ∧
        Canonical res' ∧ Canonical cur' ∧ Rep res' Res' ∧ Rep cur' Cur' ∧
        Res' * Q + Cur' = Res * Q + Cur ∧ bound cur' < bound other ∧
        bound res' ≤ 2 ^ 31 := by
  have holen : bound other = Q.natDegree + 1 := Rep.bound_eq ho hQ hQ0
  intro fuel
  induction fuel with
  | zero =>
    intro res cur Res Cur hres hcur hRes hCur hrr hcr hfuel
    rw [divLoop, if_neg (by rw [degree_ge_iff_sparse cur other hcr hor]; omega)]
    exact ⟨res, cur, Res, Cur, rfl, hres, hcur, hRes, hCur, rfl, by omega, hrr⟩
  | succ fuel ih =>
    intro res cur Res Cur hres hcur hRes hCur hrr hcr hfuel
    rw [divLoop]
    by_cases hcond : Degree cur ≥ Degree other
    · rw [if_pos hcond]
      rw [degree_ge_iff_sparse cur other hcr hor] at hcond
      have hCur0 : Cur ≠ 0 := by
        intro h0
        have := (Rep.eq_nil_iff_sparse hcur hCur).2 h0
        subst this
        rw [bound_nil] at hcond; omega
      have hclen : bound cur = Cur.natDegree + 1 := Rep.bound_eq hcur hCur hCur0
      simp only
      rw [toSizeT_degree_sub_sparse cur other hcr hor hcond, Rep.lead_sparse hcur hCur hcr,
        Rep.lead_sparse ho hQ hor]
      have hd : bound cur - bound other = Cur.natDegree - Q.natDegree := by omega
      obtain ⟨htc, ht⟩ :=
        rep_term_sparse (bound cur - bound other) (dv Cur.leadingCoeff Q.leadingCoeff)
      have hres1 := Rep.add_sparse htc.1 hRes ht
      have hnw : NoWrap other (set (fromScalar 0) (bound cur - bound other)
          (dv Cur.leadingCoeff Q.leadingCoeff)) := by
        apply Rep.noWrap ho htc hQ ht
        have := Polynomial.natDegree_monomial_le (dv Cur.leadingCoeff Q.leadingCoeff)
          (m := bound cur - bound other)
        omega
      have hrr1 : bound (opAddAssign res (set (fromScalar 0) (bound cur - bound other)
          (dv Cur.leadingCoeff Q.leadingCoeff))) ≤ 2 ^ 31 :=
        bound_add_term_le hres hRes htc ht hrr (by omega)
      have hcur1 := Rep.sub_sparse (canonical_opMulAssign_sparse _ _).1 hCur
        (Rep.mul_sparse ho.1 htc.1 hnw hQ ht)
      have hlt : bound (opSubAssign cur (opMulAssign other
          (set (fromScalar 0) (bound cur - bound other)
            (dv Cur.leadingCoeff Q.leadingCoeff)))) < bound cur := by
        apply (Rep.bound_lt_iff (canonical_opSubAssign_sparse hcur _) hcur hcur1 hCur).2
        rw [hd]
        exact poly_div_step Cur Q _ (hdv _) hCur0 (by omega)
      obtain ⟨res', cur', Res', Cur', h1, h2, h3, h4, h5, h6, h7, h8⟩ :=
        ih _ _ _ _ (canonical_opAddAssign_sparse hres _) (canonical_opSubAssign_sparse hcur _)
          hres1 hcur1 hrr1 (by omega) (by omega)
      refine ⟨res', cur', Res', Cur', h1, h2, h3, h4, h5, ?_, h7, h8⟩
      rw [h6]; ring
    · rw [if_neg hcond]
      rw [degree_ge_iff_sparse cur other hcr hor] at hcond
      exact ⟨res, cur, Res, Cur, rfl, hres, hcur, hRes, hCur, rfl, by omega, hrr⟩

/-- More fuel does not change a result of the division loop. -/
theorem divLoop_mono_sparse (dv : T → T → T) (other : List (Nat × T)) :
    ∀ (fuel k : Nat) (res cur : List (Nat × T)) (x : List (Nat × T) × List (Nat × T)),
      divLoop dv fuel res cur other = some x → divLoop dv (fuel + k) res cur other = some x := by
  intro fuel
  induction fuel with
  | zero =>
    intro k res cur x h
    unfold divLoop at h
    by_cases hcond : Degree cur ≥ Degree other
    · rw [if_pos hcond] at h; simp at h
    · rw [if_neg hcond] at h
      unfold divLoop; rw [if_neg hcond]; exact h
  | succ fuel ih =>
    intro k res cur x h
    unfold divLoop at h
    have e : fuel + 1 + k = (fuel + k) + 1 := by omega
    rw [e]; unfold divLoop
    by_cases hcond : Degree cur ≥ Degree other
    · rw [if_pos hcond] at h ⊢
      exact ih k _ _ x h
    · rw [if_neg hcond] at h ⊢; exact h

/-- Quotient and remainder: with enough fuel `operator/` returns the `res` of the loop,
`operator%` returns the final `cur` of the loop, and that remainder has smaller degree than
the divisor. -/
theorem div_mod_spec_sparse (dv : T → T → T) {p q : List (Nat × T)} {P Q : Polynomial T}
    (hp : Canonical p) (hq : Canonical q) (hP : Rep p P) (hQ : Rep q Q) (hQ0 : Q ≠ 0)
    (hdv : ∀ a, Q.leadingCoeff * dv a Q.leadingCoeff = a)
    (hpr : bound p ≤ 2 ^ 31) (hqr : bound q ≤ 2 ^ 31)
    (fuel : Nat) (hfuel : bound p + 1 ≤ fuel + bound q) :
    ∃ a r A, divLoop dv fuel (fromScalar 0) p q = some (a, r) ∧
      opDiv dv fuel p q = some a ∧ opMod dv fuel p q = some r ∧
      Canonical a ∧ Canonical r ∧ Rep a A ∧ Rep r (P - A * Q) ∧ bound r < bound q ∧
      bound a ≤ 2 ^ 31 := by
  obtain ⟨a, r, A, R, h1, h2, h3, h4, h5, h6, h7, h8⟩ :=
    divLoop_spec_sparse dv hq hQ hQ0 hdv hqr fuel (fromScalar 0) p 0 P
      (canonical_fromScalar 0) hp (by rw [fromScalar_zero_sparse]; exact rep_nil_sparse) hP
      (by rw [fromScalar_zero_sparse, bound_nil]; omega) hpr hfuel
  have hR : R = P - A * Q := by
    have : A * Q + R = P := by rw [h6]; ring
    rw [← this]; ring
  subst hR
  have hdiv : opDiv dv fuel p q = some a := by
    unfold opDiv; rw [h1]; rfl
  have hmod : opMod dv fuel p q = some (opSub p (opMul a q)) := by
    unfold opMod; rw [hdiv]; rfl
  have hr : opSub p (opMul a q) = r :=
    Rep.ext_sparse (canonical_opSubAssign_sparse hp _) h3
      (Rep.sub_sparse (canonical_opMulAssign_sparse _ _).1 hP
        (Rep.mul_sparse h2.1 hq.1 (noWrap_of_bound h2.1 hq.1 (by omega)) h4 hQ)) h5
  rw [hr] at hmod
  exact ⟨a, r, A, h1, hdiv, hmod, h2, h3, h4, h5, h7, h8⟩

end Sparse

namespace Sparse

variable {F : Type} [Field F] [DecidableEq F]

/-- Over a field, `p % q` is the zero polynomial exactly when `Q` divides `P`. -/
theorem mod_eq_nil_iff_sparse {p q : List (Nat × F)} {P Q : Polynomial F}
    (hp : Canonical p) (hq : Canonical q) (hP : Rep p P) (hQ : Rep q Q) (hQ0 : Q ≠ 0)
    (hpr : bound p ≤ 2 ^ 31) (hqr : bound q ≤ 2 ^ 31)
    (fuel : Nat) (hfuel : bound p + 1 ≤ fuel + bound q) :
    opMod (fun x y : F => x / y) fuel p q = some [] ↔ Q ∣ P := by
  obtain ⟨a, r, A, _, _, hmod, _, hr, _, hR, hlt, _⟩ :=
    div_mod_spec_sparse (fun x y : F => x / y) hp hq hP hQ hQ0
      (field_dv _ (Polynomial.leadingCoeff_ne_zero.2 hQ0)) hpr hqr fuel hfuel
  rw [hmod]
  constructor
  · intro h
    have : r = [] := by simpa using h
    subst this
    have h0 : P - A * Q = 0 := hR.unique_sparse rep_nil_sparse
    exact ⟨A, by rw [mul_comm]; exact sub_eq_zero.1 h0⟩
  · intro hdvd
    have hdeg : (P - A * Q).degree < Q.degree :=
      (Rep.bound_lt_iff hr hq hR hQ).1 hlt
    have h0 : P - A * Q = 0 :=
      Polynomial.eq_zero_of_dvd_of_degree_lt (dvd_sub hdvd (Dvd.intro_left A rfl)) hdeg
    rw [h0] at hR
    rw [(Rep.eq_nil_iff_sparse hr hR).2 rfl]

/-- The Euclidean loop of `operator,`: with fuel for `Degree(other) + 1` iterations it exits
with a `cur` that generates the same ideal as the initial pair. -/
theorem gcdLoop_spec_sparse (fuel : Nat) :
    ∀ (n : Nat) (cur other : List (Nat × F)) (C O : Polynomial F),
      Canonical cur → Canonical other → Rep cur C → Rep other O →
      bound other ≤ n → bound cur ≤ fuel → bound other ≤ fuel →
      bound cur ≤ 2 ^ 31 → bound other ≤ 2 ^ 31 →
      ∃ g G, gcdLoop (fun x y : F => x / y) fuel n cur other = some g ∧ Canonical g ∧
        Rep g G ∧ Ideal.span {G} = Ideal.span {C, O} ∧ bound g ≤ fuel ∧
        bound g ≤ 2 ^ 31 := by
  intro n
  induction n with
  | zero =>
    intro cur other C O hc ho hC hO hn hcf hof hcr hor
    have hO0 : O = 0 := by
      by_contra h
      have := Rep.bound_eq ho hO h
      omega
    have : other = [] := (Rep.eq_nil_iff_sparse ho hO).2 hO0
    subst this
    subst hO0
    unfold gcdLoop
    rw [opNe_nil_sparse _ hor]
    simp only [ne_eq, not_true_eq_false, decide_False]
    exact ⟨cur, C, rfl, hc, hC, (span_pair_zero C).symm, hcf, hcr⟩
  | succ n ih =>
    intro cur other C O hc ho hC hO hn hcf hof hcr hor
    unfold gcdLoop
    rw [opNe_nil_sparse _ hor]
    by_cases h0 : other = []
    · subst h0
      have hO0 : O = 0 := hO.unique_sparse rep_nil_sparse
      subst hO0
      simp only [ne_eq, not_true_eq_false, decide_False]
      exact ⟨cur, C, rfl, hc, hC, (span_pair_zero C).symm, hcf, hcr⟩
    · simp only [ne_eq, h0, not_false_eq_true, decide_True]
      have hO0 : O ≠ 0 := fun h => h0 ((Rep.eq_nil_iff_sparse ho hO).2 h)
      have hpos : 0 < bound other := by rw [Rep.bound_eq ho hO hO0]; omega
      obtain ⟨a, r, A, _, _, hmod, _, hr, _, hR, hlt, _⟩ :=
        div_mod_spec_sparse (fun x y : F => x / y) hc ho hC hO hO0
          (field_dv _ (Polynomial.leadingCoeff_ne_zero.2 hO0)) hcr hor fuel (by omega)
      rw [hmod]
      simp only
      obtain ⟨g, G, h1, h2, h3, h4, h5, h6⟩ :=
        ih other r O (C - A * O) ho hr hO hR (by omega) hof (by omega) hor (by omega)
      refine ⟨g, G, h1, h2, h3, ?_, h5, h6⟩
      rw [h4]
      have e : C - A * O = C + O * (-A) := by ring
      rw [e, Ideal.span_pair_add_mul_right, Ideal.span_pair_comm]

theorem bound_fromScalar {c : F} (hc : c ≠ 0) : bound (fromScalar c) = 1 := by
  simp [fromScalar, set, find, assign, hc, bound]

/-- Over a field `operator,` returns the monic generator of the ideal `(P, Q)`. -/
theorem opComma_spec_sparse {p q : List (Nat × F)} {P Q : Polynomial F}
    (hp : Canonical p) (hq : Canonical q) (hP : Rep p P) (hQ : Rep q Q)
    (hne : P ≠ 0 ∨ Q ≠ 0) (hpr : bound p ≤ 2 ^ 31) (hqr : bound q ≤ 2 ^ 31)
    (fuel : Nat) (hf1 : bound p ≤ fuel) (hf2 : bound q ≤ fuel) :
    ∃ g G, opComma (fun x y : F => x / y) fuel p q = some g ∧ Canonical g ∧ Rep g G ∧
      G.Monic ∧ Ideal.span {G} = Ideal.span {P, Q} ∧ bound g ≤ fuel ∧ bound g ≤ 2 ^ 31 := by
  obtain ⟨g0, G0, h1, h2, h3, h4, h5, h5r⟩ :=
    gcdLoop_spec_sparse fuel fuel p q P Q hp hq hP hQ hf2 hf1 hf2 hpr hqr
  have hG0 : G0 ≠ 0 := span_pair_ne_zero h4 hne
  have hlc : G0.leadingCoeff ≠ 0 := Polynomial.leadingCoeff_ne_zero.2 hG0
  have hC0 : Polynomial.C G0.leadingCoeff ≠ 0 := by
    rw [Ne, Polynomial.C_eq_zero]; exact hlc
  obtain ⟨a, r, A, _, hdiv, _, ha, hr, hA, hR, hlt, _⟩ :=
    div_mod_spec_sparse (fun x y : F => x / y) (q := fromScalar G0.leadingCoeff) h2
      (canonical_fromScalar _) h3 (rep_fromScalar_sparse G0.leadingCoeff) hC0
      (by rw [Polynomial.leadingCoeff_C]; exact field_dv _ hlc) h5r
      (by rw [bound_fromScalar hlc]; omega) fuel
      (by rw [bound_fromScalar hlc]; omega)
  rw [bound_fromScalar hlc] at hlt
  have hR0 : G0 - A * Polynomial.C G0.leadingCoeff = 0 := by
    by_contra h
    have := Rep.bound_eq hr hR h
    omega
  have hGA : G0 = A * Polynomial.C G0.leadingCoeff := sub_eq_zero.1 hR0
  obtain ⟨hmonic, hspan, hdeg⟩ := poly_normalize G0 A hG0 hGA
  have hag : bound a ≤ bound g0 := by
    rw [Rep.bound_le_iff_deg ha hA, hdeg, ← Rep.bound_le_iff_deg h2 h3]
  refine ⟨a, A, ?_, ha, hA, hmonic, hspan.trans h4, by omega, by omega⟩
  unfold opComma
  rw [h1]
  simp only [Option.some_bind]
  rw [Rep.lead_sparse h2 h3 h5r]
  exact hdiv

end Sparse

/-! ## Dense form: division and GCD over a field, stated on the code -/

namespace Dense

variable {F : Type} [Field F] [DecidableEq F]

/-- Division over a field, stated on the code alone: with fuel for
`p.size() - q.size() + 1` iterations the loop exits with `(a, r)`, `p / q` is `a`, `p % q` is
`r`, `a * q + r` is `p` again and `r` is shorter than `q`. -/
theorem div_mod_field_dense {p q : List F} (hp : Canonical p) (hq : Canonical q) (hq0 : q ≠ [])
    (fuel : Nat) (hfuel : p.length + 1 ≤ fuel + q.length) :
    ∃ a r, divLoop (fun x y : F => x / y) fuel (fromScalar 0) p q = some (a, r) ∧
      opDiv (fun x y : F => x / y) fuel p q = some a ∧
      opMod (fun x y : F => x / y) fuel p q = some r ∧
      Canonical a ∧ Canonical r ∧ opAdd (opMul a q) r = p ∧ r.length < q.length := by
  obtain ⟨P, hP⟩ := rep_exists_dense p
  obtain ⟨Q, hQ⟩ := rep_exists_dense q
  have hQ0 : Q ≠ 0 := fun h => hq0 ((Rep.eq_nil_iff_dense hq hQ).2 h)
  obtain ⟨a, r, A, h1, h2, h3, h4, h5, h6, h7, h8⟩ :=
    div_mod_spec_dense (fun x y : F => x / y) hp hq hP hQ hQ0
      (field_dv _ (Polynomial.leadingCoeff_ne_zero.2 hQ0)) fuel hfuel
  refine ⟨a, r, h1, h2, h3, h4, h5, ?_, h8⟩
  apply Rep.ext_dense (canonical_opAddAssign_dense _ _) hp _ hP
  have := Rep.add_dense (Rep.mul_dense h6 hQ) h7
  have e : A * Q + (P - A * Q) = P := by ring
  rw [e] at this
  exact this

/-- The GCD over a field, stated on the code alone. -/
theorem gcd_field_dense {p q : List F} (hp : Canonical p) (hq : Canonical q)
    (hne : p ≠ [] ∨ q ≠ []) (fuel : Nat) (hf1 : p.length ≤ fuel) (hf2 : q.length ≤ fuel) :
    ∃ g, opComma (fun x y : F => x / y) fuel p q = some g ∧ Canonical g ∧ g ≠ [] ∧
      opIndex g (toSizeT (Degree g)) = 1 ∧
      opMod (fun x y : F => x / y) fuel p g = some [] ∧
      opMod (fun x y : F => x / y) fuel q g = some [] ∧
      (∃ u v, Canonical u ∧ Canonical v ∧ g = opAdd (opMul u p) (opMul v q)) ∧
      (∀ d, Canonical d → d ≠ [] → opMod (fun x y : F => x / y) fuel p d = some [] →
        opMod (fun x y : F => x / y) fuel q d = some [] →
        opMod (fun x y : F => x / y) fuel g d = some []) ∧
      (∀ g', Canonical g' → opIndex g' (toSizeT (Degree g')) = 1 →
        opMod (fun x y : F => x / y) fuel p g' = some [] →
        opMod (fun x y : F => x / y) fuel q g' = some [] →
        (∃ u v, g' = opAdd (opMul u p) (opMul v q)) → g' = g) ∧
      (p ≠ [] → g.length ≤ p.length) ∧ (q ≠ [] → g.length ≤ q.length) := by
  obtain ⟨P, hP⟩ := rep_exists_dense p
  obtain ⟨Q, hQ⟩ := rep_exists_dense q
  have hne' : P ≠ 0 ∨ Q ≠ 0 := by
    rcases hne with h | h
    · exact Or.inl (fun h0 => h ((Rep.eq_nil_iff_dense hp hP).2 h0))
    · exact Or.inr (fun h0 => h ((Rep.eq_nil_iff_dense hq hQ).2 h0))
  obtain ⟨g, G, h1, h2, h3, h4, h5, h6⟩ := opComma_spec_dense hp hq hP hQ hne' fuel hf1 hf2
  have hG0 : G ≠ 0 := h4.ne_zero
  have hgne : g ≠ [] := fun h => hG0 ((Rep.eq_nil_iff_dense h2 h3).1 h)
  have hgpos : 0 < g.length := List.length_pos.2 hgne
  have hGP : G ∣ P := by
    rw [← Ideal.mem_span_singleton, h5]; exact Ideal.subset_span (by simp)
  have hGQ : G ∣ Q := by
    rw [← Ideal.mem_span_singleton, h5]; exact Ideal.subset_span (by simp)
  have hGmem : G ∈ Ideal.span {P, Q} := by
    rw [← h5]; exact Ideal.subset_span (by simp)
  obtain ⟨U, V, hUV⟩ := Ideal.mem_span_pair.1 hGmem
  refine ⟨g, h1, h2, hgne, ?_, ?_, ?_, ?_, ?_, ?_, ?_, ?_⟩
  · rw [Rep.lead_dense h2 h3]; exact h4
  · exact (mod_eq_nil_iff_dense hp h2 hP h3 hG0 fuel (by omega)).2 hGP
  · exact (mod_eq_nil_iff_dense hq h2 hQ h3 hG0 fuel (by omega)).2 hGQ
  · obtain ⟨u, hu, hU⟩ := rep_surj_dense U
    obtain ⟨v, hv, hV⟩ := rep_surj_dense V
    refine ⟨u, v, hu, hv, ?_⟩
    apply Rep.ext_dense h2 (canonical_opAddAssign_dense _ _) h3
    rw [← hUV]
    exact Rep.add_dense (Rep.mul_dense hU hP) (Rep.mul_dense hV hQ)
  · intro d hd hd0 hdp hdq
    obtain ⟨D, hD⟩ := rep_exists_dense d
    have hD0 : D ≠ 0 := fun h => hd0 ((Rep.eq_nil_iff_dense hd hD).2 h)
    have hdpos : 0 < d.length := List.length_pos.2 hd0
    have h7 := (mod_eq_nil_iff_dense hp hd hP hD hD0 fuel (by omega)).1 hdp
    have h8 := (mod_eq_nil_iff_dense hq hd hQ hD hD0 fuel (by omega)).1 hdq
    apply (mod_eq_nil_iff_dense h2 hd h3 hD hD0 fuel (by omega)).2
    rw [← hUV]
    exact dvd_add (Dvd.dvd.mul_left h7 U) (Dvd.dvd.mul_left h8 V)
  · intro g' hg' hlead hgp hgq hcomb
    obtain ⟨G', hG'⟩ := rep_exists_dense g'
    have hmon' : G'.Monic := by
      rw [Polynomial.Monic, ← Rep.lead_dense hg' hG']; exact hlead
    have hG'0 : G' ≠ 0 := hmon'.ne_zero
    have hg'ne : g' ≠ [] := fun h => hG'0 ((Rep.eq_nil_iff_dense hg' hG').1 h)
    have hg'pos : 0 < g'.length := List.length_pos.2 hg'ne
    have h7 := (mod_eq_nil_iff_dense hp hg' hP hG' hG'0 fuel (by omega)).1 hgp
    have h8 := (mod_eq_nil_iff_dense hq hg' hQ hG' hG'0 fuel (by omega)).1 hgq
    obtain ⟨u, v, huv⟩ := hcomb
    obtain ⟨U', hU'⟩ := rep_exists_dense u
    obtain ⟨V', hV'⟩ := rep_exists_dense v
    have hG'eq : G' = U' * P + V' * Q := by
      apply Rep.unique_dense hG'
      rw [huv]
      exact Rep.add_dense (Rep.mul_dense hU' hP) (Rep.mul_dense hV' hQ)
    have d1 : G' ∣ G := by
      rw [← hUV]
      exact dvd_add (Dvd.dvd.mul_left h7 U) (Dvd.dvd.mul_left h8 V)
    have d2 : G ∣ G' := by
      rw [hG'eq]
      exact dvd_add (Dvd.dvd.mul_left hGP U') (Dvd.dvd.mul_left hGQ V')
    have hGG : G' = G :=
      Polynomial.eq_of_monic_of_associated hmon' h4 (associated_of_dvd_dvd d1 d2)
    rw [hGG] at hG'
    exact Rep.ext_dense hg' h2 hG' h3
  · intro hp0
    have hP0 : P ≠ 0 := fun h0 => hp0 ((Rep.eq_nil_iff_dense hp hP).2 h0)
    have := Polynomial.natDegree_le_of_dvd hGP hP0
    rw [Rep.length h2 h3 hG0, Rep.length hp hP hP0]
    omega
  · intro hq0
    have hQ0 : Q ≠ 0 := fun h0 => hq0 ((Rep.eq_nil_iff_dense hq hQ).2 h0)
    have := Polynomial.natDegree_le_of_dvd hGQ hQ0
    rw [Rep.length h2 h3 hG0, Rep.length hq hQ hQ0]
    omega

end Dense

/-! ## Sparse form: division and GCD over a field, stated on the code -/

/-- From one Bézout combination of `G` a combination whose coefficients have degrees at most
those of the other operand, when the second operand is nonzero and a multiple of `G`. -/
theorem bezout_small_aux {F : Type} [Field F] (P Q G U₀ V₀ : Polynomial F) (hQ : Q ≠ 0)
    (hGQ : G ∣ Q) (h : U₀ * P + V₀ * Q = G) :
    ∃ U V : Polynomial F, U * P + V * Q = G ∧ U.natDegree ≤ Q.natDegree ∧
      V.natDegree ≤ P.natDegree := by
  have hdm := EuclideanDomain.div_add_mod U₀ Q
  have hlt : (U₀ % Q).degree < Q.degree := EuclideanDomain.mod_lt U₀ hQ
  have hU : (U₀ % Q).natDegree ≤ Q.natDegree :=
    Polynomial.natDegree_le_natDegree (le_of_lt hlt)
  have hcomb : U₀ % Q * P + (V₀ + U₀ / Q * P) * Q = G := by
    rw [← h]
    linear_combination P * hdm
  refine ⟨U₀ % Q, V₀ + U₀ / Q * P, hcomb, hU, ?_⟩
  by_cases hV : V₀ + U₀ / Q * P = 0
  · rw [hV, Polynomial.natDegree_zero]; exact Nat.zero_le _
  · have h1 : ((V₀ + U₀ / Q * P) * Q).natDegree
        = (V₀ + U₀ / Q * P).natDegree + Q.natDegree := Polynomial.natDegree_mul hV hQ
    have h2 : (V₀ + U₀ / Q * P) * Q = G - U₀ % Q * P := by
      rw [← hcomb]; ring
    have h3 : (G - U₀ % Q * P).natDegree ≤ max G.natDegree (U₀ % Q * P).natDegree :=
      Polynomial.natDegree_sub_le _ _
    have h4 : G.natDegree ≤ Q.natDegree := Polynomial.natDegree_le_of_dvd hGQ hQ
    have h5 : (U₀ % Q * P).natDegree ≤ (U₀ % Q).natDegree + P.natDegree :=
      Polynomial.natDegree_mul_le
    rw [h2] at h1
    have h6 : max G.natDegree (U₀ % Q * P).natDegree ≤ Q.natDegree + P.natDegree :=
      max_le (by omega) (by omega)
    omega

/-- Bézout coefficients of a common divisor `G` in the ideal `(P, Q)` can be chosen with
degrees at most those of the other operand. -/
theorem bezout_small {F : Type} [Field F] (P Q G : Polynomial F) (hG : G ≠ 0)
    (hGP : G ∣ P) (hGQ : G ∣ Q) (hmem : G ∈ Ideal.span {P, Q}) :
    ∃ U V : Polynomial F, U * P + V * Q = G ∧ U.natDegree ≤ Q.natDegree ∧
      V.natDegree ≤ P.natDegree := by
  obtain ⟨U₀, V₀, h⟩ := Ideal.mem_span_pair.1 hmem
  by_cases hQ : Q = 0
  · have hP : P ≠ 0 := by
      intro hP0
      rw [hP0, hQ] at h
      simp at h
      exact hG h.symm
    obtain ⟨U, V, h1, h2, h3⟩ := bezout_small_aux Q P G V₀ U₀ hP hGP (by rw [← h]; ring)
    exact ⟨V, U, by rw [← h1]; ring, h3, h2⟩
  · exact bezout_small_aux P Q G U₀ V₀ hQ hGQ h

namespace Sparse

variable {F : Type} [Field F] [DecidableEq F]

theorem bound_pos {p : List (Nat × F)} (h : p ≠ []) : 0 < bound p := by
  unfold bound
  cases he : p.getLast? with
  | none => exact absurd (List.getLast?_eq_none_iff.1 he) h
  | some e => simp

/-- Division over a field, stated on the code alone: with fuel for
`Degree(p) - Degree(q) + 1` iterations the loop exits with `(a, r)`, `p / q` is `a`, `p % q`
is `r`, `a * q + r` is `p` again and `r` has smaller degree than `q`. -/
theorem div_mod_field_sparse {p q : List (Nat × F)} (hp : Canonical p) (hq : Canonical q)
    (hq0 : q ≠ []) (hpr : bound p ≤ 2 ^ 31) (hqr : bound q ≤ 2 ^ 31)
    (fuel : Nat) (hfuel : bound p + 1 ≤ fuel + bound q) :
    ∃ a r, divLoop (fun x y : F => x / y) fuel (fromScalar 0) p q = some (a, r) ∧
      opDiv (fun x y : F => x / y) fuel p q = some a ∧
      opMod (fun x y : F => x / y) fuel p q = some r ∧
      Canonical a ∧ Canonical r ∧ opAdd (opMul a q) r = p ∧ bound r < bound q := by
  obtain ⟨P, hP⟩ := rep_exists_sparse hp.1
  obtain ⟨Q, hQ⟩ := rep_exists_sparse hq.1
  have hQ0 : Q ≠ 0 := fun h => hq0 ((Rep.eq_nil_iff_sparse hq hQ).2 h)
  obtain ⟨a, r, A, h1, h2, h3, h4, h5, h6, h7, h8, h9⟩ :=
    div_mod_spec_sparse (fun x y : F => x / y) hp hq hP hQ hQ0
      (field_dv _ (Polynomial.leadingCoeff_ne_zero.2 hQ0)) hpr hqr fuel hfuel
  refine ⟨a, r, h1, h2, h3, h4, h5, ?_, h8⟩
  apply Rep.ext_sparse (canonical_opAddAssign_sparse (canonical_opMulAssign_sparse _ _) _) hp _ hP
  have := Rep.add_sparse h5.1
    (Rep.mul_sparse h4.1 hq.1 (noWrap_of_bound h4.1 hq.1 (by omega)) h6 hQ) h7
  have e : A * Q + (P - A * Q) = P := by ring
  rw [e] at this
  exact this

/-- The GCD over a field, stated on the code alone. -/
theorem gcd_field_sparse {p q : List (Nat × F)} (hp : Canonical p) (hq : Canonical q)
    (hne : p ≠ [] ∨ q ≠ []) (hpr : bound p ≤ 2 ^ 31) (hqr : bound q ≤ 2 ^ 31)
    (fuel : Nat) (hf1 : bound p ≤ fuel) (hf2 : bound q ≤ fuel) :
    ∃ g, opComma (fun x y : F => x / y) fuel p q = some g ∧ Canonical g ∧ g ≠ [] ∧
      bound g ≤ 2 ^ 31 ∧
      opIndex g (toSizeT (Degree g)) = 1 ∧
      opMod (fun x y : F => x / y) fuel p g = some [] ∧
      opMod (fun x y : F => x / y) fuel q g = some [] ∧
      (∃ u v, Canonical u ∧ Canonical v ∧ NoWrap u p ∧ NoWrap v q ∧
        g = opAdd (opMul u p) (opMul v q)) ∧
      (∀ d, Canonical d → d ≠ [] → bound d ≤ 2 ^ 31 →
        opMod (fun x y : F => x / y) fuel p d = some [] →
        opMod (fun x y : F => x / y) fuel q d = some [] →
        opMod (fun x y : F => x / y) fuel g d = some []) ∧
      (∀ g', Canonical g' → bound g' ≤ 2 ^ 31 → opIndex g' (toSizeT (Degree g')) = 1 →
        opMod (fun x y : F => x / y) fuel p g' = some [] →
        opMod (fun x y : F => x / y) fuel q g' = some [] →
        (∃ u v, Canonical u ∧ Canonical v ∧ NoWrap u p ∧ NoWrap v q ∧
          g' = opAdd (opMul u p) (opMul v q)) → g' = g) ∧
      (p ≠ [] → bound g ≤ bound p) ∧ (q ≠ [] → bound g ≤ bound q) := by
  obtain ⟨P, hP⟩ := rep_exists_sparse hp.1
  obtain ⟨Q, hQ⟩ := rep_exists_sparse hq.1
  have hne' : P ≠ 0 ∨ Q ≠ 0 := by
    rcases hne with h | h
    · exact Or.inl (fun h0 => h ((Rep.eq_nil_iff_sparse hp hP).2 h0))
    · exact Or.inr (fun h0 => h ((Rep.eq_nil_iff_sparse hq hQ).2 h0))
  obtain ⟨g, G, h1, h2, h3, h4, h5, h6, h6r⟩ :=
    opComma_spec_sparse hp hq hP hQ hne' hpr hqr fuel hf1 hf2
  have hG0 : G ≠ 0 := h4.ne_zero
  have hgne : g ≠ [] := fun h => hG0 ((Rep.eq_nil_iff_sparse h2 h3).1 h)
  have hgpos : 0 < bound g := bound_pos hgne
  have hGP : G ∣ P := by
    rw [← Ideal.mem_span_singleton, h5]; exact Ideal.subset_span (by simp)
  have hGQ : G ∣ Q := by
    rw [← Ideal.mem_span_singleton, h5]; exact Ideal.subset_span (by simp)
  have hGmem : G ∈ Ideal.span {P, Q} := by
    rw [← h5]; exact Ideal.subset_span (by simp)
  obtain ⟨U, V, hUV, hUd, hVd⟩ := bezout_small P Q G hG0 hGP hGQ hGmem
  have hPd : P.natDegree ≤ 2 ^ 31 := le_trans (Rep.natDegree_le_bound hp hP) hpr
  have hQd : Q.natDegree ≤ 2 ^ 31 := le_trans (Rep.natDegree_le_bound hq hQ) hqr
  refine ⟨g, h1, h2, hgne, h6r, ?_, ?_, ?_, ?_, ?_, ?_, ?_, ?_⟩
  · rw [Rep.lead_sparse h2 h3 h6r]; exact h4
  · exact (mod_eq_nil_iff_sparse hp h2 hP h3 hG0 hpr h6r fuel (by omega)).2 hGP
  · exact (mod_eq_nil_iff_sparse hq h2 hQ h3 hG0 hqr h6r fuel (by omega)).2 hGQ
  · obtain ⟨u, hu, hU⟩ := rep_surj_sparse U
    obtain ⟨v, hv, hV⟩ := rep_surj_sparse V
    have hwu : NoWrap u p := Rep.noWrap hu hp hU hP (by omega)
    have hwv : NoWrap v q := Rep.noWrap hv hq hV hQ (by omega)
    refine ⟨u, v, hu, hv, hwu, hwv, ?_⟩
    apply Rep.ext_sparse h2 (canonical_opAddAssign_sparse (canonical_opMulAssign_sparse _ _) _) h3
    rw [← hUV]
    exact Rep.add_sparse (canonical_opMulAssign_sparse _ _).1
      (Rep.mul_sparse hu.1 hp.1 hwu hU hP) (Rep.mul_sparse hv.1 hq.1 hwv hV hQ)
  · intro d hd hd0 hdr hdp hdq
    obtain ⟨D, hD⟩ := rep_exists_sparse hd.1
    have hD0 : D ≠ 0 := fun h => hd0 ((Rep.eq_nil_iff_sparse hd hD).2 h)
    have hdpos : 0 < bound d := bound_pos hd0
    have h7 := (mod_eq_nil_iff_sparse hp hd hP hD hD0 hpr hdr fuel (by omega)).1 hdp
    have h8 := (mod_eq_nil_iff_sparse hq hd hQ hD hD0 hqr hdr fuel (by omega)).1 hdq
    apply (mod_eq_nil_iff_sparse h2 hd h3 hD hD0 h6r hdr fuel (by omega)).2
    rw [← hUV]
    exact dvd_add (Dvd.dvd.mul_left h7 U) (Dvd.dvd.mul_left h8 V)
  · intro g' hg' hg'r hlead hgp hgq hcomb
    obtain ⟨G', hG'⟩ := rep_exists_sparse hg'.1
    have hmon' : G'.Monic := by
      rw [Polynomial.Monic, ← Rep.lead_sparse hg' hG' hg'r]; exact hlead
    have hG'0 : G' ≠ 0 := hmon'.ne_zero
    have hg'ne : g' ≠ [] := fun h => hG'0 ((Rep.eq_nil_iff_sparse hg' hG').1 h)
    have hg'pos : 0 < bound g' := bound_pos hg'ne
    have h7 := (mod_eq_nil_iff_sparse hp hg' hP hG' hG'0 hpr hg'r fuel (by omega)).1 hgp
    have h8 := (mod_eq_nil_iff_sparse hq hg' hQ hG' hG'0 hqr hg'r fuel (by omega)).1 hgq
    obtain ⟨u, v, hu, hv, hwu, hwv, huv⟩ := hcomb
    obtain ⟨U', hU'⟩ := rep_exists_sparse hu.1
    obtain ⟨V', hV'⟩ := rep_exists_sparse hv.1
    have hG'eq : G' = U' * P + V' * Q := by
      apply Rep.unique_sparse hG'
      rw [huv]
      exact Rep.add_sparse (canonical_opMulAssign_sparse _ _).1
        (Rep.mul_sparse hu.1 hp.1 hwu hU' hP) (Rep.mul_sparse hv.1 hq.1 hwv hV' hQ)
    have d1 : G' ∣ G := by
      rw [← hUV]
      exact dvd_add (Dvd.dvd.mul_left h7 U) (Dvd.dvd.mul_left h8 V)
    have d2 : G ∣ G' := by
      rw [hG'eq]
      exact dvd_add (Dvd.dvd.mul_left hGP U') (Dvd.dvd.mul_left hGQ V')
    have hGG : G' = G :=
      Polynomial.eq_of_monic_of_associated hmon' h4 (associated_of_dvd_dvd d1 d2)
    rw [hGG] at hG'
    exact Rep.ext_sparse hg' h2 hG' h3
  · intro hp0
    have hP0 : P ≠ 0 := fun h0 => hp0 ((Rep.eq_nil_iff_sparse hp hP).2 h0)
    have := Polynomial.natDegree_le_of_dvd hGP hP0
    rw [Rep.bound_eq h2 h3 hG0, Rep.bound_eq hp hP hP0]
    omega
  · intro hq0
    have hQ0 : Q ≠ 0 := fun h0 => hq0 ((Rep.eq_nil_iff_sparse hq hQ).2 h0)
    have := Polynomial.natDegree_le_of_dvd hGQ hQ0
    rw [Rep.bound_eq h2 h3 hG0, Rep.bound_eq hq hQ hQ0]
    omega

end Sparse

/-! ## Division by the zero polynomial; results are canonical -/

namespace Dense

variable {T : Type} [CommRing T] [DecidableEq T]

/-- With a zero divisor polynomial the loop condition `Degree(cur) >= -1` always holds: the
loop of `operator/` never exits, whatever the coefficient division returns. -/
theorem divLoop_nil_dense (dv : T → T → T) :
    ∀ (fuel : Nat) (res cur : List T), divLoop dv fuel res cur [] = none := by
  intro fuel
  induction fuel with
  | zero =>
    intro res cur
    unfold divLoop
    rw [if_pos (by rw [degree_ge_iff_dense]; simp)]
  | succ fuel ih =>
    intro res cur
    unfold divLoop
    rw [if_pos (by rw [degree_ge_iff_dense]; simp)]
    exact ih _ _

/-- The quotient component of the final state of the division loop is canonical. -/
theorem divLoop_canonical_dense (dv : T → T → T) (other : List T) :
    ∀ (fuel : Nat) (res cur a r : List T), Canonical res →
      divLoop dv fuel res cur other = some (a, r) → Canonical a := by
  intro fuel
  induction fuel with
  | zero =>
    intro res cur a r hres h
    unfold divLoop at h
    split at h
    · simp at h
    · simp only [Option.some.injEq, Prod.mk.injEq] at h
      rw [← h.1]; exact hres
  | succ fuel ih =>
    intro res cur a r hres h
    unfold divLoop at h
    split at h
    · exact ih _ _ a r (canonical_opAddAssign_dense _ _) h
    · simp only [Option.some.injEq, Prod.mk.injEq] at h
      rw [← h.1]; exact hres

theorem opDiv_canonical_dense (dv : T → T → T) (fuel : Nat) (p q r : List T)
    (h : opDiv dv fuel p q = some r) : Canonical r := by
  unfold opDiv at h
  cases hd : divLoop dv fuel (fromScalar 0) p q with
  | none => rw [hd] at h; simp at h
  | some x =>
    obtain ⟨a, c⟩ := x
    rw [hd] at h
    simp only [Option.map_some', Option.some.injEq] at h
    subst h
    exact divLoop_canonical_dense dv q fuel _ _ _ _ (canonical_cut _) hd

theorem opMod_canonical_dense (dv : T → T → T) (fuel : Nat) (p q r : List T)
    (h : opMod dv fuel p q = some r) : Canonical r := by
  unfold opMod at h
  cases hd : opDiv dv fuel p q with
  | none => rw [hd] at h; simp at h
  | some a =>
    rw [hd] at h
    simp only [Option.map_some', Option.some.injEq] at h
    rw [← h]; exact canonical_opSubAssign_dense _ _

theorem opComma_canonical_dense (dv : T → T → T) (fuel : Nat) (p q r : List T)
    (h : opComma dv fuel p q = some r) : Canonical r := by
  unfold opComma at h
  cases hd : gcdLoop dv fuel fuel p q with
  | none => rw [hd] at h; simp at h
  | some g =>
    rw [hd] at h
    simp only [Option.some_bind] at h
    exact opDiv_canonical_dense dv fuel _ _ r h

end Dense

namespace Sparse

variable {T : Type} [CommRing T] [DecidableEq T]

/-- With a zero divisor polynomial and exponents of `cur` below `2^31` the loop condition
`Degree(cur) >= -1` always holds and `cur` never changes: the loop of `operator/` never exits,
whatever the coefficient division returns. -/
theorem divLoop_nil_sparse (dv : T → T → T) :
    ∀ (fuel : Nat) (res cur : List (Nat × T)), bound cur ≤ 2 ^ 31 →
      divLoop dv fuel res cur [] = none := by
  have hn : bound ([] : List (Nat × T)) ≤ 2 ^ 31 := by rw [bound_nil]; omega
  intro fuel
  induction fuel with
  | zero =>
    intro res cur hr
    unfold divLoop
    rw [if_pos (by rw [degree_ge_iff_sparse cur [] hr hn, bound_nil]; omega)]
  | succ fuel ih =>
    intro res cur hr
    unfold divLoop
    rw [if_pos (by rw [degree_ge_iff_sparse cur [] hr hn, bound_nil]; omega)]
    exact ih _ _ hr

theorem divLoop_canonical_sparse (dv : T → T → T) (other : List (Nat × T)) :
    ∀ (fuel : Nat) (res cur a r : List (Nat × T)), Canonical res →
      divLoop dv fuel res cur other = some (a, r) → Canonical a := by
  intro fuel
  induction fuel with
  | zero =>
    intro res cur a r hres h
    unfold divLoop at h
    split at h
    · simp at h
    · simp only [Option.some.injEq, Prod.mk.injEq] at h
      rw [← h.1]; exact hres
  | succ fuel ih =>
    intro res cur a r hres h
    unfold divLoop at h
    split at h
    · exact ih _ _ a r (canonical_opAddAssign_sparse hres _) h
    · simp only [Option.some.injEq, Prod.mk.injEq] at h
      rw [← h.1]; exact hres

theorem opDiv_canonical_sparse (dv : T → T → T) (fuel : Nat) (p q r : List (Nat × T))
    (h : opDiv dv fuel p q = some r) : Canonical r := by
  unfold opDiv at h
  cases hd : divLoop dv fuel (fromScalar 0) p q with
  | none => rw [hd] at h; simp at h
  | some x =>
    obtain ⟨a, c⟩ := x
    rw [hd] at h
    simp only [Option.map_some', Option.some.injEq] at h
    subst h
    exact divLoop_canonical_sparse dv q fuel _ _ _ _ (canonical_fromScalar 0) hd

theorem opMod_canonical_sparse (dv : T → T → T) (fuel : Nat) {p : List (Nat × T)}
    (hp : Canonical p) (q r : List (Nat × T))
    (h : opMod dv fuel p q = some r) : Canonical r := by
  unfold opMod at h
  cases hd : opDiv dv fuel p q with
  | none => rw [hd] at h; simp at h
  | some a =>
    rw [hd] at h
    simp only [Option.map_some', Option.some.injEq] at h
    rw [← h]; exact canonical_opSubAssign_sparse hp _

theorem opComma_canonical_sparse (dv : T → T → T) (fuel : Nat) (p q r : List (Nat × T))
    (h : opComma dv fuel p q = some r) : Canonical r := by
  unfold opComma at h
  cases hd : gcdLoop dv fuel fuel p q with
  | none => rw [hd] at h; simp at h
  | some g =>
    rw [hd] at h
    simp only [Option.some_bind] at h
    exact opDiv_canonical_sparse dv fuel _ _ r h

theorem canonical_opAnd_sparse (p r : List (Nat × T)) : Canonical (opAnd p r) :=
  canonical_foldl _ (fun _ _ h => canonical_opAddAssign_sparse h _) p _ (canonical_fromScalar 0)

theorem canonical_fromRange (xs : List T) : Canonical (fromRange xs) := by
  have key : ∀ (l : List T) (st : List (Nat × T) × Nat), Canonical st.1 →
      Canonical (l.foldl (fun (st : List (Nat × T) × Nat) x =>
        (set st.1 st.2 x, st.2 + 1)) st).1 := by
    intro l
    induction l with
    | nil => intro st h; exact h
    | cons x t ih => intro st h; exact ih _ (canonical_set h _ _)
  exact key xs ([], 0) canonical_nil_sparse

end Sparse

/-! ## Evaluation as a sum, the range constructor, equality of sparse maps -/

namespace Dense

variable {T : Type} [CommRing T] [DecidableEq T]

/-- `operator()` returns the sum of `p[i] * v^i` over the stored positions. -/
theorem opCall_eq_sum (p : List T) (v : T) :
    opCall p v = ∑ i in Finset.range p.length, p.getD i 0 * v ^ i := by
  unfold opCall
  split
  · rename_i he
    have : p = [] := by simpa using he
    subst this; simp
  · rw [eval_loop]
    show ∑ i in Finset.range p.length, v ^ i * p.getD i 0 = _
    apply Finset.sum_congr rfl
    intro i _; rw [mul_comm]

theorem opCall_fromVector (a : List T) (v : T) :
    opCall (fromVector a) v = ∑ i in Finset.range a.length, a.getD i 0 * v ^ i := by
  obtain ⟨A, hA⟩ := rep_exists_dense a
  rw [Rep.eval_dense (rep_fromVector_dense hA), ← Rep.eval_dense hA, opCall_eq_sum]

end Dense

namespace Sparse

variable {T : Type} [CommRing T] [DecidableEq T]

theorem opCall_fromVector_sparse (a : List T) (v : T) :
    opCall (fromVector a) v = ∑ i in Finset.range a.length, a.getD i 0 * v ^ i := by
  obtain ⟨A, hA⟩ := Dense.rep_exists_dense a
  rw [Rep.eval_sparse (canonical_fromVector a).1 (rep_fromVector_sparse hA),
    ← Dense.Rep.eval_dense hA, Dense.opCall_eq_sum]

end Sparse

/-- `std::equal` reads past the end of its second range exactly when the second range is a
proper prefix of the first. -/
theorem std_equal_eq_none_iff {α : Type} [DecidableEq α] :
    ∀ (p q : List α), std_equal p q = none ↔ ∃ t, t ≠ [] ∧ p = q ++ t
  | [], q => by
    unfold std_equal
    constructor
    · intro h; cases h
    · rintro ⟨t, ht, h⟩
      cases q with
      | nil => exact absurd (by simpa using h.symm) ht
      | cons b bs => simp at h
  | a :: as, [] => by
    simp only [std_equal, true_iff]
    exact ⟨a :: as, by simp, by simp⟩
  | a :: as, b :: bs => by
    have ih := std_equal_eq_none_iff as bs
    unfold std_equal
    by_cases hab : a = b
    · subst hab
      rw [if_pos rfl, ih]
      constructor
      · rintro ⟨t, ht, h⟩; exact ⟨t, ht, by rw [h]; rfl⟩
      · rintro ⟨t, ht, h⟩
        exact ⟨t, ht, by simpa using h⟩
    · rw [if_neg hab]
      constructor
      · intro h; cases h
      · rintro ⟨t, ht, h⟩
        simp only [List.cons_append, List.cons.injEq] at h
        exact absurd h.1 hab

/-- `std::equal` returns `true` exactly when the first range is a prefix of the second. -/
theorem std_equal_eq_true_iff {α : Type} [DecidableEq α] :
    ∀ (p q : List α), std_equal p q = some true ↔ ∃ t, q = p ++ t
  | [], q => by
    simp only [std_equal, true_iff]
    exact ⟨q, rfl⟩
  | a :: as, [] => by
    simp [std_equal]
  | a :: as, b :: bs => by
    have ih := std_equal_eq_true_iff as bs
    unfold std_equal
    by_cases hab : a = b
    · subst hab
      rw [if_pos rfl, ih]
      constructor
      · rintro ⟨t, h⟩; exact ⟨t, by rw [h]; rfl⟩
      · rintro ⟨t, h⟩
        exact ⟨t, by simpa using h⟩
    · rw [if_neg hab]
      constructor
      · intro h; cases h
      · rintro ⟨t, h⟩
        simp only [List.cons_append, List.cons.injEq] at h
        exact absurd h.1.symm hab

namespace Sparse

variable {T : Type} [CommRing T] [DecidableEq T]

/-- Appending entries to a sorted map raises its bound. -/
theorem bound_append_lt {p t : List (Nat × T)} (hs : Sorted (p ++ t)) (ht : t ≠ []) :
    bound p < bound (p ++ t) := by
  obtain ⟨e', he'⟩ : ∃ e', t.getLast? = some e' := by
    cases h : t.getLast? with
    | none => exact absurd (List.getLast?_eq_none_iff.1 h) ht
    | some e' => exact ⟨e', rfl⟩
  have hmem' : e' ∈ t := List.mem_of_getLast?_eq_some he'
  have hlast : (p ++ t).getLast? = some e' := by
    rw [List.getLast?_append, he']; rfl
  have hd : bound (p ++ t) = e'.1 + 1 := by
    unfold bound; rw [hlast]
  rw [hd]
  unfold bound
  cases h : p.getLast? with
  | none => simp only; omega
  | some e =>
    simp only
    have hmem : e ∈ p := List.mem_of_getLast?_eq_some h
    unfold Sorted at hs
    have := (List.pairwise_append.1 hs).2.2 e hmem e' hmem'
    omega

/-- Appending entries to a sorted map with exponents below `2^31` raises its degree. -/
theorem degree_append_lt {p t : List (Nat × T)} (hs : Sorted (p ++ t)) (ht : t ≠ [])
    (hr : bound (p ++ t) ≤ 2 ^ 31) : Degree p < Degree (p ++ t) := by
  have h := bound_append_lt hs ht
  rw [degree_eq_bound _ hr, degree_eq_bound p (by omega)]
  omega

/-- On well-formed maps with exponents below `2^31`, `operator==` never reads out of range
and decides equality of the stored entries. -/
theorem opEq_eq_decide_sparse {p q : List (Nat × T)} (hp : Sorted p) (hq : Sorted q)
    (hpr : bound p ≤ 2 ^ 31) (hqr : bound q ≤ 2 ^ 31) :
    opEq p q = some (decide (p = q)) := by
  unfold opEq
  by_cases hd : Degree p = Degree q
  · rw [if_pos hd]
    cases h : std_equal p q with
    | none =>
      obtain ⟨t, ht, hpt⟩ := (std_equal_eq_none_iff p q).1 h
      subst hpt
      have := degree_append_lt hp ht hpr
      omega
    | some b =>
      cases b with
      | true =>
        obtain ⟨t, hqt⟩ := (std_equal_eq_true_iff p q).1 h
        by_cases ht : t = []
        · subst ht
          simp [hqt]
        · subst hqt
          have := degree_append_lt hq ht hqr
          omega
      | false =>
        have : p ≠ q := by
          intro e; subst e
          rw [std_equal_self] at h
          cases h
        simp [this]
  · rw [if_neg hd]
    have : p ≠ q := fun e => hd (by rw [e])
    simp [this]

theorem get_eq_zero_of_bound_le {p : List (Nat × T)} (hp : Canonical p) {i : Nat}
    (h : bound p ≤ i) : get p i = 0 :=
  (bound_le_iff hp (bound p)).1 le_rfl i h

end Sparse

namespace Sparse

variable {T : Type} [CommRing T] [DecidableEq T]

end Sparse

/-! ## One iteration of the division loop -/

namespace Dense

variable {T : Type} [CommRing T] [DecidableEq T]

theorem divStep_fst_dense (dv : T → T → T) (res cur other : List T) :
    (divStep dv res cur other).1 = opAddAssign res (fromVector
      ((List.replicate (toSizeT (Degree cur - Degree other) + 1) (0 : T)).set
        ((List.replicate (toSizeT (Degree cur - Degree other) + 1) (0 : T)).length - 1)
        (dv (opIndex cur (toSizeT (Degree cur))) (opIndex other (toSizeT (Degree other)))))) := by
  unfold divStep
  simp only

theorem divStep_snd_dense (dv : T → T → T) (res cur other : List T) :
    (divStep dv res cur other).2 = opSubAssign cur (opMul other (fromVector
      ((List.replicate (toSizeT (Degree cur - Degree other) + 1) (0 : T)).set
        ((List.replicate (toSizeT (Degree cur - Degree other) + 1) (0 : T)).length - 1)
        (dv (opIndex cur (toSizeT (Degree cur))) (opIndex other (toSizeT (Degree other))))))) := by
  unfold divStep
  simp only

/-- `divStep` is the body of the loop of `operator/`. -/
theorem divLoop_succ_dense (dv : T → T → T) (fuel : Nat) (res cur other : List T) :
    divLoop dv (fuel + 1) res cur other =
      if Degree cur ≥ Degree other then
        divLoop dv fuel (divStep dv res cur other).1 (divStep dv res cur other).2 other
      else some (res, cur) := by
  rw [divStep_fst_dense, divStep_snd_dense]
  conv_lhs => rw [divLoop]

theorem divLoop_zero_dense (dv : T → T → T) (res cur other : List T) :
    divLoop dv 0 res cur other =
      if Degree cur ≥ Degree other then none else some (res, cur) := by
  rw [divLoop]

/-- One iteration keeps `cur` canonical and, when the leading coefficient of the divisor
divides exactly, strictly shortens `cur`. -/
theorem divStep_decreases_dense (dv : T → T → T) (res : List T) {cur other : List T}
    (hcur : Canonical cur) (ho : Canonical other) (ho0 : other ≠ [])
    (hdv : ∀ a, opIndex other (toSizeT (Degree other)) *
      dv a (opIndex other (toSizeT (Degree other))) = a)
    (hcond : Degree cur ≥ Degree other) :
    Canonical (divStep dv res cur other).2 ∧
      Degree (divStep dv res cur other).2 < Degree cur := by
  rw [divStep_snd_dense]
  refine ⟨canonical_cut _, ?_⟩
  obtain ⟨Cur, hCur⟩ := rep_exists_dense cur
  obtain ⟨Q, hQ⟩ := rep_exists_dense other
  have hQ0 : Q ≠ 0 := fun h => ho0 ((Rep.eq_nil_iff_dense ho hQ).2 h)
  have holen : other.length = Q.natDegree + 1 := Rep.length ho hQ hQ0
  rw [degree_ge_iff_dense] at hcond
  have hCur0 : Cur ≠ 0 := by
    intro h0
    have := (Rep.eq_nil_iff_dense hcur hCur).2 h0
    subst this
    simp only [List.length_nil] at hcond; omega
  have hclen : cur.length = Cur.natDegree + 1 := Rep.length hcur hCur hCur0
  rw [Rep.lead_dense ho hQ] at hdv
  rw [toSizeT_degree_sub_dense cur other hcond, Rep.lead_dense hcur hCur, Rep.lead_dense ho hQ]
  have hd : cur.length - other.length = Cur.natDegree - Q.natDegree := by omega
  have ht := rep_term_dense (cur.length - other.length) (dv Cur.leadingCoeff Q.leadingCoeff)
  have hcur1 := Rep.sub_dense hCur (Rep.mul_dense hQ ht)
  have hlt : (opSubAssign cur (opMulAssign other (fromVector
      ((List.replicate (cur.length - other.length + 1) (0 : T)).set
        ((List.replicate (cur.length - other.length + 1) (0 : T)).length - 1)
        (dv Cur.leadingCoeff Q.leadingCoeff))))).length < cur.length := by
    apply (Rep.length_lt_iff (canonical_opSubAssign_dense _ _) hcur hcur1 hCur).2
    rw [hd]
    exact poly_div_step Cur Q _ (hdv _) hCur0 (by omega)
  unfold Degree
  have hlt' : (opSubAssign cur (opMul other (fromVector
      ((List.replicate (cur.length - other.length + 1) (0 : T)).set
        ((List.replicate (cur.length - other.length + 1) (0 : T)).length - 1)
        (dv Cur.leadingCoeff Q.leadingCoeff))))).length < cur.length := hlt
  omega

end Dense

namespace Sparse

variable {T : Type} [CommRing T] [DecidableEq T]

theorem divStep_fst_sparse (dv : T → T → T) (res cur other : List (Nat × T)) :
    (divStep dv res cur other).1 = opAddAssign res
      (set (fromScalar 0) (toSizeT (Degree cur - Degree other))
        (dv (opIndex cur (toSizeT (Degree cur))) (opIndex other (toSizeT (Degree other))))) := by
  unfold divStep
  simp only

theorem divStep_snd_sparse (dv : T → T → T) (res cur other : List (Nat × T)) :
    (divStep dv res cur other).2 = opSubAssign cur (opMul other
      (set (fromScalar 0) (toSizeT (Degree cur - Degree other))
        (dv (opIndex cur (toSizeT (Degree cur))) (opIndex other (toSizeT (Degree other)))))) := by
  unfold divStep
  simp only

/-- `divStep` is the body of the loop of `operator/`. -/
theorem divLoop_succ_sparse (dv : T → T → T) (fuel : Nat) (res cur other : List (Nat × T)) :
    divLoop dv (fuel + 1) res cur other =
      if Degree cur ≥ Degree other then
        divLoop dv fuel (divStep dv res cur other).1 (divStep dv res cur other).2 other
      else some (res, cur) := by
  rw [divStep_fst_sparse, divStep_snd_sparse]
  conv_lhs => rw [divLoop]

theorem divLoop_zero_sparse (dv : T → T → T) (res cur other : List (Nat × T)) :
    divLoop dv 0 res cur other =
      if Degree cur ≥ Degree other then none else some (res, cur) := by
  rw [divLoop]

/-- One iteration keeps `cur` canonical and, when the leading coefficient of the divisor
divides exactly and the exponents are below `2^31`, strictly lowers the degree of `cur`. -/
theorem divStep_decreases_sparse (dv : T → T → T) (res : List (Nat × T))
    {cur other : List (Nat × T)}
    (hcur : Canonical cur) (ho : Canonical other) (ho0 : other ≠ [])
    (hcr : bound cur ≤ 2 ^ 31) (hor : bound other ≤ 2 ^ 31)
    (hdv : ∀ a, opIndex other (toSizeT (Degree other)) *
      dv a (opIndex other (toSizeT (Degree other))) = a)
    (hcond : Degree cur ≥ Degree other) :
    Canonical (divStep dv res cur other).2 ∧
      Degree (divStep dv res cur other).2 < Degree cur ∧
      bound (divStep dv res cur other).2 < bound cur := by
  rw [divStep_snd_sparse]
  refine ⟨canonical_opSubAssign_sparse hcur _, ?_⟩
  obtain ⟨Cur, hCur⟩ := rep_exists_sparse hcur.1
  obtain ⟨Q, hQ⟩ := rep_exists_sparse ho.1
  have hQ0 : Q ≠ 0 := fun h => ho0 ((Rep.eq_nil_iff_sparse ho hQ).2 h)
  have holen : bound other = Q.natDegree + 1 := Rep.bound_eq ho hQ hQ0
  rw [degree_ge_iff_sparse cur other hcr hor] at hcond
  have hCur0 : Cur ≠ 0 := by
    intro h0
    have := (Rep.eq_nil_iff_sparse hcur hCur).2 h0
    subst this
    rw [bound_nil] at hcond; omega
  have hclen : bound cur = Cur.natDegree + 1 := Rep.bound_eq hcur hCur hCur0
  rw [Rep.lead_sparse ho hQ hor] at hdv
  rw [toSizeT_degree_sub_sparse cur other hcr hor hcond, Rep.lead_sparse hcur hCur hcr,
    Rep.lead_sparse ho hQ hor]
  have hd : bound cur - bound other = Cur.natDegree - Q.natDegree := by omega
  obtain ⟨htc, ht⟩ :=
    rep_term_sparse (bound cur - bound other) (dv Cur.leadingCoeff Q.leadingCoeff)
  have hnw : NoWrap other (set (fromScalar 0) (bound cur - bound other)
      (dv Cur.leadingCoeff Q.leadingCoeff)) := by
    apply Rep.noWrap ho htc hQ ht
    have := Polynomial.natDegree_monomial_le (dv Cur.leadingCoeff Q.leadingCoeff)
      (m := bound cur - bound other)
    omega
  have hcur1 := Rep.sub_sparse (canonical_opMulAssign_sparse _ _).1 hCur
    (Rep.mul_sparse ho.1 htc.1 hnw hQ ht)
  have hlt : bound (opSubAssign cur (opMul other
      (set (fromScalar 0) (bound cur - bound other)
        (dv Cur.leadingCoeff Q.leadingCoeff)))) < bound cur := by
    apply (Rep.bound_lt_iff (canonical_opSubAssign_sparse hcur _) hcur hcur1 hCur).2
    rw [hd]
    exact poly_div_step Cur Q _ (hdv _) hCur0 (by omega)
  refine ⟨?_, hlt⟩
  rw [degree_eq_bound _ (by omega), degree_eq_bound cur hcr]
  omega

end Sparse

/-! ## The buffer of the dense `operator*=` -/

namespace Dense

variable {T : Type} [CommRing T] [DecidableEq T]

/-- Every index `i + j` of the double loop lies inside a buffer of `n * m` entries. -/
theorem index_lt_new_size (p other : List T) (i j : Nat) (hi : i < p.length)
    (hj : j < other.length) : i + j < new_size p other := by
  unfold new_size
  have h1 : (i + 1) * (j + 1) ≤ p.length * other.length := Nat.mul_le_mul hi hj
  have h2 : (i + 1) * (j + 1) = i * j + i + j + 1 := by ring
  have h3 : 0 ≤ i * j := Nat.zero_le _
  omega

theorem mem_mulWrites (p other : List T) (k : Nat) :
    k ∈ mulWrites p other ↔ ∃ i, i < p.length ∧ ∃ j, j < other.length ∧ i + j = k := by
  unfold mulWrites
  simp only [List.mem_flatMap, List.mem_map, List.mem_range]

/-- Checked inner loop: when its indices are inside the buffer it performs the writes of
the unchecked loop. -/
theorem checked_inner (other : List T) (i : Nat) (c : T) (n : Nat) (res : List T)
    (h : ∀ j, j < n → i + j < res.length) :
    (List.range n).foldlM (fun res j =>
      if i + j < res.length then
        some (res.set (i + j) (res.getD (i + j) 0 + c * other.getD j 0))
      else none) res =
    some ((List.range n).foldl (fun res j =>
      res.set (i + j) (res.getD (i + j) 0 + c * other.getD j 0)) res) := by
  induction n with
  | zero => rfl
  | succ n ih =>
    rw [List.range_succ, List.foldlM_append, List.foldl_append,
      ih (fun j hj => h j (by omega))]
    have hl := (mul_inner_dense other i c n res).1
    have hc : i + n < ((List.range n).foldl (fun res j =>
        res.set (i + j) (res.getD (i + j) 0 + c * other.getD j 0)) res).length := by
      rw [hl]; exact h n (by omega)
    simp only [List.foldlM_cons, List.foldlM_nil, List.foldl_cons, List.foldl_nil,
      Option.bind_eq_bind, Option.some_bind, if_pos hc, Option.pure_def]

/-- Checked double loop: when its indices are inside the buffer it performs the writes of
the unchecked loop. -/
theorem checked_outer (p other : List T) (n : Nat) (res : List T)
    (h : ∀ i j, i < n → j < other.length → i + j < res.length) :
    (List.range n).foldlM (fun res i =>
      (List.range other.length).foldlM (fun res j =>
        if i + j < res.length then
          some (res.set (i + j) (res.getD (i + j) 0 + p.getD i 0 * other.getD j 0))
        else none) res) res =
    some ((List.range n).foldl (fun res i =>
      (List.range other.length).foldl (fun res j =>
        res.set (i + j) (res.getD (i + j) 0 + p.getD i 0 * other.getD j 0)) res) res) := by
  induction n with
  | zero => rfl
  | succ n ih =>
    rw [List.range_succ, List.foldlM_append, List.foldl_append,
      ih (fun i j hi hj => h i j (by omega) hj)]
    have hl := (mul_outer_dense p other n res).1
    simp only [List.foldlM_cons, List.foldlM_nil, List.foldl_cons, List.foldl_nil,
      Option.bind_eq_bind, Option.some_bind, Option.pure_def]
    rw [checked_inner other n (p.getD n 0) other.length _
      (fun j hj => by rw [hl]; exact h n j (by omega) hj)]
    rfl

theorem mulLoopChecked_eq (p other : List T) :
    mulLoopChecked p other (List.replicate (new_size p other) 0) =
      some (mulLoop p other (List.replicate (new_size p other) 0)) := by
  unfold mulLoopChecked mulLoop
  exact checked_outer p other p.length _
    (fun i j hi hj => by rw [List.length_replicate]; exact index_lt_new_size p other i j hi hj)

end Dense

/-! ## Textual form -/

/-- The text the codes write for a term after the first, for a coefficient `c` and an
exponent `e >= 1`, is the canonical text of that term. -/
theorem middle_term_text (out : String) (c : ℤ) (e : Nat) (he : 1 ≤ e) :
    (if e > 1 then
      (if c ≠ 1 ∧ c ≠ -1 then
        (if c = -1 then (if 0 < c then out ++ "+" else out) ++ "-"
          else (if 0 < c then out ++ "+" else out)) ++ toString c ++ "*"
        else (if c = -1 then (if 0 < c then out ++ "+" else out) ++ "-"
          else (if 0 < c then out ++ "+" else out))) ++ "x" ++ "^" ++ toString e
    else
      (if c ≠ 1 ∧ c ≠ -1 then
        (if c = -1 then (if 0 < c then out ++ "+" else out) ++ "-"
          else (if 0 < c then out ++ "+" else out)) ++ toString c ++ "*"
        else (if c = -1 then (if 0 < c then out ++ "+" else out) ++ "-"
          else (if 0 < c then out ++ "+" else out))) ++ "x")
      = out ++ termTextSpec false e c := by
  unfold termTextSpec
  rw [if_pos he]
  simp only [eq_self, true_and]
  split_ifs <;>
    first
    | omega
    | simp only [String.append_assoc, String.empty_append, String.append_empty]

/-- The text the codes write for the leading term is the canonical text of a first term. -/
theorem lead_term_text (c : ℤ) (e : Nat) (he : 1 ≤ e) :
    (if e > 1 then
      (if c = -1 then "" ++ "-" else if c ≠ 1 then "" ++ toString c ++ "*" else "") ++ "x"
        ++ "^" ++ toString e
    else (if c = -1 then "" ++ "-" else if c ≠ 1 then "" ++ toString c ++ "*" else "") ++ "x")
      = termTextSpec true e c := by
  unfold termTextSpec
  rw [if_pos he]
  simp only [Bool.true_eq_false, false_and, if_false]
  split_ifs <;>
    first
    | omega
    | simp only [String.append_assoc, String.empty_append, String.append_empty]

theorem restTextSpec_cons (coeff : Nat → ℤ) (e : Nat) (es : List Nat) :
    restTextSpec coeff (e :: es) = termTextSpec false e (coeff e) ++ restTextSpec coeff es :=
  rfl

theorem restTextSpec_append (coeff : Nat → ℤ) (l₁ l₂ : List Nat) :
    restTextSpec coeff (l₁ ++ l₂) = restTextSpec coeff l₁ ++ restTextSpec coeff l₂ := by
  induction l₁ with
  | nil => simp [restTextSpec]
  | cons e es ih => simp [restTextSpec, ih, String.append_assoc]

namespace Dense

/-- The loop of the dense `operator<<` appends the canonical texts of the terms with nonzero
coefficient at the exponents `i, i - 1, ..., 1`. -/
theorem printLoop_eq (p : List ℤ) : ∀ (i : Nat) (out : String),
    printLoop (fun c : ℤ => toString c) p (i + 1) out =
      out ++ restTextSpec (opIndex p)
        (((List.range' 1 i).reverse).filter (fun e => decide (opIndex p e ≠ 0))) := by
  intro i
  induction i with
  | zero => intro out; simp [printLoop, restTextSpec]
  | succ k ih =>
    intro out
    have hl : (List.range' 1 (k + 1)).reverse = (k + 1) :: (List.range' 1 k).reverse := by
      rw [List.range'_concat, List.reverse_append]
      simp [Nat.add_comm]
    rw [hl, printLoop, if_neg (by omega)]
    by_cases h0 : opIndex p (k + 1) = 0
    · have hf : ((k + 1) :: (List.range' 1 k).reverse).filter
          (fun e => decide (opIndex p e ≠ 0)) =
          ((List.range' 1 k).reverse).filter (fun e => decide (opIndex p e ≠ 0)) := by
        rw [List.filter_cons, if_neg (by simpa using h0)]
      rw [hf, if_pos h0, ih]
    · have hf : ((k + 1) :: (List.range' 1 k).reverse).filter
          (fun e => decide (opIndex p e ≠ 0)) =
          (k + 1) :: ((List.range' 1 k).reverse).filter (fun e => decide (opIndex p e ≠ 0)) := by
        rw [List.filter_cons, if_pos (by simpa using h0)]
      rw [hf, if_neg h0, restTextSpec_cons, ← String.append_assoc,
        ← middle_term_text out _ (k + 1) (by omega)]
      simp only
      by_cases h1 : k + 1 > 1
      · rw [if_pos h1, ih]
      · rw [if_neg h1, ih]

end Dense

/-- The text the codes write for the constant term is the canonical text of the terms at the
exponent list `[0]` with a nonzero coefficient. -/
theorem const_term_text (out : String) (coeff : Nat → ℤ) :
    (if coeff 0 ≠ 0 then (if 0 < coeff 0 then out ++ "+" else out) ++ toString (coeff 0)
      else (if 0 < coeff 0 then out ++ "+" else out))
      = out ++ restTextSpec coeff (([0] : List Nat).filter (fun e => decide (coeff e ≠ 0))) := by
  by_cases h0 : coeff 0 = 0
  · have hf : ([0] : List Nat).filter (fun e => decide (coeff e ≠ 0)) = [] := by
      rw [List.filter_cons, if_neg (by simpa using h0), List.filter_nil]
    rw [hf, if_neg (by simpa using h0), if_neg (by omega)]
    simp [restTextSpec]
  · have hf : ([0] : List Nat).filter (fun e => decide (coeff e ≠ 0)) = [0] := by
      rw [List.filter_cons, if_pos (by simpa using h0), List.filter_nil]
    rw [hf, if_pos h0, restTextSpec_cons]
    unfold termTextSpec
    rw [if_neg (show ¬ (1 ≤ 0) by omega)]
    simp only [eq_self, true_and, restTextSpec]
    split_ifs <;>
      first
      | omega
      | simp only [String.append_assoc, String.empty_append, String.append_empty]

theorem range_succ_succ_reverse (n : Nat) :
    (List.range (n + 2)).reverse = (n + 1) :: ((List.range' 1 n).reverse ++ [0]) := by
  rw [List.range_succ, List.reverse_append, List.reverse_singleton, List.singleton_append]
  congr 1
  rw [List.range_eq_range', List.range'_succ, List.reverse_cons]

namespace Dense

/-- The dense `operator<<` writes the canonical text of a well-formed integer polynomial. -/
theorem print_eq_canonicalText {p : List ℤ} (hp : Canonical p) :
    print (fun c : ℤ => toString c) p = canonicalTextSpec (opIndex p) (Degree p) := by
  unfold print canonicalTextSpec
  by_cases h1 : Degree p = -1
  · rw [if_pos h1, if_pos h1]; rfl
  rw [if_neg h1, if_neg h1]
  by_cases h2 : Degree p = 0
  · rw [if_pos h2, if_pos h2]
  rw [if_neg h2, if_neg h2]
  have hlen : ∃ n, p.length = n + 2 := by
    unfold Degree at h1 h2
    exact ⟨p.length - 2, by omega⟩
  obtain ⟨n, hn⟩ := hlen
  have hd : Degree p = (n : ℤ) + 1 := by unfold Degree; omega
  have hi : toSizeT (Degree p) = n + 1 := by
    rw [hd]; unfold toSizeT; rw [if_pos (by omega)]; omega
  have hlead : opIndex p (n + 1) ≠ 0 := by
    have hne : p ≠ [] := by
      intro h; rw [h] at hn; simp at hn
    have := (canonical_iff p).1 hp hne
    rw [opIndex_eq_getD, List.getLast_eq_getElem] at *
    rw [List.getD_eq_getElem _ _ (by omega)]
    simpa [hn] using this
  have hdn : (Degree p).toNat + 1 = n + 2 := by rw [hd]; omega
  have hlist : ((List.range ((Degree p).toNat + 1)).reverse).filter
      (fun e => decide (opIndex p e ≠ 0)) =
      (n + 1) :: (((List.range' 1 n).reverse).filter (fun e => decide (opIndex p e ≠ 0)) ++
        ([0] : List Nat).filter (fun e => decide (opIndex p e ≠ 0))) := by
    rw [hdn, range_succ_succ_reverse, List.filter_cons, if_pos (by simpa using hlead),
      List.filter_append]
  rw [if_pos (show Degree p > 0 by omega), hlist, hi]
  dsimp only
  rw [restTextSpec_append, lead_term_text _ _ (by omega : 1 ≤ n + 1), printLoop_eq,
    ← String.append_assoc, ← const_term_text]

end Dense

namespace Sparse

/-- The keys stored by a well-formed sparse polynomial are exactly the exponents below
`Degree() + 1` whose coefficient is not zero, in increasing order. -/
theorem keys_eq_filter {p : List (Nat × ℤ)} (hp : Canonical p) :
    (List.range (bound p)).filter (fun e => decide (get p e ≠ 0)) = p.map Prod.fst := by
  have hs1 : ((List.range (bound p)).filter (fun e => decide (get p e ≠ 0))).Sorted (· < ·) :=
    List.Pairwise.filter _ (List.pairwise_lt_range _)
  have hs2 : (p.map Prod.fst).Sorted (· < ·) := by
    unfold List.Sorted
    rw [List.pairwise_map]
    exact hp.1
  refine List.eq_of_perm_of_sorted ?_ hs1 hs2
  rw [List.perm_ext_iff_of_nodup hs1.nodup hs2.nodup]
  intro e
  rw [List.mem_filter, List.mem_range, List.mem_map]
  constructor
  · rintro ⟨_, h⟩
    by_contra hne
    have : get p e = 0 := get_eq_zero_of_not_key (fun x hx hxe => hne ⟨x, hx, hxe⟩)
    simp [this] at h
  · rintro ⟨x, hx, rfl⟩
    have hg : get p x.1 = x.2 := get_of_mem hp.1 hx
    have hnz : get p x.1 ≠ 0 := by rw [hg]; exact hp.2 x hx
    refine ⟨?_, by simpa using hnz⟩
    by_contra hlt
    exact hnz (get_eq_zero_of_bound_le hp (not_lt.1 hlt))

/-- One pass of the loop of the sparse `operator<<` over an entry with a nonzero value appends
the canonical text of that term. -/
theorem printEntry_eq (out : String) (e : Nat × ℤ) (he : e.2 ≠ 0) :
    printEntry (fun c : ℤ => toString c) out e = out ++ termTextSpec false e.1 e.2 := by
  unfold printEntry termTextSpec
  by_cases h0 : e.1 = 0
  · rw [if_pos h0, h0, if_neg (show ¬ (1 ≤ 0) by omega)]
    simp only [eq_self, true_and, if_pos he]
    split_ifs <;> simp only [String.append_assoc, String.empty_append, String.append_empty]
  · rw [if_neg h0, if_pos (show 1 ≤ e.1 by omega)]
    simp only [eq_self, true_and]
    split_ifs <;>
      first
      | omega
      | simp only [String.append_assoc, String.empty_append, String.append_empty]

/-- The loop of the sparse `operator<<` over entries with nonzero values appends the canonical
texts of their terms. -/
theorem printEntry_foldl (coeff : Nat → ℤ) : ∀ (rest : List (Nat × ℤ)) (out : String),
    (∀ e ∈ rest, coeff e.1 = e.2 ∧ e.2 ≠ 0) →
    rest.foldl (printEntry (fun c : ℤ => toString c)) out =
      out ++ restTextSpec coeff (rest.map Prod.fst) := by
  intro rest
  induction rest with
  | nil => intro out _; simp [restTextSpec]
  | cons a t ih =>
    intro out h
    have ha := h a (List.mem_cons_self _ _)
    rw [List.foldl_cons, ih _ (fun e he => h e (List.mem_cons_of_mem _ he)),
      printEntry_eq _ _ ha.2, List.map_cons, restTextSpec_cons, ha.1, String.append_assoc]

/-- The sparse `operator<<` writes the canonical text of a well-formed integer polynomial whose
exponents are below `2^31`. -/
theorem print_eq_canonicalText_sparse {p : List (Nat × ℤ)} (hp : Canonical p)
    (hr : bound p ≤ 2 ^ 31) :
    print (fun c : ℤ => toString c) p = canonicalTextSpec (opIndex p) (Degree p) := by
  unfold print canonicalTextSpec
  by_cases h1 : Degree p = -1
  · rw [if_pos h1, if_pos h1]; rfl
  rw [if_neg h1, if_neg h1]
  by_cases h2 : Degree p = 0
  · rw [if_pos h2, if_pos h2]
  rw [if_neg h2, if_neg h2]
  have hb := degree_eq_bound p hr
  have hdn : (Degree p).toNat + 1 = bound p := by
    have : (0 : ℤ) ≤ (bound p : ℤ) := Int.natCast_nonneg _
    omega
  have hpos : Degree p > 0 := by
    have : (0 : ℤ) ≤ (bound p : ℤ) := Int.natCast_nonneg _
    omega
  have hlist : ((List.range ((Degree p).toNat + 1)).reverse).filter
      (fun e => decide (opIndex p e ≠ 0)) = (p.reverse).map Prod.fst := by
    rw [hdn, List.map_reverse, ← keys_eq_filter hp, List.filter_reverse]
    rfl
  rw [if_pos hpos, hlist]
  rcases hrev : p.reverse with _ | ⟨lead, rest⟩
  · exfalso
    rw [List.reverse_eq_nil_iff] at hrev
    rw [hrev] at h1
    exact h1 rfl
  · have hmem : ∀ e ∈ lead :: rest, e ∈ p := by
      intro e he
      rw [← hrev] at he
      exact List.mem_reverse.1 he
    have hlead : get p lead.1 = lead.2 := get_of_mem hp.1 (hmem lead (List.mem_cons_self _ _))
    have hdeg : Degree p = (lead.1 : ℤ) := by
      have hl : p.getLast? = some lead := by
        rw [← List.head?_reverse, hrev]; rfl
      rw [hb]
      unfold bound
      rw [hl]
      push_cast; omega
    have hl1 : 1 ≤ lead.1 := by omega
    dsimp only [List.map_cons]
    rw [lead_term_text _ _ hl1, printEntry_foldl (opIndex p) rest _
      (fun e he => ⟨get_of_mem hp.1 (hmem e (List.mem_cons_of_mem _ he)),
        hp.2 e (hmem e (List.mem_cons_of_mem _ he))⟩)]
    show _ = termTextSpec true lead.1 (get p lead.1) ++ _
    rw [hlead]

end Sparse

/-! ## Reads of `std::equal` -/

/-- What `std::equal` reads, by its result: a read past the end of the second range when it
has no result; the whole first range, which fits in the second, when it returns `true`; and
up to the first mismatch, which lies inside both ranges, when it returns `false`. -/
theorem std_equal_reads_spec {α : Type} [DecidableEq α] : ∀ (p q : List α),
    (std_equal p q = none → std_equal_reads p q = q.length + 1) ∧
    (std_equal p q = some true → std_equal_reads p q = p.length ∧ p.length ≤ q.length) ∧
    (std_equal p q = some false → ∃ k, k < p.length ∧ k < q.length ∧
      p.take k = q.take k ∧ p[k]? ≠ q[k]? ∧ std_equal_reads p q = k + 1) := by
  intro p
  induction p with
  | nil =>
    intro q
    refine ⟨?_, ?_, ?_⟩
    · intro h; unfold std_equal at h; cases h
    · intro _; exact ⟨by unfold std_equal_reads; rfl, Nat.zero_le _⟩
    · intro h; unfold std_equal at h; cases h
  | cons a as ih =>
    intro q
    cases q with
    | nil =>
      refine ⟨?_, ?_, ?_⟩
      · intro _; unfold std_equal_reads; rfl
      · intro h; unfold std_equal at h; cases h
      · intro h; unfold std_equal at h; cases h
    | cons b bs =>
      obtain ⟨i1, i2, i3⟩ := ih bs
      by_cases hab : a = b
      · have e1 : std_equal (a :: as) (b :: bs) = std_equal as bs := by
          rw [std_equal, if_pos hab]
        have e2 : std_equal_reads (a :: as) (b :: bs) = std_equal_reads as bs + 1 := by
          rw [std_equal_reads, if_pos hab]
        rw [e1, e2]
        refine ⟨?_, ?_, ?_⟩
        · intro h; rw [i1 h, List.length_cons]
        · intro h
          obtain ⟨h1, h2⟩ := i2 h
          exact ⟨by rw [h1, List.length_cons], by
            rw [List.length_cons, List.length_cons]; omega⟩
        · intro h
          obtain ⟨k, h1, h2, h3, h4, h5⟩ := i3 h
          refine ⟨k + 1, by rw [List.length_cons]; omega, by rw [List.length_cons]; omega,
            ?_, ?_, by rw [h5]⟩
          · rw [List.take_succ_cons, List.take_succ_cons, h3, hab]
          · rw [List.getElem?_cons_succ, List.getElem?_cons_succ]; exact h4
      · have e1 : std_equal (a :: as) (b :: bs) = some false := by
          rw [std_equal, if_neg hab]
        have e2 : std_equal_reads (a :: as) (b :: bs) = 1 := by
          rw [std_equal_reads, if_neg hab]
        rw [e1, e2]
        refine ⟨?_, ?_, ?_⟩
        · intro h; cases h
        · intro h; cases h
        · intro _
          refine ⟨0, by rw [List.length_cons]; omega, by rw [List.length_cons]; omega,
            rfl, ?_, rfl⟩
          rw [List.getElem?_cons_zero, List.getElem?_cons_zero]
          intro h
          exact hab (Option.some.inj h)

/-! ## Degree of a product -/

namespace Dense

variable {T : Type} [CommRing T] [DecidableEq T]

/-- Without zero divisors the dense product of two nonzero polynomials has the sum of their
degrees as degree and the product of their leading coefficients as leading coefficient. -/
theorem degree_opMul_dense [IsDomain T] {p q : List T} (hp : Canonical p) (hq : Canonical q)
    (hp0 : p ≠ []) (hq0 : q ≠ []) :
    opMul p q ≠ [] ∧ Degree (opMul p q) = Degree p + Degree q ∧
      opIndex (opMul p q) (toSizeT (Degree (opMul p q))) =
        opIndex p (toSizeT (Degree p)) * opIndex q (toSizeT (Degree q)) := by
  obtain ⟨P, hP⟩ := rep_exists_dense p
  obtain ⟨Q, hQ⟩ := rep_exists_dense q
  have hP0 : P ≠ 0 := fun h => hp0 ((Rep.eq_nil_iff_dense hp hP).2 h)
  have hQ0 : Q ≠ 0 := fun h => hq0 ((Rep.eq_nil_iff_dense hq hQ).2 h)
  have hm : Rep (opMul p q) (P * Q) := Rep.mul_dense hP hQ
  have hc : Canonical (opMul p q) := canonical_opMulAssign_dense p q
  have hPQ : P * Q ≠ 0 := mul_ne_zero hP0 hQ0
  refine ⟨fun h => hPQ ((Rep.eq_nil_iff_dense hc hm).1 h), ?_, ?_⟩
  · rw [Rep.degree_eq_dense hc hm hPQ, Rep.degree_eq_dense hp hP hP0,
      Rep.degree_eq_dense hq hQ hQ0, Polynomial.natDegree_mul hP0 hQ0]
    push_cast; rfl
  · rw [Rep.lead_dense hc hm, Rep.lead_dense hp hP, Rep.lead_dense hq hQ,
      Polynomial.leadingCoeff_mul]

/-- The dense product with a zero operand is the zero polynomial. -/
theorem opMul_nil_dense (p q : List T) (h : p = [] ∨ q = []) : opMul p q = [] := by
  obtain ⟨P, hP⟩ := rep_exists_dense p
  obtain ⟨Q, hQ⟩ := rep_exists_dense q
  have hm : Rep (opMul p q) (P * Q) := Rep.mul_dense hP hQ
  have hc : Canonical (opMul p q) := canonical_opMulAssign_dense p q
  have hPQ : P * Q = 0 := by
    rcases h with h | h
    · subst h; rw [hP.unique_dense rep_nil_dense, zero_mul]
    · subst h; rw [hQ.unique_dense rep_nil_dense, mul_zero]
  exact (Rep.eq_nil_iff_dense hc hm).2 hPQ

end Dense

namespace Sparse

variable {T : Type} [CommRing T] [DecidableEq T]

/-- Without zero divisors the sparse product of two nonzero polynomials whose degrees add up
to less than `2^31` has the sum of their degrees as degree and the product of their leading
coefficients as leading coefficient. -/
theorem degree_opMul_sparse [IsDomain T] {p q : List (Nat × T)} (hp : Canonical p)
    (hq : Canonical q) (hp0 : p ≠ []) (hq0 : q ≠ []) (hr : bound p + bound q ≤ 2 ^ 31 + 1) :
    opMul p q ≠ [] ∧ Degree (opMul p q) = Degree p + Degree q ∧
      opIndex (opMul p q) (toSizeT (Degree (opMul p q))) =
        opIndex p (toSizeT (Degree p)) * opIndex q (toSizeT (Degree q)) := by
  obtain ⟨P, hP⟩ := rep_exists_sparse hp.1
  obtain ⟨Q, hQ⟩ := rep_exists_sparse hq.1
  have hP0 : P ≠ 0 := fun h => hp0 ((Rep.eq_nil_iff_sparse hp hP).2 h)
  have hQ0 : Q ≠ 0 := fun h => hq0 ((Rep.eq_nil_iff_sparse hq hQ).2 h)
  have hbp := Rep.bound_eq hp hP hP0
  have hbq := Rep.bound_eq hq hQ hQ0
  have hm : Rep (opMul p q) (P * Q) :=
    Rep.mul_sparse hp.1 hq.1 (noWrap_of_bound hp.1 hq.1 (by omega)) hP hQ
  have hc : Canonical (opMul p q) := canonical_opMulAssign_sparse p q
  have hPQ : P * Q ≠ 0 := mul_ne_zero hP0 hQ0
  have hbm : bound (opMul p q) = P.natDegree + Q.natDegree + 1 := by
    rw [Rep.bound_eq hc hm hPQ, Polynomial.natDegree_mul hP0 hQ0]
  have hmr : bound (opMul p q) ≤ 2 ^ 31 := by omega
  refine ⟨fun h => hPQ ((Rep.eq_nil_iff_sparse hc hm).1 h), ?_, ?_⟩
  · rw [Rep.degree_eq_sparse hc hm hPQ hmr, Rep.degree_eq_sparse hp hP hP0 (by omega),
      Rep.degree_eq_sparse hq hQ hQ0 (by omega), Polynomial.natDegree_mul hP0 hQ0]
    push_cast; rfl
  · rw [Rep.lead_sparse hc hm hmr, Rep.lead_sparse hp hP (by omega),
      Rep.lead_sparse hq hQ (by omega), Polynomial.leadingCoeff_mul]

/-- The sparse product with a zero operand is the zero polynomial. -/
theorem opMul_nil_sparse (p q : List (Nat × T)) (h : p = [] ∨ q = []) : opMul p q = [] := by
  rcases h with h | h
  · subst h; rfl
  · subst h
    unfold opMul opMulAssign
    induction p with
    | nil => rfl
    | cons a t ih =>
      have key : ∀ (l : List (Nat × T)) (acc : List (Nat × T)),
          l.foldl (fun acc e1 => ([] : List (Nat × T)).foldl (fun acc e2 =>
            set acc ((e1.1 + e2.1) % 2 ^ 64)
              (get acc ((e1.1 + e2.1) % 2 ^ 64) + e1.2 * e2.2)) acc) acc = acc := by
        intro l
        induction l with
        | nil => intro acc; rfl
        | cons b u ihu => intro acc; rw [List.foldl_cons, List.foldl_nil, ihu]
      exact key _ _

/-- The vector constructor stores no exponent at or above the length of the vector. -/
theorem bound_fromVector_le (a : List T) : bound (fromVector a) ≤ a.length := by
  rw [bound_le_iff (canonical_fromVector a)]
  intro j hj
  rw [get_fromVector, List.getD_eq_default _ _ hj]

end Sparse

/-! ## Exponents outside the range of `int` -/

/-- The key `2^32` narrows to the `int` `0`: the sparse `Degree()` of `x^(2^32)` is `0`. -/
theorem sparse_wrap_degree {T : Type} [CommRing T] [DecidableEq T] (c : T) :
    Sparse.Degree ([(2 ^ 32, c)] : List (Nat × T)) = 0 := by
  unfold Sparse.Degree
  rw [List.getLast?_singleton]
  show toInt (2 ^ 32) = 0
  decide

/-- One iteration of the sparse division of `x^(2^32)` by `1` changes nothing: `Degree()` is
`0`, the coefficient read at exponent `0` is `T()`, and the term `t` is zero. -/
theorem sparse_wrap_div_step {T : Type} [CommRing T] [DecidableEq T] (dv : T → T → T)
    (h : dv 0 1 = 0) (res : List (Nat × T)) :
    (Sparse.divStep dv res [(2 ^ 32, 1)] [(0, 1)]).2 = [(2 ^ 32, 1)] := by
  have h0 : Sparse.Degree ([(0, 1)] : List (Nat × T)) = 0 := by
    unfold Sparse.Degree
    rw [List.getLast?_singleton]
    show toInt 0 = 0
    decide
  have h1 : Sparse.opIndex ([(2 ^ 32, 1)] : List (Nat × T)) 0 = 0 := by
    unfold Sparse.opIndex
    rw [Sparse.get_cons, if_neg (by decide), Sparse.get_nil]
  have h2 : Sparse.opIndex ([(0, 1)] : List (Nat × T)) 0 = 1 := by
    unfold Sparse.opIndex
    rw [Sparse.get_cons, if_pos rfl]
  have h3 : toSizeT 0 = 0 := by decide
  have h4 : Sparse.set (Sparse.fromScalar (0 : T)) 0 0 = [] := by
    rw [Sparse.fromScalar_zero_sparse]
    simp [Sparse.set, Sparse.find]
  rw [Sparse.divStep_snd_sparse, sparse_wrap_degree, h0, sub_self, h3, h1, h2, h, h4,
    Sparse.opMul_nil_sparse _ _ (Or.inr rfl)]
  rfl

/-- The sparse division of `x^(2^32)` by `1` never exits its loop, for every coefficient
division with `0 / 1 = 0`. -/
theorem sparse_wrap_div_loops {T : Type} [CommRing T] [DecidableEq T] (dv : T → T → T)
    (h : dv 0 1 = 0) :
    ∀ (fuel : Nat) (res : List (Nat × T)),
      Sparse.divLoop dv fuel res [(2 ^ 32, 1)] [(0, 1)] = none := by
  have hc : Sparse.Degree ([(2 ^ 32, 1)] : List (Nat × T))
      ≥ Sparse.Degree ([(0, 1)] : List (Nat × T)) := by
    rw [sparse_wrap_degree]
    unfold Sparse.Degree
    rw [List.getLast?_singleton]
    show (0 : Int) ≥ toInt 0
    decide
  intro fuel
  induction fuel with
  | zero =>
    intro res
    rw [Sparse.divLoop_zero_sparse, if_pos hc]
  | succ fuel ih =>
    intro res
    rw [Sparse.divLoop_succ_sparse, if_pos hc, sparse_wrap_div_step dv h]
    exact ih _

/-- The sparse `x^(2^32) / 1` and `x^(2^32) % 1` have no result, whatever the number of
iterations allowed. -/
theorem sparse_wrap_div_none {T : Type} [CommRing T] [DecidableEq T] (dv : T → T → T)
    (h : dv 0 1 = 0) (fuel : Nat) :
    Sparse.opDiv dv fuel [(2 ^ 32, 1)] [(0, 1)] = none ∧
      Sparse.opMod dv fuel [(2 ^ 32, 1)] [(0, 1)] = none := by
  have hd : Sparse.opDiv dv fuel [(2 ^ 32, 1)] [(0, 1)] = none := by
    unfold Sparse.opDiv
    rw [sparse_wrap_div_loops dv h]
    rfl
  refine ⟨hd, ?_⟩
  unfold Sparse.opMod
  rw [hd]
  rfl

/-- The sparse `gcd(x^(2^32), 1)` has no result: its first step `x^(2^32) % 1` has none. -/
theorem sparse_wrap_gcd_none {T : Type} [CommRing T] [DecidableEq T] (dv : T → T → T)
    (h : dv 0 1 = 0) (fuel : Nat) :
    Sparse.opComma dv fuel [(2 ^ 32, 1)] [(0, 1)] = none := by
  have hne : Sparse.opNe ([(0, 1)] : List (Nat × T)) (Sparse.fromScalar 0) = some true := by
    rw [Sparse.opNe_nil_sparse _ (by show 0 + 1 ≤ 2 ^ 31; omega)]
    simp
  have hg : ∀ n, Sparse.gcdLoop dv fuel n [(2 ^ 32, 1)] [(0, 1)] = none := by
    intro n
    unfold Sparse.gcdLoop
    rw [hne]
    cases n with
    | zero => rfl
    | succ n =>
      simp only
      rw [(sparse_wrap_div_none dv h fuel).2]
  unfold Sparse.opComma
  rw [hg]
  rfl

/-! ## Exponents whose sum leaves the range of `size_t` -/

/-- The sparse square of `x^(2^63)` stores the key `2^63 + 2^63` modulo `2^64`, which is `0`:
the product is the constant `1`. -/
theorem sparse_wrap_square : Sparse.opMul ([(2 ^ 63, 1)] : List (Nat × ℤ)) [(2 ^ 63, 1)]
    = [(0, 1)] := by decide

/-- The sparse evaluation of a single term. -/
theorem sparse_opCall_single {T : Type} [CommRing T] [DecidableEq T] (k : Nat) (c v : T) :
    Sparse.opCall [(k, c)] v = c * v ^ k := by
  unfold Sparse.opCall
  rw [List.foldl_cons, List.foldl_nil, Sparse.b_pow_eq, zero_add]

/-- The sparse `pow(2)` of `x^(2^63)` is the constant `1`. -/
theorem sparse_wrap_pow : Sparse.pow ([(2 ^ 63, 1)] : List (Nat × ℤ)) 2 = [(0, 1)] := by
  unfold Sparse.pow
  rw [Sparse.powLoop, dif_neg (by decide), Sparse.powLoop, dif_pos (by decide)]
  decide

/-- The sparse composition `x^2 & x^(2^63)` is the constant `1`. -/
theorem sparse_wrap_compose : Sparse.opAnd ([(2, 1)] : List (Nat × ℤ)) [(2 ^ 63, 1)]
    = [(0, 1)] := by
  unfold Sparse.opAnd
  rw [List.foldl_cons, List.foldl_nil, sparse_wrap_pow]
  decide

/-! ## The contract of the polynomial engine -/

/-- C1 (as the code behaves). Over a field, for canonical `p` and nonzero canonical `q`, in the
dense form, and in the sparse form when every exponent of `p` and `q` is below `2^31` (the
range of the `int` returned by `Degree()`): with fuel for `Degree(p) - Degree(q) + 1`
iterations `p / q` and `p % q` return results, and `(p / q) * q + (p % q) == p` evaluates to
`true`. -/
theorem div_mul_add_mod_eq {F : Type} [Field F] [DecidableEq F]
    (p q : List F) (sp sq : List (Nat × F)) (fuel : Nat)
    (hp : Dense.Canonical p) (hq : Dense.Canonical q) (hq0 : q ≠ [])
    (hsp : Sparse.Canonical sp) (hsq : Sparse.Canonical sq) (hsq0 : sq ≠ [])
    (hspr : Sparse.bound sp ≤ 2 ^ 31) (hsqr : Sparse.bound sq ≤ 2 ^ 31)
    (hfuel : Dense.Degree p - Dense.Degree q + 1 ≤ (fuel : Int))
    (hsfuel : Sparse.Degree sp - Sparse.Degree sq + 1 ≤ (fuel : Int)) :
    (∃ a r, Dense.opDiv (fun x y : F => x / y) fuel p q = some a ∧
      Dense.opMod (fun x y : F => x / y) fuel p q = some r ∧
      Dense.opEq (Dense.opAdd (Dense.opMul a q) r) p = some true) ∧
    (∃ a r, Sparse.opDiv (fun x y : F => x / y) fuel sp sq = some a ∧
      Sparse.opMod (fun x y : F => x / y) fuel sp sq = some r ∧
      Sparse.opEq (Sparse.opAdd (Sparse.opMul a sq) r) sp = some true) := by
  constructor
  · obtain ⟨a, r, _, h2, h3, _, _, h6, _⟩ :=
      Dense.div_mod_field_dense hp hq hq0 fuel (by unfold Dense.Degree at hfuel; omega)
    exact ⟨a, r, h2, h3, by rw [h6]; exact Dense.opEq_self_dense p⟩
  · obtain ⟨a, r, _, h2, h3, _, _, h6, _⟩ :=
      Sparse.div_mod_field_sparse hsp hsq hsq0 hspr hsqr fuel
        (by rw [Sparse.degree_eq_bound sp hspr, Sparse.degree_eq_bound sq hsqr] at hsfuel
            omega)
    exact ⟨a, r, h2, h3, by rw [h6]; exact Sparse.opEq_self_sparse sp⟩

/-- Witness for C1: `p = [-1, 0, 1]`, `q = [-1, 1]` over the rationals give `p / q = [1, 1]`
and `p % q` zero, in both forms, and the identity holds there. -/
theorem div_mul_add_mod_eq_witness :
    Dense.opDiv (fun x y : ℚ => x / y) 2 [-1, 0, 1] [-1, 1] = some [1, 1] ∧
    Dense.opMod (fun x y : ℚ => x / y) 2 [-1, 0, 1] [-1, 1] = some [] ∧
    Sparse.opDiv (fun x y : ℚ => x / y) 2 [(0, -1), (2, 1)] [(0, -1), (1, 1)]
      = some [(0, 1), (1, 1)] ∧
    Sparse.opMod (fun x y : ℚ => x / y) 2 [(0, -1), (2, 1)] [(0, -1), (1, 1)] = some [] ∧
    ((∃ a r, Dense.opDiv (fun x y : ℚ => x / y) 2 [-1, 0, 1] [-1, 1] = some a ∧
      Dense.opMod (fun x y : ℚ => x / y) 2 [-1, 0, 1] [-1, 1] = some r ∧
      Dense.opEq (Dense.opAdd (Dense.opMul a [-1, 1]) r) [-1, 0, 1] = some true) ∧
    (∃ a r, Sparse.opDiv (fun x y : ℚ => x / y) 2 [(0, -1), (2, 1)] [(0, -1), (1, 1)] = some a ∧
      Sparse.opMod (fun x y : ℚ => x / y) 2 [(0, -1), (2, 1)] [(0, -1), (1, 1)] = some r ∧
      Sparse.opEq (Sparse.opAdd (Sparse.opMul a [(0, -1), (1, 1)]) r) [(0, -1), (2, 1)]
        = some true)) :=
  ⟨by decide!, by decide!, by decide!, by decide!,
    div_mul_add_mod_eq [-1, 0, 1] [-1, 1] [(0, -1), (2, 1)] [(0, -1), (1, 1)] 2
      (by decide) (by decide) (by decide) (by decide) (by decide) (by decide)
      (by decide) (by decide) (by decide) (by decide)⟩

/-- Counterexample to C1 as stated: over the rationals, in the sparse form, `p = x^(2^32)` and
`q = 1` are canonical and `q` is nonzero, but `Degree(p)` is the `int` `0`, every iteration
of the loop leaves `p` unchanged, and `p / q` and `p % q` have no result for any number of
iterations. -/
theorem div_mul_add_mod_eq_fails_beyond_int :
    Sparse.Canonical ([(2 ^ 32, 1)] : List (Nat × ℚ)) ∧
    Sparse.Canonical ([(0, 1)] : List (Nat × ℚ)) ∧
    ([(0, 1)] : List (Nat × ℚ)) ≠ [] ∧
    Sparse.Degree ([(2 ^ 32, 1)] : List (Nat × ℚ)) = 0 ∧
    (¬ ∃ fuel a, Sparse.opDiv (fun x y : ℚ => x / y) fuel [(2 ^ 32, 1)] [(0, 1)] = some a) ∧
    (¬ ∃ fuel r, Sparse.opMod (fun x y : ℚ => x / y) fuel [(2 ^ 32, 1)] [(0, 1)] = some r) := by
  have h := sparse_wrap_div_none (fun x y : ℚ => x / y) (by norm_num)
  refine ⟨by decide, by decide, by decide, sparse_wrap_degree 1, ?_, ?_⟩
  · rintro ⟨fuel, a, ha⟩
    rw [(h fuel).1] at ha
    cases ha
  · rintro ⟨fuel, r, hr⟩
    rw [(h fuel).2] at hr
    cases hr

/-- C2 (as the code behaves). Over a field, for canonical `p` and nonzero canonical `q`, in the
dense form, and in the sparse form when every exponent of `p` and `q` is below `2^31`: the
division loop exits with a final state `(a, r)`; the remainder `p % q`, computed as
`p - (p / q) * q`, is that final `r`, and `Degree(p % q) < Degree(q)`. -/
theorem mod_eq_loop_remainder {F : Type} [Field F] [DecidableEq F]
    (p q : List F) (sp sq : List (Nat × F)) (fuel : Nat)
    (hp : Dense.Canonical p) (hq : Dense.Canonical q) (hq0 : q ≠ [])
    (hsp : Sparse.Canonical sp) (hsq : Sparse.Canonical sq) (hsq0 : sq ≠ [])
    (hspr : Sparse.bound sp ≤ 2 ^ 31) (hsqr : Sparse.bound sq ≤ 2 ^ 31)
    (hfuel : Dense.Degree p - Dense.Degree q + 1 ≤ (fuel : Int))
    (hsfuel : Sparse.Degree sp - Sparse.Degree sq + 1 ≤ (fuel : Int)) :
    (∃ a r, Dense.divLoop (fun x y : F => x / y) fuel (Dense.fromScalar 0) p q = some (a, r) ∧
      Dense.opMod (fun x y : F => x / y) fuel p q = some r ∧
      Dense.opSub p (Dense.opMul a q) = r ∧ Dense.Degree r < Dense.Degree q) ∧
    (∃ a r, Sparse.divLoop (fun x y : F => x / y) fuel (Sparse.fromScalar 0) sp sq
        = some (a, r) ∧
      Sparse.opMod (fun x y : F => x / y) fuel sp sq = some r ∧
      Sparse.opSub sp (Sparse.opMul a sq) = r ∧ Sparse.Degree r < Sparse.Degree sq) := by
  constructor
  · obtain ⟨a, r, h1, h2, h3, _, _, _, h7⟩ :=
      Dense.div_mod_field_dense hp hq hq0 fuel (by unfold Dense.Degree at hfuel; omega)
    refine ⟨a, r, h1, h3, ?_, by unfold Dense.Degree; omega⟩
    unfold Dense.opMod at h3
    rw [h2] at h3
    simpa using h3
  · obtain ⟨a, r, h1, h2, h3, _, _, _, h7⟩ :=
      Sparse.div_mod_field_sparse hsp hsq hsq0 hspr hsqr fuel
        (by rw [Sparse.degree_eq_bound sp hspr, Sparse.degree_eq_bound sq hsqr] at hsfuel
            omega)
    refine ⟨a, r, h1, h3, ?_, by
      rw [Sparse.degree_eq_bound r (by omega), Sparse.degree_eq_bound sq hsqr]; omega⟩
    unfold Sparse.opMod at h3
    rw [h2] at h3
    simpa using h3

/-- Witness for C2: `p = [1, 0, 1]` (`x^2 + 1`) and `q = [-1, 1]` (`x - 1`) over the
rationals; the remainder is the constant `2`. -/
theorem mod_eq_loop_remainder_witness :
    Dense.opMod (fun x y : ℚ => x / y) 2 [1, 0, 1] [-1, 1] = some [2] ∧
    Sparse.opMod (fun x y : ℚ => x / y) 2 [(0, 1), (2, 1)] [(0, -1), (1, 1)] = some [(0, 2)] ∧
    ((∃ a r, Dense.divLoop (fun x y : ℚ => x / y) 2 (Dense.fromScalar 0) [1, 0, 1] [-1, 1]
        = some (a, r) ∧
      Dense.opMod (fun x y : ℚ => x / y) 2 [1, 0, 1] [-1, 1] = some r ∧
      Dense.opSub [1, 0, 1] (Dense.opMul a [-1, 1]) = r ∧
      Dense.Degree r < Dense.Degree ([-1, 1] : List ℚ)) ∧
    (∃ a r, Sparse.divLoop (fun x y : ℚ => x / y) 2 (Sparse.fromScalar 0)
        [(0, 1), (2, 1)] [(0, -1), (1, 1)] = some (a, r) ∧
      Sparse.opMod (fun x y : ℚ => x / y) 2 [(0, 1), (2, 1)] [(0, -1), (1, 1)] = some r ∧
      Sparse.opSub [(0, 1), (2, 1)] (Sparse.opMul a [(0, -1), (1, 1)]) = r ∧
      Sparse.Degree r < Sparse.Degree ([(0, -1), (1, 1)] : List (Nat × ℚ)))) :=
  ⟨by decide!, by decide!,
    mod_eq_loop_remainder [1, 0, 1] [-1, 1] [(0, 1), (2, 1)] [(0, -1), (1, 1)] 2
      (by decide) (by decide) (by decide) (by decide) (by decide) (by decide)
      (by decide) (by decide) (by decide) (by decide)⟩

/-- Counterexample to C2 as stated: over the rationals, in the sparse form, for the canonical
`p = x^(2^32)` and the nonzero `q = 1` the loop of `operator/` has no final state and
`p % q` no result, for any number of iterations; and for `p = x^(2^31)`, `q = x` the loop is
skipped (`Degree(p)` is the `int` `-2^31`), the remainder is `p` itself and
`Degree(p % q) < Degree(q)` holds only because `Degree(p % q)` is negative, while the
exponent `2^31` of the remainder is above the exponent `1` of `q`. -/
theorem mod_eq_loop_remainder_fails_beyond_int :
    Sparse.Canonical ([(2 ^ 32, 1)] : List (Nat × ℚ)) ∧
    Sparse.Canonical ([(0, 1)] : List (Nat × ℚ)) ∧
    (¬ ∃ fuel x, Sparse.divLoop (fun x y : ℚ => x / y) fuel (Sparse.fromScalar 0)
      [(2 ^ 32, 1)] [(0, 1)] = some x) ∧
    (¬ ∃ fuel r, Sparse.opMod (fun x y : ℚ => x / y) fuel [(2 ^ 32, 1)] [(0, 1)] = some r) ∧
    Sparse.Degree ([(2 ^ 31, 1)] : List (Nat × ℚ)) = -2 ^ 31 ∧
    Sparse.opMod (fun x y : ℚ => x / y) 0 [(2 ^ 31, 1)] [(1, 1)] = some [(2 ^ 31, 1)] := by
  have h := sparse_wrap_div_none (fun x y : ℚ => x / y) (by norm_num)
  refine ⟨by decide, by decide, ?_, ?_, by decide, by decide!⟩
  · rintro ⟨fuel, x, hx⟩
    rw [sparse_wrap_div_loops (fun x y : ℚ => x / y) (by norm_num)] at hx
    cases hx
  · rintro ⟨fuel, r, hr⟩
    rw [(h fuel).2] at hr
    cases hr

/-- C3 (as the code behaves). For every coefficient ring, every coefficient division `dv` and
every fuel, for every dense `p` and every sparse `p` whose exponents are below `2^31 - 1`:
`p / 0`, `p % 0` and `gcd(0, 0)` produce no result.  The loop of `operator/` divides by
`other[other.Degree()]`, which is `T()` for the zero polynomial, and its condition holds
forever; no domain error is signalled. -/
theorem div_by_zero_polynomial_never_returns {T : Type} [CommRing T] [DecidableEq T]
    (dv : T → T → T) (fuel : Nat) (p : List T) (sp : List (Nat × T))
    (hspr : Sparse.bound sp < 2 ^ 31) :
    (Dense.opIndex (Dense.fromScalar (0 : T)) (toSizeT (Dense.Degree (Dense.fromScalar (0 : T))))
        = 0 ∧
      Dense.opDiv dv fuel p (Dense.fromScalar 0) = none ∧
      Dense.opMod dv fuel p (Dense.fromScalar 0) = none ∧
      Dense.opComma dv fuel (Dense.fromScalar 0) (Dense.fromScalar 0) = none) ∧
    (Sparse.opIndex (Sparse.fromScalar (0 : T))
        (toSizeT (Sparse.Degree (Sparse.fromScalar (0 : T)))) = 0 ∧
      Sparse.opDiv dv fuel sp (Sparse.fromScalar 0) = none ∧
      Sparse.opMod dv fuel sp (Sparse.fromScalar 0) = none ∧
      Sparse.opComma dv fuel (Sparse.fromScalar 0) (Sparse.fromScalar 0) = none) := by
  have hd : ∀ x : List T, Dense.opDiv dv fuel x [] = none := by
    intro x; unfold Dense.opDiv; rw [Dense.divLoop_nil_dense]; rfl
  have hs : ∀ x : List (Nat × T), Sparse.bound x ≤ 2 ^ 31 →
      Sparse.opDiv dv fuel x [] = none := by
    intro x hx; unfold Sparse.opDiv; rw [Sparse.divLoop_nil_sparse dv fuel _ x hx]; rfl
  have hn : Sparse.bound ([] : List (Nat × T)) ≤ 2 ^ 31 := by
    rw [Sparse.bound_nil]; omega
  rw [Dense.fromScalar_zero_dense, Sparse.fromScalar_zero_sparse]
  refine ⟨⟨by simp [Dense.opIndex], hd p, ?_, ?_⟩, ⟨rfl, hs sp (by omega), ?_, ?_⟩⟩
  · unfold Dense.opMod; rw [hd]; rfl
  · have hg : Dense.gcdLoop dv fuel fuel ([] : List T) [] = some [] := by
      unfold Dense.gcdLoop
      rw [Dense.opNe_nil_dense]
      simp
    unfold Dense.opComma
    rw [hg]
    simp only [Option.some_bind]
    have : Dense.fromScalar (Dense.opIndex ([] : List T) (toSizeT (Dense.Degree ([] : List T))))
        = [] := by
      have : Dense.opIndex ([] : List T) (toSizeT (Dense.Degree ([] : List T))) = 0 := by
        simp [Dense.opIndex]
      rw [this, Dense.fromScalar_zero_dense]
    rw [this]
    exact hd []
  · unfold Sparse.opMod; rw [hs sp (by omega)]; rfl
  · have hg : Sparse.gcdLoop dv fuel fuel ([] : List (Nat × T)) [] = some [] := by
      unfold Sparse.gcdLoop
      rw [Sparse.opNe_nil_sparse _ hn]
      simp
    unfold Sparse.opComma
    rw [hg]
    simp only [Option.some_bind]
    have : Sparse.fromScalar
        (Sparse.opIndex ([] : List (Nat × T)) (toSizeT (Sparse.Degree ([] : List (Nat × T)))))
        = [] := by
      have : Sparse.opIndex ([] : List (Nat × T))
          (toSizeT (Sparse.Degree ([] : List (Nat × T)))) = 0 := rfl
      rw [this, Sparse.fromScalar_zero_sparse]
    rw [this]
    exact hs [] hn

/-- Witness for C3 as amended, over the rationals: `[1, 2] / 0` in the dense form and
`(1 + 2x) / 0` in the sparse form produce no result with fuel `5`. -/
theorem div_by_zero_polynomial_never_returns_witness :
    Sparse.bound ([(0, 1), (1, 2)] : List (Nat × ℚ)) < 2 ^ 31 ∧
    ((Dense.opIndex (Dense.fromScalar (0 : ℚ))
          (toSizeT (Dense.Degree (Dense.fromScalar (0 : ℚ)))) = 0 ∧
        Dense.opDiv (fun x y : ℚ => x / y) 5 [1, 2] (Dense.fromScalar 0) = none ∧
        Dense.opMod (fun x y : ℚ => x / y) 5 [1, 2] (Dense.fromScalar 0) = none ∧
        Dense.opComma (fun x y : ℚ => x / y) 5 (Dense.fromScalar 0) (Dense.fromScalar 0)
          = none) ∧
      (Sparse.opIndex (Sparse.fromScalar (0 : ℚ))
          (toSizeT (Sparse.Degree (Sparse.fromScalar (0 : ℚ)))) = 0 ∧
        Sparse.opDiv (fun x y : ℚ => x / y) 5 [(0, 1), (1, 2)] (Sparse.fromScalar 0) = none ∧
        Sparse.opMod (fun x y : ℚ => x / y) 5 [(0, 1), (1, 2)] (Sparse.fromScalar 0) = none ∧
        Sparse.opComma (fun x y : ℚ => x / y) 5 (Sparse.fromScalar 0) (Sparse.fromScalar 0)
          = none)) :=
  ⟨by decide,
    div_by_zero_polynomial_never_returns (fun x y : ℚ => x / y) 5 [1, 2] [(0, 1), (1, 2)]
      (by decide)⟩

/-- Counterexample to C3 as stated: over the rationals, `[1] / 0` in the dense form and
`1 / 0` in the sparse form divide by the coefficient `0` of the zero divisor and have no
result for any number of loop iterations; `gcd(0, 0)` likewise. -/
theorem div_by_zero_polynomial_loops :
    Dense.opIndex ([] : List ℚ) (toSizeT (Dense.Degree ([] : List ℚ))) = 0 ∧
    (¬ ∃ fuel r, Dense.opDiv (fun x y : ℚ => x / y) fuel [1] [] = some r) ∧
    (¬ ∃ fuel r, Sparse.opDiv (fun x y : ℚ => x / y) fuel [(0, 1)] [] = some r) ∧
    (¬ ∃ fuel r, Dense.opComma (fun x y : ℚ => x / y) fuel [] [] = some r) ∧
    (¬ ∃ fuel r, Sparse.opComma (fun x y : ℚ => x / y) fuel [] [] = some r) := by
  refine ⟨by decide, ?_, ?_, ?_, ?_⟩
  · rintro ⟨fuel, r, h⟩
    have : Dense.opDiv (fun x y : ℚ => x / y) fuel [1] [] = none := by
      unfold Dense.opDiv; rw [Dense.divLoop_nil_dense]; rfl
    rw [this] at h; cases h
  · rintro ⟨fuel, r, h⟩
    have : Sparse.opDiv (fun x y : ℚ => x / y) fuel [(0, 1)] [] = none := by
      unfold Sparse.opDiv
      rw [Sparse.divLoop_nil_sparse _ fuel _ _ (by decide)]
      rfl
    rw [this] at h; cases h
  · rintro ⟨fuel, r, h⟩
    have hg : Dense.gcdLoop (fun x y : ℚ => x / y) fuel fuel ([] : List ℚ) [] = some [] := by
      unfold Dense.gcdLoop
      rw [Dense.opNe_nil_dense]
      simp
    unfold Dense.opComma at h
    rw [hg] at h
    simp only [Option.some_bind] at h
    have e : Dense.fromScalar (Dense.opIndex ([] : List ℚ) (toSizeT (Dense.Degree ([] : List ℚ))))
        = [] := by decide
    rw [e] at h
    unfold Dense.opDiv at h
    rw [Dense.divLoop_nil_dense] at h
    cases h
  · rintro ⟨fuel, r, h⟩
    have hg : Sparse.gcdLoop (fun x y : ℚ => x / y) fuel fuel ([] : List (Nat × ℚ)) []
        = some [] := by
      unfold Sparse.gcdLoop
      rw [Sparse.opNe_nil_sparse _ (by decide)]
      simp
    unfold Sparse.opComma at h
    rw [hg] at h
    simp only [Option.some_bind] at h
    have e : Sparse.fromScalar (Sparse.opIndex ([] : List (Nat × ℚ))
        (toSizeT (Sparse.Degree ([] : List (Nat × ℚ))))) = [] := by decide
    rw [e] at h
    unfold Sparse.opDiv at h
    rw [Sparse.divLoop_nil_sparse _ fuel _ _ (by decide)] at h
    cases h

/-- C4 (as the code behaves). Over a field, for nonzero canonical `p` and `q`, in the dense
form, and in the sparse form when every exponent of `p` and `q` is below `2^31`: with fuel
above both degrees `(p , q)` returns a polynomial `g` with `g[Degree(g)] == 1` and
`Degree(g) <= min(Degree(p), Degree(q))`. -/
theorem gcd_monic_degree_le {F : Type} [Field F] [DecidableEq F]
    (p q : List F) (sp sq : List (Nat × F)) (fuel : Nat)
    (hp : Dense.Canonical p) (hq : Dense.Canonical q) (hp0 : p ≠ []) (hq0 : q ≠ [])
    (hsp : Sparse.Canonical sp) (hsq : Sparse.Canonical sq) (hsp0 : sp ≠ []) (hsq0 : sq ≠ [])
    (hspr : Sparse.bound sp ≤ 2 ^ 31) (hsqr : Sparse.bound sq ≤ 2 ^ 31)
    (hf1 : Dense.Degree p < (fuel : Int)) (hf2 : Dense.Degree q < (fuel : Int))
    (hsf1 : Sparse.Degree sp < (fuel : Int)) (hsf2 : Sparse.Degree sq < (fuel : Int)) :
    (∃ g, Dense.opComma (fun x y : F => x / y) fuel p q = some g ∧
      Dense.opIndex g (toSizeT (Dense.Degree g)) = 1 ∧
      Dense.Degree g ≤ min (Dense.Degree p) (Dense.Degree q)) ∧
    (∃ g, Sparse.opComma (fun x y : F => x / y) fuel sp sq = some g ∧
      Sparse.opIndex g (toSizeT (Sparse.Degree g)) = 1 ∧
      Sparse.Degree g ≤ min (Sparse.Degree sp) (Sparse.Degree sq)) := by
  constructor
  · obtain ⟨g, h1, _, _, h4, _, _, _, _, _, h10, h11⟩ :=
      Dense.gcd_field_dense hp hq (Or.inl hp0) fuel
        (by unfold Dense.Degree at hf1; omega) (by unfold Dense.Degree at hf2; omega)
    refine ⟨g, h1, h4, ?_⟩
    have a1 := h10 hp0
    have a2 := h11 hq0
    unfold Dense.Degree
    rw [le_min_iff]
    constructor <;> omega
  · obtain ⟨g, h1, _, _, hgr, h4, _, _, _, _, _, h10, h11⟩ :=
      Sparse.gcd_field_sparse hsp hsq (Or.inl hsp0) hspr hsqr fuel
        (by rw [Sparse.degree_eq_bound sp hspr] at hsf1; omega)
        (by rw [Sparse.degree_eq_bound sq hsqr] at hsf2; omega)
    refine ⟨g, h1, h4, ?_⟩
    have a1 := h10 hsp0
    have a2 := h11 hsq0
    rw [Sparse.degree_eq_bound g hgr, Sparse.degree_eq_bound sp hspr,
      Sparse.degree_eq_bound sq hsqr, le_min_iff]
    constructor <;> omega

/-- Witness for C4: `p = [0, 0, 1]` (`x^2`) and `q = [0, 1]` (`x`) over the rationals give
`gcd(p, q) = [0, 1]` in both forms. -/
theorem gcd_monic_degree_le_witness :
    Dense.opComma (fun x y : ℚ => x / y) 3 [0, 0, 1] [0, 1] = some [0, 1] ∧
    Sparse.opComma (fun x y : ℚ => x / y) 3 [(2, 1)] [(1, 1)] = some [(1, 1)] ∧
    ((∃ g, Dense.opComma (fun x y : ℚ => x / y) 3 [0, 0, 1] [0, 1] = some g ∧
      Dense.opIndex g (toSizeT (Dense.Degree g)) = 1 ∧
      Dense.Degree g ≤ min (Dense.Degree ([0, 0, 1] : List ℚ)) (Dense.Degree ([0, 1] : List ℚ))) ∧
    (∃ g, Sparse.opComma (fun x y : ℚ => x / y) 3 [(2, 1)] [(1, 1)] = some g ∧
      Sparse.opIndex g (toSizeT (Sparse.Degree g)) = 1 ∧
      Sparse.Degree g ≤ min (Sparse.Degree ([(2, 1)] : List (Nat × ℚ)))
        (Sparse.Degree ([(1, 1)] : List (Nat × ℚ))))) :=
  ⟨by decide!, by decide!,
    gcd_monic_degree_le [0, 0, 1] [0, 1] [(2, 1)] [(1, 1)] 3
      (by decide) (by decide) (by decide) (by decide) (by decide) (by decide) (by decide)
      (by decide) (by decide) (by decide) (by decide) (by decide) (by decide) (by decide)⟩

/-- Counterexample to C4 as stated: over the rationals, in the sparse form, `p = x^(2^32)` and
`q = 1` are nonzero and canonical, but `(p , q)` has no result for any fuel: its first step
`p % q` never leaves the loop of `operator/`, because `Degree(p)` is the `int` `0`. -/
theorem gcd_monic_degree_le_fails_beyond_int :
    Sparse.Canonical ([(2 ^ 32, 1)] : List (Nat × ℚ)) ∧
    Sparse.Canonical ([(0, 1)] : List (Nat × ℚ)) ∧
    ([(2 ^ 32, 1)] : List (Nat × ℚ)) ≠ [] ∧ ([(0, 1)] : List (Nat × ℚ)) ≠ [] ∧
    (¬ ∃ fuel g, Sparse.opComma (fun x y : ℚ => x / y) fuel [(2 ^ 32, 1)] [(0, 1)]
      = some g) := by
  refine ⟨by decide, by decide, by decide, by decide, ?_⟩
  rintro ⟨fuel, g, hg⟩
  rw [sparse_wrap_gcd_none (fun x y : ℚ => x / y) (by norm_num)] at hg
  cases hg

/-- C5 (as the code behaves). Over a field, for canonical `p` and `q` not both zero, in the
dense form, and in the sparse form when every exponent of `p` and `q` is below `2^31`:
`g = (p , q)` divides both inputs (`p % g` and `q % g` are zero), is a combination
`u * p + v * q`, is divided by every common divisor `d` of `p` and `q` (`g % d` is zero), and
is the only monic polynomial with the first two properties.  In the sparse form the
polynomials `d`, `g'` range over those with exponents below `2^31`, and the products
`u * p`, `v * q` over those whose key additions do not wrap (`NoWrap`). -/
theorem gcd_is_greatest_common_divisor {F : Type} [Field F] [DecidableEq F]
    (p q : List F) (sp sq : List (Nat × F)) (fuel : Nat)
    (hp : Dense.Canonical p) (hq : Dense.Canonical q) (hne : p ≠ [] ∨ q ≠ [])
    (hsp : Sparse.Canonical sp) (hsq : Sparse.Canonical sq) (hsne : sp ≠ [] ∨ sq ≠ [])
    (hspr : Sparse.bound sp ≤ 2 ^ 31) (hsqr : Sparse.bound sq ≤ 2 ^ 31)
    (hf1 : Dense.Degree p < (fuel : Int)) (hf2 : Dense.Degree q < (fuel : Int))
    (hsf1 : Sparse.Degree sp < (fuel : Int)) (hsf2 : Sparse.Degree sq < (fuel : Int)) :
    (∃ g, Dense.opComma (fun x y : F => x / y) fuel p q = some g ∧
      Dense.opMod (fun x y : F => x / y) fuel p g = some [] ∧
      Dense.opMod (fun x y : F => x / y) fuel q g = some [] ∧
      (∃ u v, Dense.Canonical u ∧ Dense.Canonical v ∧
        g = Dense.opAdd (Dense.opMul u p) (Dense.opMul v q)) ∧
      (∀ d, Dense.Canonical d → d ≠ [] →
        Dense.opMod (fun x y : F => x / y) fuel p d = some [] →
        Dense.opMod (fun x y : F => x / y) fuel q d = some [] →
        Dense.opMod (fun x y : F => x / y) fuel g d = some []) ∧
      Dense.opIndex g (toSizeT (Dense.Degree g)) = 1 ∧
      (∀ g', Dense.Canonical g' → Dense.opIndex g' (toSizeT (Dense.Degree g')) = 1 →
        Dense.opMod (fun x y : F => x / y) fuel p g' = some [] →
        Dense.opMod (fun x y : F => x / y) fuel q g' = some [] →
        (∃ u v, g' = Dense.opAdd (Dense.opMul u p) (Dense.opMul v q)) → g' = g)) ∧
    (∃ g, Sparse.opComma (fun x y : F => x / y) fuel sp sq = some g ∧
      Sparse.opMod (fun x y : F => x / y) fuel sp g = some [] ∧
      Sparse.opMod (fun x y : F => x / y) fuel sq g = some [] ∧
      (∃ u v, Sparse.Canonical u ∧ Sparse.Canonical v ∧
        Sparse.NoWrap u sp ∧ Sparse.NoWrap v sq ∧
        g = Sparse.opAdd (Sparse.opMul u sp) (Sparse.opMul v sq)) ∧
      (∀ d, Sparse.Canonical d → d ≠ [] → Sparse.bound d ≤ 2 ^ 31 →
        Sparse.opMod (fun x y : F => x / y) fuel sp d = some [] →
        Sparse.opMod (fun x y : F => x / y) fuel sq d = some [] →
        Sparse.opMod (fun x y : F => x / y) fuel g d = some []) ∧
      Sparse.opIndex g (toSizeT (Sparse.Degree g)) = 1 ∧
      (∀ g', Sparse.Canonical g' → Sparse.bound g' ≤ 2 ^ 31 →
        Sparse.opIndex g' (toSizeT (Sparse.Degree g')) = 1 →
        Sparse.opMod (fun x y : F => x / y) fuel sp g' = some [] →
        Sparse.opMod (fun x y : F => x / y) fuel sq g' = some [] →
        (∃ u v, Sparse.Canonical u ∧ Sparse.Canonical v ∧
          Sparse.NoWrap u sp ∧ Sparse.NoWrap v sq ∧
          g' = Sparse.opAdd (Sparse.opMul u sp) (Sparse.opMul v sq)) → g' = g)) := by
  constructor
  · obtain ⟨g, h1, _, _, h4, h5, h6, h7, h8, h9, _, _⟩ :=
      Dense.gcd_field_dense hp hq hne fuel
        (by unfold Dense.Degree at hf1; omega) (by unfold Dense.Degree at hf2; omega)
    exact ⟨g, h1, h5, h6, h7, h8, h4, h9⟩
  · obtain ⟨g, h1, _, _, _, h4, h5, h6, h7, h8, h9, _, _⟩ :=
      Sparse.gcd_field_sparse hsp hsq hsne hspr hsqr fuel
        (by rw [Sparse.degree_eq_bound sp hspr] at hsf1; omega)
        (by rw [Sparse.degree_eq_bound sq hsqr] at hsf2; omega)
    exact ⟨g, h1, h5, h6, h7, h8, h4, h9⟩

/-- Witness for C5: `p = x^2 - 1` and `q = x^2 - 2x + 1` over the rationals have
`gcd(p, q) = x - 1` in both forms; the second operand may also be zero. -/
theorem gcd_is_greatest_common_divisor_witness :
    Dense.opComma (fun x y : ℚ => x / y) 3 [-1, 0, 1] [1, -2, 1] = some [-1, 1] ∧
    Sparse.opComma (fun x y : ℚ => x / y) 3 [(0, -1), (2, 1)] [(0, 1), (1, -2), (2, 1)]
      = some [(0, -1), (1, 1)] ∧
    Dense.opComma (fun x y : ℚ => x / y) 3 [0, 2] [] = some [0, 1] ∧
    ((∃ g, Dense.opComma (fun x y : ℚ => x / y) 3 [-1, 0, 1] [1, -2, 1] = some g ∧
      Dense.opMod (fun x y : ℚ => x / y) 3 [-1, 0, 1] g = some [] ∧
      Dense.opMod (fun x y : ℚ => x / y) 3 [1, -2, 1] g = some [] ∧
      (∃ u v, Dense.Canonical u ∧ Dense.Canonical v ∧
        g = Dense.opAdd (Dense.opMul u [-1, 0, 1]) (Dense.opMul v [1, -2, 1])) ∧
      (∀ d, Dense.Canonical d → d ≠ [] →
        Dense.opMod (fun x y : ℚ => x / y) 3 [-1, 0, 1] d = some [] →
        Dense.opMod (fun x y : ℚ => x / y) 3 [1, -2, 1] d = some [] →
        Dense.opMod (fun x y : ℚ => x / y) 3 g d = some []) ∧
      Dense.opIndex g (toSizeT (Dense.Degree g)) = 1 ∧
      (∀ g', Dense.Canonical g' → Dense.opIndex g' (toSizeT (Dense.Degree g')) = 1 →
        Dense.opMod (fun x y : ℚ => x / y) 3 [-1, 0, 1] g' = some [] →
        Dense.opMod (fun x y : ℚ => x / y) 3 [1, -2, 1] g' = some [] →
        (∃ u v, g' = Dense.opAdd (Dense.opMul u [-1, 0, 1]) (Dense.opMul v [1, -2, 1])) →
        g' = g)) ∧
    (∃ g, Sparse.opComma (fun x y : ℚ => x / y) 3 [(0, -1), (2, 1)] [(0, 1), (1, -2), (2, 1)]
        = some g ∧
      Sparse.opMod (fun x y : ℚ => x / y) 3 [(0, -1), (2, 1)] g = some [] ∧
      Sparse.opMod (fun x y : ℚ => x / y) 3 [(0, 1), (1, -2), (2, 1)] g = some [] ∧
      (∃ u v, Sparse.Canonical u ∧ Sparse.Canonical v ∧
        Sparse.NoWrap u [(0, -1), (2, 1)] ∧ Sparse.NoWrap v [(0, 1), (1, -2), (2, 1)] ∧
        g = Sparse.opAdd (Sparse.opMul u [(0, -1), (2, 1)])
          (Sparse.opMul v [(0, 1), (1, -2), (2, 1)])) ∧
      (∀ d, Sparse.Canonical d → d ≠ [] → Sparse.bound d ≤ 2 ^ 31 →
        Sparse.opMod (fun x y : ℚ => x / y) 3 [(0, -1), (2, 1)] d = some [] →
        Sparse.opMod (fun x y : ℚ => x / y) 3 [(0, 1), (1, -2), (2, 1)] d = some [] →
        Sparse.opMod (fun x y : ℚ => x / y) 3 g d = some []) ∧
      Sparse.opIndex g (toSizeT (Sparse.Degree g)) = 1 ∧
      (∀ g', Sparse.Canonical g' → Sparse.bound g' ≤ 2 ^ 31 →
        Sparse.opIndex g' (toSizeT (Sparse.Degree g')) = 1 →
        Sparse.opMod (fun x y : ℚ => x / y) 3 [(0, -1), (2, 1)] g' = some [] →
        Sparse.opMod (fun x y : ℚ => x / y) 3 [(0, 1), (1, -2), (2, 1)] g' = some [] →
        (∃ u v, Sparse.Canonical u ∧ Sparse.Canonical v ∧
          Sparse.NoWrap u [(0, -1), (2, 1)] ∧ Sparse.NoWrap v [(0, 1), (1, -2), (2, 1)] ∧
          g' = Sparse.opAdd (Sparse.opMul u [(0, -1), (2, 1)])
            (Sparse.opMul v [(0, 1), (1, -2), (2, 1)])) → g' = g))) :=
  ⟨by decide!, by decide!, by decide!,
    gcd_is_greatest_common_divisor [-1, 0, 1] [1, -2, 1] [(0, -1), (2, 1)]
      [(0, 1), (1, -2), (2, 1)] 3
      (by decide) (by decide) (Or.inl (by decide)) (by decide) (by decide)
      (Or.inl (by decide)) (by decide) (by decide) (by decide) (by decide) (by decide)
      (by decide)⟩

/-- Counterexample to C5 as stated: over the rationals, in the sparse form, `p = x^(2^32)` and
`q = 1` are canonical and not both zero, but `g = (p , q)` does not exist: `(p , q)` has no
result for any fuel, and neither has `p % q`. -/
theorem gcd_is_greatest_common_divisor_fails_beyond_int :
    Sparse.Canonical ([(2 ^ 32, 1)] : List (Nat × ℚ)) ∧
    Sparse.Canonical ([(0, 1)] : List (Nat × ℚ)) ∧
    (([(2 ^ 32, 1)] : List (Nat × ℚ)) ≠ [] ∨ ([(0, 1)] : List (Nat × ℚ)) ≠ []) ∧
    (¬ ∃ fuel g, Sparse.opComma (fun x y : ℚ => x / y) fuel [(2 ^ 32, 1)] [(0, 1)]
      = some g) ∧
    (¬ ∃ fuel r, Sparse.opMod (fun x y : ℚ => x / y) fuel [(2 ^ 32, 1)] [(0, 1)]
      = some r) := by
  refine ⟨by decide, by decide, Or.inl (by decide), ?_, ?_⟩
  · rintro ⟨fuel, g, hg⟩
    rw [sparse_wrap_gcd_none (fun x y : ℚ => x / y) (by norm_num)] at hg
    cases hg
  · rintro ⟨fuel, r, hr⟩
    rw [(sparse_wrap_div_none (fun x y : ℚ => x / y) (by norm_num) fuel).2] at hr
    cases hr

/-- C6. Over a commutative ring, for every canonical `p` and every `q`, in both forms:
`(p + q) - q == p` evaluates to `true`. -/
theorem add_sub_cancel_eq {T : Type} [CommRing T] [DecidableEq T]
    (p q : List T) (sp sq : List (Nat × T))
    (hp : Dense.Canonical p) (hsp : Sparse.Canonical sp) (hsq : Sparse.Canonical sq) :
    Dense.opEq (Dense.opSub (Dense.opAdd p q) q) p = some true ∧
    Sparse.opEq (Sparse.opSub (Sparse.opAdd sp sq) sq) sp = some true := by
  constructor
  · obtain ⟨P, hP⟩ := Dense.rep_exists_dense p
    obtain ⟨Q, hQ⟩ := Dense.rep_exists_dense q
    have h : Dense.opSub (Dense.opAdd p q) q = p := by
      apply Dense.Rep.ext_dense (Dense.canonical_opSubAssign_dense _ _) hp _ hP
      have := Dense.Rep.sub_dense (Dense.Rep.add_dense hP hQ) hQ
      rwa [add_sub_cancel_right] at this
    rw [h]; exact Dense.opEq_self_dense p
  · obtain ⟨P, hP⟩ := Sparse.rep_exists_sparse hsp.1
    obtain ⟨Q, hQ⟩ := Sparse.rep_exists_sparse hsq.1
    have h : Sparse.opSub (Sparse.opAdd sp sq) sq = sp := by
      apply Sparse.Rep.ext_sparse
        (Sparse.canonical_opSubAssign_sparse (Sparse.canonical_opAddAssign_sparse hsp _) _)
        hsp _ hP
      have := Sparse.Rep.sub_sparse hsq.1 (Sparse.Rep.add_sparse hsq.1 hP hQ) hQ
      rwa [add_sub_cancel_right] at this
    rw [h]; exact Sparse.opEq_self_sparse sp

/-- Witness for C6 over the integers: `p = [1, 2, 3]`, `q = [0, 5, -3, 0, 7]`; `q` has the
higher degree, and `[1, 2, 3] + [0, 5, -3]` cancels the leading term. -/
theorem add_sub_cancel_eq_witness :
    Dense.opAdd ([1, 2, 3] : List ℤ) [0, 5, -3] = [1, 7] ∧
    Sparse.opAdd ([(0, 1), (1, 2), (2, 3)] : List (Nat × ℤ)) [(1, 5), (2, -3)]
      = [(0, 1), (1, 7)] ∧
    Dense.opEq (Dense.opSub (Dense.opAdd ([1, 2, 3] : List ℤ) [0, 5, -3]) [0, 5, -3]) [1, 2, 3]
      = some true ∧
    (Dense.opEq (Dense.opSub (Dense.opAdd ([1, 2, 3] : List ℤ) [0, 5, -3, 0, 7])
        [0, 5, -3, 0, 7]) [1, 2, 3] = some true ∧
      Sparse.opEq (Sparse.opSub (Sparse.opAdd ([(0, 1), (1, 2), (2, 3)] : List (Nat × ℤ))
        [(1, 5), (2, -3), (4, 7)]) [(1, 5), (2, -3), (4, 7)]) [(0, 1), (1, 2), (2, 3)]
        = some true) :=
  ⟨by decide, by decide, by decide,
    add_sub_cancel_eq [1, 2, 3] [0, 5, -3, 0, 7] [(0, 1), (1, 2), (2, 3)]
      [(1, 5), (2, -3), (4, 7)] (by decide) (by decide) (by decide)⟩

/-- C7 (as the code behaves). Over a commutative ring, for all polynomials `p`, `q` and every
scalar `x`, in the dense form, and in the sparse form when no sum of an exponent of `p` and
an exponent of `q` reaches `2^64`: `(p * q)(x) == p(x) * q(x)`. -/
theorem eval_mul_eq {T : Type} [CommRing T] [DecidableEq T]
    (p q : List T) (sp sq : List (Nat × T)) (x : T)
    (hsp : Sparse.Canonical sp) (hsq : Sparse.Canonical sq) (hw : Sparse.NoWrap sp sq) :
    Dense.opCall (Dense.opMul p q) x = Dense.opCall p x * Dense.opCall q x ∧
    Sparse.opCall (Sparse.opMul sp sq) x = Sparse.opCall sp x * Sparse.opCall sq x := by
  constructor
  · obtain ⟨P, hP⟩ := Dense.rep_exists_dense p
    obtain ⟨Q, hQ⟩ := Dense.rep_exists_dense q
    unfold Dense.opMul
    rw [Dense.Rep.eval_dense (Dense.Rep.mul_dense hP hQ), Dense.Rep.eval_dense hP,
      Dense.Rep.eval_dense hQ, Polynomial.eval_mul]
  · obtain ⟨P, hP⟩ := Sparse.rep_exists_sparse hsp.1
    obtain ⟨Q, hQ⟩ := Sparse.rep_exists_sparse hsq.1
    unfold Sparse.opMul
    rw [Sparse.Rep.eval_sparse (Sparse.canonical_opMulAssign_sparse sp sq).1
        (Sparse.Rep.mul_sparse hsp.1 hsq.1 hw hP hQ),
      Sparse.Rep.eval_sparse hsp.1 hP, Sparse.Rep.eval_sparse hsq.1 hQ, Polynomial.eval_mul]

/-- Witness for C7 over the integers: `p = 1 + 2x + 3x^2`, `q = 1 + x`, `x = 2`, and the zero
polynomial as second factor in the sparse form. -/
theorem eval_mul_eq_witness :
    Dense.opCall (Dense.opMul ([1, 2, 3] : List ℤ) [1, 1]) 2 = 51 ∧
    (Dense.opCall (Dense.opMul ([1, 2, 3] : List ℤ) [1, 1]) 2
        = Dense.opCall [1, 2, 3] 2 * Dense.opCall [1, 1] 2 ∧
      Sparse.opCall (Sparse.opMul ([(0, 1), (1, 2), (2, 3)] : List (Nat × ℤ)) []) 2
        = Sparse.opCall [(0, 1), (1, 2), (2, 3)] 2 * Sparse.opCall [] 2) :=
  ⟨by decide,
    eval_mul_eq [1, 2, 3] [1, 1] [(0, 1), (1, 2), (2, 3)] [] 2 (by decide) (by decide)
      (by decide)⟩

/-- Counterexample to C7 as stated: over the integers, in the sparse form, for the canonical
`p = q = x^(2^63)` the product `p * q` is the constant `1` (the key `2^63 + 2^63` wraps to
`0`), so `(p * q)(0) = 1`, while `p(0) * q(0) = 0`. -/
theorem eval_mul_eq_fails_on_key_wrap :
    Sparse.Canonical ([(2 ^ 63, 1)] : List (Nat × ℤ)) ∧
    Sparse.opMul ([(2 ^ 63, 1)] : List (Nat × ℤ)) [(2 ^ 63, 1)] = [(0, 1)] ∧
    Sparse.opCall (Sparse.opMul ([(2 ^ 63, 1)] : List (Nat × ℤ)) [(2 ^ 63, 1)]) 0 = 1 ∧
    Sparse.opCall ([(2 ^ 63, 1)] : List (Nat × ℤ)) 0
      * Sparse.opCall ([(2 ^ 63, 1)] : List (Nat × ℤ)) 0 = 0 ∧
    Sparse.opCall (Sparse.opMul ([(2 ^ 63, 1)] : List (Nat × ℤ)) [(2 ^ 63, 1)]) 0 ≠
      Sparse.opCall ([(2 ^ 63, 1)] : List (Nat × ℤ)) 0
        * Sparse.opCall ([(2 ^ 63, 1)] : List (Nat × ℤ)) 0 := by
  have h1 : Sparse.opCall (Sparse.opMul ([(2 ^ 63, 1)] : List (Nat × ℤ)) [(2 ^ 63, 1)]) 0
      = 1 := by
    rw [sparse_wrap_square, sparse_opCall_single, pow_zero, mul_one]
  have h2 : Sparse.opCall ([(2 ^ 63, 1)] : List (Nat × ℤ)) 0 = 0 := by
    rw [sparse_opCall_single, zero_pow (by norm_num), mul_zero]
  refine ⟨by decide, sparse_wrap_square, h1, by rw [h2, mul_zero], ?_⟩
  rw [h1, h2, mul_zero]
  exact one_ne_zero

/-- C8 (as the code behaves). Over a commutative ring, for all polynomials `p`, `q` and every
scalar `x`, in the dense form, and in the sparse form when no product of an exponent of `p`
and an exponent of `q` reaches `2^64`: `(p & q)(x) == p(q(x))`. -/
theorem eval_compose_eq {T : Type} [CommRing T] [DecidableEq T]
    (p q : List T) (sp sq : List (Nat × T)) (x : T)
    (hsp : Sparse.Canonical sp) (hsq : Sparse.Canonical sq) (hw : Sparse.NoWrapPow sp sq) :
    Dense.opCall (Dense.opAnd p q) x = Dense.opCall p (Dense.opCall q x) ∧
    Sparse.opCall (Sparse.opAnd sp sq) x = Sparse.opCall sp (Sparse.opCall sq x) := by
  constructor
  · obtain ⟨P, hP⟩ := Dense.rep_exists_dense p
    obtain ⟨Q, hQ⟩ := Dense.rep_exists_dense q
    rw [Dense.Rep.eval_dense (Dense.Rep.comp_dense hP hQ), Dense.Rep.eval_dense hQ,
      Dense.Rep.eval_dense hP, Polynomial.eval_comp]
  · obtain ⟨P, hP⟩ := Sparse.rep_exists_sparse hsp.1
    obtain ⟨Q, hQ⟩ := Sparse.rep_exists_sparse hsq.1
    obtain ⟨hc, hR⟩ := Sparse.Rep.comp_sparse hsp.1 hsq (Sparse.Rep.noWrapPow hQ hw) hP hQ
    rw [Sparse.Rep.eval_sparse hc.1 hR, Sparse.Rep.eval_sparse hsq.1 hQ,
      Sparse.Rep.eval_sparse hsp.1 hP, Polynomial.eval_comp]

/-- Witness for C8 over the integers: `p = 1 + 2x + 3x^2` (with a term of exponent 0),
`q = 1 + x`, `x = 2`; `p & q = 6 + 8x + 3x^2`. -/
theorem eval_compose_eq_witness :
    Dense.opAnd ([1, 2, 3] : List ℤ) [1, 1] = [6, 8, 3] ∧
    Dense.opCall ([1, 2, 3] : List ℤ) (Dense.opCall [1, 1] 2) = 34 ∧
    (Dense.opCall (Dense.opAnd ([1, 2, 3] : List ℤ) [1, 1]) 2
        = Dense.opCall [1, 2, 3] (Dense.opCall [1, 1] 2) ∧
      Sparse.opCall (Sparse.opAnd ([(0, 1), (1, 2), (2, 3)] : List (Nat × ℤ))
          [(0, 1), (1, 1)]) 2
        = Sparse.opCall [(0, 1), (1, 2), (2, 3)] (Sparse.opCall [(0, 1), (1, 1)] 2)) :=
  ⟨by decide, by decide,
    eval_compose_eq [1, 2, 3] [1, 1] [(0, 1), (1, 2), (2, 3)] [(0, 1), (1, 1)] 2
      (by decide) (by decide) (by decide)⟩

/-- Counterexample to C8 as stated: over the integers, in the sparse form, for the canonical
`p = x^2` and `q = x^(2^63)` the power `q.pow(2)` is the constant `1` (the key `2^63 + 2^63`
wraps to `0`), so `p & q` is the constant `1` and `(p & q)(0) = 1`, while `p(q(0)) = 0`. -/
theorem eval_compose_eq_fails_on_key_wrap :
    Sparse.Canonical ([(2, 1)] : List (Nat × ℤ)) ∧
    Sparse.Canonical ([(2 ^ 63, 1)] : List (Nat × ℤ)) ∧
    Sparse.opAnd ([(2, 1)] : List (Nat × ℤ)) [(2 ^ 63, 1)] = [(0, 1)] ∧
    Sparse.opCall (Sparse.opAnd ([(2, 1)] : List (Nat × ℤ)) [(2 ^ 63, 1)]) 0 = 1 ∧
    Sparse.opCall ([(2, 1)] : List (Nat × ℤ))
      (Sparse.opCall ([(2 ^ 63, 1)] : List (Nat × ℤ)) 0) = 0 ∧
    Sparse.opCall (Sparse.opAnd ([(2, 1)] : List (Nat × ℤ)) [(2 ^ 63, 1)]) 0 ≠
      Sparse.opCall ([(2, 1)] : List (Nat × ℤ))
        (Sparse.opCall ([(2 ^ 63, 1)] : List (Nat × ℤ)) 0) := by
  have h1 : Sparse.opCall (Sparse.opAnd ([(2, 1)] : List (Nat × ℤ)) [(2 ^ 63, 1)]) 0 = 1 := by
    rw [sparse_wrap_compose, sparse_opCall_single, pow_zero, mul_one]
  have h2 : Sparse.opCall ([(2, 1)] : List (Nat × ℤ))
      (Sparse.opCall ([(2 ^ 63, 1)] : List (Nat × ℤ)) 0) = 0 := by
    rw [sparse_opCall_single, sparse_opCall_single, zero_pow (by norm_num), mul_zero,
      zero_pow (by norm_num), mul_zero]
  refine ⟨by decide, by decide, sparse_wrap_compose, h1, h2, ?_⟩
  rw [h1, h2]
  exact one_ne_zero

/-- C9. Canonical-zero invariant over a field-like coefficient type, for canonical operands:
every constructor and every operation (`+=`, `-=`, `*=`, `+`, `-`, `*`, `&`, `/`, `%`, gcd)
yields canonical storage (dense: empty or last entry nonzero; sparse: no stored zero).  For
`/`, `%` and gcd every result produced, with any coefficient division and any number of
iterations, is canonical, and with the field division, a nonzero divisor and fuel above both
degrees results are produced (in the sparse form when the exponents are below `2^31`). -/
theorem canonical_zero_invariant {F : Type} [Field F] [DecidableEq F]
    (k : F) (v p q : List F) (sp sq : List (Nat × F)) (fuel : Nat)
    (hp : Dense.Canonical p) (hq : Dense.Canonical q)
    (hsp : Sparse.Canonical sp) (hsq : Sparse.Canonical sq) :
    (Dense.Canonical (Dense.fromScalar k) ∧ Dense.Canonical (Dense.fromVector v) ∧
      Dense.Canonical (Dense.fromRange v) ∧
      Dense.Canonical (Dense.opAddAssign p q) ∧ Dense.Canonical (Dense.opSubAssign p q) ∧
      Dense.Canonical (Dense.opMulAssign p q) ∧ Dense.Canonical (Dense.opAdd p q) ∧
      Dense.Canonical (Dense.opSub p q) ∧ Dense.Canonical (Dense.opMul p q) ∧
      Dense.Canonical (Dense.opAnd p q) ∧
      (∀ (dv : F → F → F) n r, Dense.opDiv dv n p q = some r → Dense.Canonical r) ∧
      (∀ (dv : F → F → F) n r, Dense.opMod dv n p q = some r → Dense.Canonical r) ∧
      (∀ (dv : F → F → F) n r, Dense.opComma dv n p q = some r → Dense.Canonical r) ∧
      (q ≠ [] → Dense.Degree p < (fuel : Int) → Dense.Degree q < (fuel : Int) →
        ∃ d m g, Dense.opDiv (fun x y : F => x / y) fuel p q = some d ∧
          Dense.opMod (fun x y : F => x / y) fuel p q = some m ∧
          Dense.opComma (fun x y : F => x / y) fuel p q = some g ∧
          Dense.Canonical d ∧ Dense.Canonical m ∧ Dense.Canonical g)) ∧
    (Sparse.Canonical (Sparse.fromScalar k) ∧ Sparse.Canonical (Sparse.fromVector v) ∧
      Sparse.Canonical (Sparse.fromRange v) ∧
      Sparse.Canonical (Sparse.opAddAssign sp sq) ∧ Sparse.Canonical (Sparse.opSubAssign sp sq) ∧
      Sparse.Canonical (Sparse.opMulAssign sp sq) ∧ Sparse.Canonical (Sparse.opAdd sp sq) ∧
      Sparse.Canonical (Sparse.opSub sp sq) ∧ Sparse.Canonical (Sparse.opMul sp sq) ∧
      Sparse.Canonical (Sparse.opAnd sp sq) ∧
      (∀ (dv : F → F → F) n r, Sparse.opDiv dv n sp sq = some r → Sparse.Canonical r) ∧
      (∀ (dv : F → F → F) n r, Sparse.opMod dv n sp sq = some r → Sparse.Canonical r) ∧
      (∀ (dv : F → F → F) n r, Sparse.opComma dv n sp sq = some r → Sparse.Canonical r) ∧
      (sq ≠ [] → Sparse.bound sp ≤ 2 ^ 31 → Sparse.bound sq ≤ 2 ^ 31 →
        Sparse.Degree sp < (fuel : Int) → Sparse.Degree sq < (fuel : Int) →
        ∃ d m g, Sparse.opDiv (fun x y : F => x / y) fuel sp sq = some d ∧
          Sparse.opMod (fun x y : F => x / y) fuel sp sq = some m ∧
          Sparse.opComma (fun x y : F => x / y) fuel sp sq = some g ∧
          Sparse.Canonical d ∧ Sparse.Canonical m ∧ Sparse.Canonical g)) := by
  constructor
  · refine ⟨Dense.canonical_cut _, Dense.canonical_cut _, Dense.canonical_cut _,
      Dense.canonical_cut _, Dense.canonical_cut _, Dense.canonical_cut _,
      Dense.canonical_cut _, Dense.canonical_cut _, Dense.canonical_cut _,
      Dense.canonical_opAnd_dense p q,
      fun dv n r h => Dense.opDiv_canonical_dense dv n p q r h,
      fun dv n r h => Dense.opMod_canonical_dense dv n p q r h,
      fun dv n r h => Dense.opComma_canonical_dense dv n p q r h, ?_⟩
    intro hq0 hf1 hf2
    have hq1 : 0 < q.length := List.length_pos.2 hq0
    unfold Dense.Degree at hf1 hf2
    obtain ⟨d, m, _, h2, h3, h4, h5, _, _⟩ :=
      Dense.div_mod_field_dense hp hq hq0 fuel (by omega)
    obtain ⟨g, h6, h7, _⟩ :=
      Dense.gcd_field_dense hp hq (Or.inr hq0) fuel (by omega) (by omega)
    exact ⟨d, m, g, h2, h3, h6, h4, h5, h7⟩
  · refine ⟨Sparse.canonical_fromScalar k, Sparse.canonical_fromVector v,
      Sparse.canonical_fromRange v,
      Sparse.canonical_opAddAssign_sparse hsp sq, Sparse.canonical_opSubAssign_sparse hsp sq,
      Sparse.canonical_opMulAssign_sparse sp sq, Sparse.canonical_opAddAssign_sparse hsp sq,
      Sparse.canonical_opSubAssign_sparse hsp sq, Sparse.canonical_opMulAssign_sparse sp sq,
      Sparse.canonical_opAnd_sparse sp sq,
      fun dv n r h => Sparse.opDiv_canonical_sparse dv n sp sq r h,
      fun dv n r h => Sparse.opMod_canonical_sparse dv n hsp sq r h,
      fun dv n r h => Sparse.opComma_canonical_sparse dv n sp sq r h, ?_⟩
    intro hq0 hspr hsqr hf1 hf2
    have hq1 : 0 < Sparse.bound sq := Sparse.bound_pos hq0
    rw [Sparse.degree_eq_bound sp hspr] at hf1
    rw [Sparse.degree_eq_bound sq hsqr] at hf2
    obtain ⟨d, m, _, h2, h3, h4, h5, _, _⟩ :=
      Sparse.div_mod_field_sparse hsp hsq hq0 hspr hsqr fuel (by omega)
    obtain ⟨g, h6, h7, _⟩ :=
      Sparse.gcd_field_sparse hsp hsq (Or.inr hq0) hspr hsqr fuel (by omega) (by omega)
    exact ⟨d, m, g, h2, h3, h6, h4, h5, h7⟩

/-- Witness for C9 over the rationals: the scalar `0`, the vector `[1, 0, 0]`,
`p = [1, 2, 3]`, `q = [-1, -2, -3]` (so `p + q` cancels completely), fuel 3. -/
theorem canonical_zero_invariant_witness :
    Dense.fromScalar (0 : ℚ) = [] ∧ Dense.fromVector ([1, 0, 0] : List ℚ) = [1] ∧
    Sparse.fromVector ([1, 0, 0] : List ℚ) = [(0, 1)] ∧
    Dense.opAdd ([1, 2, 3] : List ℚ) [-1, -2, -3] = [] ∧
    Sparse.opAdd ([(0, 1), (1, 2), (2, 3)] : List (Nat × ℚ)) [(0, -1), (1, -2), (2, -3)] = [] ∧
    ((Dense.Canonical (Dense.fromScalar (0 : ℚ)) ∧
      Dense.Canonical (Dense.fromVector ([1, 0, 0] : List ℚ)) ∧
      Dense.Canonical (Dense.fromRange ([1, 0, 0] : List ℚ)) ∧
      Dense.Canonical (Dense.opAddAssign ([1, 2, 3] : List ℚ) [-1, -2, -3]) ∧
      Dense.Canonical (Dense.opSubAssign ([1, 2, 3] : List ℚ) [-1, -2, -3]) ∧
      Dense.Canonical (Dense.opMulAssign ([1, 2, 3] : List ℚ) [-1, -2, -3]) ∧
      Dense.Canonical (Dense.opAdd ([1, 2, 3] : List ℚ) [-1, -2, -3]) ∧
      Dense.Canonical (Dense.opSub ([1, 2, 3] : List ℚ) [-1, -2, -3]) ∧
      Dense.Canonical (Dense.opMul ([1, 2, 3] : List ℚ) [-1, -2, -3]) ∧
      Dense.Canonical (Dense.opAnd ([1, 2, 3] : List ℚ) [-1, -2, -3]) ∧
      (∀ (dv : ℚ → ℚ → ℚ) n r, Dense.opDiv dv n [1, 2, 3] [-1, -2, -3] = some r →
        Dense.Canonical r) ∧
      (∀ (dv : ℚ → ℚ → ℚ) n r, Dense.opMod dv n [1, 2, 3] [-1, -2, -3] = some r →
        Dense.Canonical r) ∧
      (∀ (dv : ℚ → ℚ → ℚ) n r, Dense.opComma dv n [1, 2, 3] [-1, -2, -3] = some r →
        Dense.Canonical r) ∧
      (([-1, -2, -3] : List ℚ) ≠ [] → Dense.Degree ([1, 2, 3] : List ℚ) < ((3 : Nat) : Int) →
        Dense.Degree ([-1, -2, -3] : List ℚ) < ((3 : Nat) : Int) →
        ∃ d m g, Dense.opDiv (fun x y : ℚ => x / y) 3 [1, 2, 3] [-1, -2, -3] = some d ∧
          Dense.opMod (fun x y : ℚ => x / y) 3 [1, 2, 3] [-1, -2, -3] = some m ∧
          Dense.opComma (fun x y : ℚ => x / y) 3 [1, 2, 3] [-1, -2, -3] = some g ∧
          Dense.Canonical d ∧ Dense.Canonical m ∧ Dense.Canonical g)) ∧
    (Sparse.Canonical (Sparse.fromScalar (0 : ℚ)) ∧
      Sparse.Canonical (Sparse.fromVector ([1, 0, 0] : List ℚ)) ∧
      Sparse.Canonical (Sparse.fromRange ([1, 0, 0] : List ℚ)) ∧
      Sparse.Canonical (Sparse.opAddAssign ([(0, 1), (1, 2), (2, 3)] : List (Nat × ℚ))
        [(0, -1), (1, -2), (2, -3)]) ∧
      Sparse.Canonical (Sparse.opSubAssign ([(0, 1), (1, 2), (2, 3)] : List (Nat × ℚ))
        [(0, -1), (1, -2), (2, -3)]) ∧
      Sparse.Canonical (Sparse.opMulAssign ([(0, 1), (1, 2), (2, 3)] : List (Nat × ℚ))
        [(0, -1), (1, -2), (2, -3)]) ∧
      Sparse.Canonical (Sparse.opAdd ([(0, 1), (1, 2), (2, 3)] : List (Nat × ℚ))
        [(0, -1), (1, -2), (2, -3)]) ∧
      Sparse.Canonical (Sparse.opSub ([(0, 1), (1, 2), (2, 3)] : List (Nat × ℚ))
        [(0, -1), (1, -2), (2, -3)]) ∧
      Sparse.Canonical (Sparse.opMul ([(0, 1), (1, 2), (2, 3)] : List (Nat × ℚ))
        [(0, -1), (1, -2), (2, -3)]) ∧
      Sparse.Canonical (Sparse.opAnd ([(0, 1), (1, 2), (2, 3)] : List (Nat × ℚ))
        [(0, -1), (1, -2), (2, -3)]) ∧
      (∀ (dv : ℚ → ℚ → ℚ) n r, Sparse.opDiv dv n [(0, 1), (1, 2), (2, 3)]
        [(0, -1), (1, -2), (2, -3)] = some r → Sparse.Canonical r) ∧
      (∀ (dv : ℚ → ℚ → ℚ) n r, Sparse.opMod dv n [(0, 1), (1, 2), (2, 3)]
        [(0, -1), (1, -2), (2, -3)] = some r → Sparse.Canonical r) ∧
      (∀ (dv : ℚ → ℚ → ℚ) n r, Sparse.opComma dv n [(0, 1), (1, 2), (2, 3)]
        [(0, -1), (1, -2), (2, -3)] = some r → Sparse.Canonical r) ∧
      (([(0, -1), (1, -2), (2, -3)] : List (Nat × ℚ)) ≠ [] →
        Sparse.bound ([(0, 1), (1, 2), (2, 3)] : List (Nat × ℚ)) ≤ 2 ^ 31 →
        Sparse.bound ([(0, -1), (1, -2), (2, -3)] : List (Nat × ℚ)) ≤ 2 ^ 31 →
        Sparse.Degree ([(0, 1), (1, 2), (2, 3)] : List (Nat × ℚ)) < ((3 : Nat) : Int) →
        Sparse.Degree ([(0, -1), (1, -2), (2, -3)] : List (Nat × ℚ)) < ((3 : Nat) : Int) →
        ∃ d m g, Sparse.opDiv (fun x y : ℚ => x / y) 3 [(0, 1), (1, 2), (2, 3)]
            [(0, -1), (1, -2), (2, -3)] = some d ∧
          Sparse.opMod (fun x y : ℚ => x / y) 3 [(0, 1), (1, 2), (2, 3)]
            [(0, -1), (1, -2), (2, -3)] = some m ∧
          Sparse.opComma (fun x y : ℚ => x / y) 3 [(0, 1), (1, 2), (2, 3)]
            [(0, -1), (1, -2), (2, -3)] = some g ∧
          Sparse.Canonical d ∧ Sparse.Canonical m ∧ Sparse.Canonical g))) :=
  ⟨by decide, by decide, by decide, by decide!, by decide!,
    canonical_zero_invariant 0 [1, 0, 0] [1, 2, 3] [-1, -2, -3] [(0, 1), (1, 2), (2, 3)]
      [(0, -1), (1, -2), (2, -3)] 3 (by decide) (by decide) (by decide) (by decide)⟩

/-- A dense and a sparse polynomial with the same coefficients have the same `Degree()`, when
the exponents of the sparse one are below `2^31`. -/
theorem degree_dense_eq_sparse {T : Type} [CommRing T] [DecidableEq T]
    {d : List T} {s : List (Nat × T)} {P : Polynomial T}
    (hd : Dense.Canonical d) (hs : Sparse.Canonical s)
    (hD : Dense.Rep d P) (hS : Sparse.Rep s P) (hr : Sparse.bound s ≤ 2 ^ 31) :
    Dense.Degree d = Sparse.Degree s := by
  by_cases h0 : P = 0
  · rw [(Dense.Rep.eq_nil_iff_dense hd hD).2 h0, (Sparse.Rep.eq_nil_iff_sparse hs hS).2 h0]
    rfl
  · rw [Dense.Rep.degree_eq_dense hd hD h0, Sparse.Rep.degree_eq_sparse hs hS h0 hr]

/-- C11. Over a commutative ring, for every coefficient sequence `a` and every scalar `v`:
dense evaluation (running power) and sparse evaluation (`b_pow` per stored term) both return
the sum over `i` of `a[i] * v^i`, hence the same value; and `b_pow(v, e) == v^e` for every
`e >= 0`, `e = 0` included. -/
theorem dense_eval_eq_sparse_eval {T : Type} [CommRing T] [DecidableEq T]
    (a : List T) (v : T) :
    Dense.opCall (Dense.fromVector a) v = ∑ i in Finset.range a.length, a.getD i 0 * v ^ i ∧
    Sparse.opCall (Sparse.fromVector a) v
      = ∑ i in Finset.range a.length, a.getD i 0 * v ^ i ∧
    Dense.opCall (Dense.fromVector a) v = Sparse.opCall (Sparse.fromVector a) v ∧
    ∀ e : Nat, Sparse.b_pow v e = v ^ e := by
  refine ⟨Dense.opCall_fromVector a v, Sparse.opCall_fromVector_sparse a v, ?_,
    fun e => Sparse.b_pow_eq v e⟩
  rw [Dense.opCall_fromVector, Sparse.opCall_fromVector_sparse]

/-- C13 (as the code behaves). For canonical `p` and `q`, in the dense form, and in the sparse
form when every exponent of `p` and `q` is below `2^31`: `p == q` returns a boolean, which is
`true` exactly when `p[i] == q[i]` for every exponent `i`, equivalently when the degrees
match and every coefficient up to the degree matches; `p != q` returns its negation. -/
theorem eq_iff_all_coefficients_eq {T : Type} [CommRing T] [DecidableEq T]
    (p q : List T) (sp sq : List (Nat × T))
    (hp : Dense.Canonical p) (hq : Dense.Canonical q)
    (hsp : Sparse.Canonical sp) (hsq : Sparse.Canonical sq)
    (hspr : Sparse.bound sp ≤ 2 ^ 31) (hsqr : Sparse.bound sq ≤ 2 ^ 31) :
    (∃ b, Dense.opEq p q = some b ∧ Dense.opNe p q = some (!b) ∧
      (b = true ↔ ∀ i, Dense.opIndex p i = Dense.opIndex q i) ∧
      (b = true ↔ Dense.Degree p = Dense.Degree q ∧
        ∀ i : Nat, (i : Int) ≤ Dense.Degree p → Dense.opIndex p i = Dense.opIndex q i)) ∧
    (∃ b, Sparse.opEq sp sq = some b ∧ Sparse.opNe sp sq = some (!b) ∧
      (b = true ↔ ∀ i, Sparse.opIndex sp i = Sparse.opIndex sq i) ∧
      (b = true ↔ Sparse.Degree sp = Sparse.Degree sq ∧
        ∀ i : Nat, (i : Int) ≤ Sparse.Degree sp →
          Sparse.opIndex sp i = Sparse.opIndex sq i)) := by
  constructor
  · have h1 : (p = q) ↔ ∀ i, Dense.opIndex p i = Dense.opIndex q i := by
      constructor
      · intro h i; rw [h]
      · intro h
        exact Dense.canonical_ext_dense hp hq
          (fun i => by rw [← Dense.opIndex_eq_getD, ← Dense.opIndex_eq_getD]; exact h i)
    have h2 : (∀ i, Dense.opIndex p i = Dense.opIndex q i) ↔
        (Dense.Degree p = Dense.Degree q ∧
          ∀ i : Nat, (i : Int) ≤ Dense.Degree p → Dense.opIndex p i = Dense.opIndex q i) := by
      constructor
      · intro h
        have := h1.2 h
        subst this
        exact ⟨rfl, fun i _ => rfl⟩
      · rintro ⟨hd, h⟩ i
        unfold Dense.Degree at hd h
        by_cases hi : i < p.length
        · exact h i (by omega)
        · unfold Dense.opIndex
          rw [if_pos (by omega), if_pos (by omega)]
    refine ⟨decide (p = q), Dense.opEq_eq_decide p q, ?_, ?_, ?_⟩
    · unfold Dense.opNe; rw [Dense.opEq_eq_decide]; rfl
    · rw [decide_eq_true_iff]; exact h1
    · rw [decide_eq_true_iff]; exact h1.trans h2
  · have h1 : (sp = sq) ↔ ∀ i, Sparse.opIndex sp i = Sparse.opIndex sq i := by
      constructor
      · intro h i; rw [h]
      · intro h
        exact Sparse.canonical_ext_sparse hsp hsq h
    have h2 : (∀ i, Sparse.opIndex sp i = Sparse.opIndex sq i) ↔
        (Sparse.Degree sp = Sparse.Degree sq ∧
          ∀ i : Nat, (i : Int) ≤ Sparse.Degree sp →
            Sparse.opIndex sp i = Sparse.opIndex sq i) := by
      constructor
      · intro h
        have := h1.2 h
        subst this
        exact ⟨rfl, fun i _ => rfl⟩
      · rintro ⟨hd, h⟩ i
        rw [Sparse.degree_eq_bound sp hspr, Sparse.degree_eq_bound sq hsqr] at hd
        rw [Sparse.degree_eq_bound sp hspr] at h
        by_cases hi : i < Sparse.bound sp
        · exact h i (by omega)
        · show Sparse.get sp i = Sparse.get sq i
          rw [Sparse.get_eq_zero_of_bound_le hsp (by omega),
            Sparse.get_eq_zero_of_bound_le hsq (by omega)]
    refine ⟨decide (sp = sq), Sparse.opEq_eq_decide_sparse hsp.1 hsq.1 hspr hsqr, ?_, ?_, ?_⟩
    · unfold Sparse.opNe; rw [Sparse.opEq_eq_decide_sparse hsp.1 hsq.1 hspr hsqr]; rfl
    · rw [decide_eq_true_iff]; exact h1
    · rw [decide_eq_true_iff]; exact h1.trans h2

/-- Witness for C13 over the integers: `[1, 2]` against `[1, 3]`, and the sparse
`1 + 2x^3` against `1 + x + 2x^3` (same degree, different number of stored entries). -/
theorem eq_iff_all_coefficients_eq_witness :
    Dense.opEq ([1, 2] : List ℤ) [1, 3] = some false ∧
    Sparse.opEq ([(0, 1), (3, 2)] : List (Nat × ℤ)) [(0, 1), (1, 1), (3, 2)] = some false ∧
    Sparse.opEq ([(0, 1), (1, 1), (3, 2)] : List (Nat × ℤ)) [(0, 1), (3, 2)] = some false ∧
    ((∃ b, Dense.opEq ([1, 2] : List ℤ) [1, 3] = some b ∧
      Dense.opNe ([1, 2] : List ℤ) [1, 3] = some (!b) ∧
      (b = true ↔ ∀ i, Dense.opIndex ([1, 2] : List ℤ) i = Dense.opIndex [1, 3] i) ∧
      (b = true ↔ Dense.Degree ([1, 2] : List ℤ) = Dense.Degree ([1, 3] : List ℤ) ∧
        ∀ i : Nat, (i : Int) ≤ Dense.Degree ([1, 2] : List ℤ) →
          Dense.opIndex ([1, 2] : List ℤ) i = Dense.opIndex [1, 3] i)) ∧
    (∃ b, Sparse.opEq ([(0, 1), (1, 1), (3, 2)] : List (Nat × ℤ)) [(0, 1), (3, 2)] = some b ∧
      Sparse.opNe ([(0, 1), (1, 1), (3, 2)] : List (Nat × ℤ)) [(0, 1), (3, 2)] = some (!b) ∧
      (b = true ↔ ∀ i, Sparse.opIndex ([(0, 1), (1, 1), (3, 2)] : List (Nat × ℤ)) i
        = Sparse.opIndex [(0, 1), (3, 2)] i) ∧
      (b = true ↔ Sparse.Degree ([(0, 1), (1, 1), (3, 2)] : List (Nat × ℤ))
          = Sparse.Degree ([(0, 1), (3, 2)] : List (Nat × ℤ)) ∧
        ∀ i : Nat, (i : Int) ≤ Sparse.Degree ([(0, 1), (1, 1), (3, 2)] : List (Nat × ℤ)) →
          Sparse.opIndex ([(0, 1), (1, 1), (3, 2)] : List (Nat × ℤ)) i
            = Sparse.opIndex [(0, 1), (3, 2)] i))) :=
  ⟨by decide, by decide, by decide,
    eq_iff_all_coefficients_eq [1, 2] [1, 3] [(0, 1), (1, 1), (3, 2)] [(0, 1), (3, 2)]
      (by decide) (by decide) (by decide) (by decide) (by decide) (by decide)⟩

/-- Counterexample to C13 as stated: over the integers, in the sparse form, the canonical
`p = 1` and `q = 1 + x^(2^32)` have the same `Degree()` (the key `2^32` narrows to the `int`
`0`): `p == q` returns `true` although `p[2^32] = 0` and `q[2^32] = 1`, and `q == p` reads
past the last entry of `p` and returns no boolean. -/
theorem eq_iff_all_coefficients_eq_fails_beyond_int :
    Sparse.Canonical ([(0, 1)] : List (Nat × ℤ)) ∧
    Sparse.Canonical ([(0, 1), (2 ^ 32, 1)] : List (Nat × ℤ)) ∧
    Sparse.Degree ([(0, 1), (2 ^ 32, 1)] : List (Nat × ℤ)) = 0 ∧
    Sparse.opEq ([(0, 1)] : List (Nat × ℤ)) [(0, 1), (2 ^ 32, 1)] = some true ∧
    Sparse.opIndex ([(0, 1)] : List (Nat × ℤ)) (2 ^ 32) = 0 ∧
    Sparse.opIndex ([(0, 1), (2 ^ 32, 1)] : List (Nat × ℤ)) (2 ^ 32) = 1 ∧
    (¬ ∀ i, Sparse.opIndex ([(0, 1)] : List (Nat × ℤ)) i
      = Sparse.opIndex ([(0, 1), (2 ^ 32, 1)] : List (Nat × ℤ)) i) ∧
    Sparse.opEq ([(0, 1), (2 ^ 32, 1)] : List (Nat × ℤ)) [(0, 1)] = none := by
  refine ⟨by decide, by decide, by decide, by decide, by decide, by decide, ?_, by decide⟩
  intro h
  have := h (2 ^ 32)
  revert this
  decide

/-- C16. For every polynomial `p` and every exponent `i`, the coefficient access `p[i]` is a
total, side-effect free function of `p` and `i`: in the dense form it is the stored `p[i]`
when `i` is within the stored range and `T()` beyond it; in the sparse form it is the value
stored under key `i` when there is one and `T()` when there is none. -/
theorem coefficient_access_total {T : Type} [CommRing T] [DecidableEq T]
    (p : List T) (sp : List (Nat × T)) (i : Nat) (hsp : Sparse.Canonical sp) :
    ((∀ h : i < p.length, Dense.opIndex p i = p.get ⟨i, h⟩) ∧
      (p.length ≤ i → Dense.opIndex p i = 0)) ∧
    ((∀ v, Sparse.find sp i = some v → Sparse.opIndex sp i = v) ∧
      (Sparse.find sp i = none → Sparse.opIndex sp i = 0) ∧
      (∀ v, (i, v) ∈ sp → Sparse.opIndex sp i = v) ∧
      ((∀ e ∈ sp, e.1 ≠ i) → Sparse.opIndex sp i = 0)) := by
  refine ⟨⟨?_, ?_⟩, ⟨?_, ?_, ?_, ?_⟩⟩
  · intro h
    rw [Dense.opIndex_eq_getD, List.getD_eq_getElem _ _ h]; rfl
  · intro h
    unfold Dense.opIndex
    rw [if_pos h]
  · intro v h
    unfold Sparse.opIndex Sparse.get
    rw [h]
  · intro h
    unfold Sparse.opIndex Sparse.get
    rw [h]
  · intro v h
    exact Sparse.get_of_mem hsp.1 h
  · intro h
    exact Sparse.get_eq_zero_of_not_key h

/-- Witness for C16 over the integers: exponent `1` of `[4, 5]` and of the sparse
`4 + 6x^3`, which stores no entry for it. -/
theorem coefficient_access_total_witness :
    Dense.opIndex ([4, 5] : List ℤ) 1 = 5 ∧ Dense.opIndex ([4, 5] : List ℤ) 7 = 0 ∧
    Sparse.opIndex ([(0, 4), (3, 6)] : List (Nat × ℤ)) 3 = 6 ∧
    Sparse.opIndex ([(0, 4), (3, 6)] : List (Nat × ℤ)) 1 = 0 ∧
    (((∀ h : 1 < ([4, 5] : List ℤ).length,
        Dense.opIndex ([4, 5] : List ℤ) 1 = ([4, 5] : List ℤ).get ⟨1, h⟩) ∧
      (([4, 5] : List ℤ).length ≤ 1 → Dense.opIndex ([4, 5] : List ℤ) 1 = 0)) ∧
    ((∀ v, Sparse.find ([(0, 4), (3, 6)] : List (Nat × ℤ)) 1 = some v →
        Sparse.opIndex ([(0, 4), (3, 6)] : List (Nat × ℤ)) 1 = v) ∧
      (Sparse.find ([(0, 4), (3, 6)] : List (Nat × ℤ)) 1 = none →
        Sparse.opIndex ([(0, 4), (3, 6)] : List (Nat × ℤ)) 1 = 0) ∧
      (∀ v, (1, v) ∈ ([(0, 4), (3, 6)] : List (Nat × ℤ)) →
        Sparse.opIndex ([(0, 4), (3, 6)] : List (Nat × ℤ)) 1 = v) ∧
      ((∀ e ∈ ([(0, 4), (3, 6)] : List (Nat × ℤ)), e.1 ≠ 1) →
        Sparse.opIndex ([(0, 4), (3, 6)] : List (Nat × ℤ)) 1 = 0))) :=
  ⟨by decide, by decide, by decide, by decide,
    coefficient_access_total [4, 5] [(0, 4), (3, 6)] 1 (by decide)⟩

/-- C17 (as the code behaves). Over a field, for canonical `p` and nonzero canonical `q`, in
the dense form, and in the sparse form when every exponent of `p`, `q` and `cur` is below
`2^31`: `divStep` is the body of the loop of `operator/`; one iteration from a canonical `cur`
with `Degree(cur) >= Degree(q)` yields a canonical `cur` of strictly smaller degree; the loop
exits within `Degree(p) - Degree(q) + 1` iterations, and without any iteration when
`Degree(p) < Degree(q)`. -/
theorem division_loop_terminates {F : Type} [Field F] [DecidableEq F]
    (p q res cur : List F) (sp sq sres scur : List (Nat × F))
    (hp : Dense.Canonical p) (hq : Dense.Canonical q) (hq0 : q ≠ [])
    (hcur : Dense.Canonical cur) (hcond : Dense.Degree cur ≥ Dense.Degree q)
    (hsp : Sparse.Canonical sp) (hsq : Sparse.Canonical sq) (hsq0 : sq ≠ [])
    (hscur : Sparse.Canonical scur) (hscond : Sparse.Degree scur ≥ Sparse.Degree sq)
    (hspr : Sparse.bound sp ≤ 2 ^ 31) (hsqr : Sparse.bound sq ≤ 2 ^ 31)
    (hscr : Sparse.bound scur ≤ 2 ^ 31) :
    ((∀ fuel r c, Dense.divLoop (fun x y : F => x / y) (fuel + 1) r c q =
        if Dense.Degree c ≥ Dense.Degree q then
          Dense.divLoop (fun x y : F => x / y) fuel
            (Dense.divStep (fun x y : F => x / y) r c q).1
            (Dense.divStep (fun x y : F => x / y) r c q).2 q
        else some (r, c)) ∧
      (∀ r c, Dense.divLoop (fun x y : F => x / y) 0 r c q =
        if Dense.Degree c ≥ Dense.Degree q then none else some (r, c)) ∧
      Dense.Canonical (Dense.divStep (fun x y : F => x / y) res cur q).2 ∧
      Dense.Degree (Dense.divStep (fun x y : F => x / y) res cur q).2 < Dense.Degree cur ∧
      (∃ a r, Dense.divLoop (fun x y : F => x / y)
        (Dense.Degree p - Dense.Degree q + 1).toNat (Dense.fromScalar 0) p q = some (a, r)) ∧
      (Dense.Degree p < Dense.Degree q →
        Dense.divLoop (fun x y : F => x / y) 0 (Dense.fromScalar 0) p q
          = some (Dense.fromScalar 0, p))) ∧
    ((∀ fuel r c, Sparse.divLoop (fun x y : F => x / y) (fuel + 1) r c sq =
        if Sparse.Degree c ≥ Sparse.Degree sq then
          Sparse.divLoop (fun x y : F => x / y) fuel
            (Sparse.divStep (fun x y : F => x / y) r c sq).1
            (Sparse.divStep (fun x y : F => x / y) r c sq).2 sq
        else some (r, c)) ∧
      (∀ r c, Sparse.divLoop (fun x y : F => x / y) 0 r c sq =
        if Sparse.Degree c ≥ Sparse.Degree sq then none else some (r, c)) ∧
      Sparse.Canonical (Sparse.divStep (fun x y : F => x / y) sres scur sq).2 ∧
      Sparse.Degree (Sparse.divStep (fun x y : F => x / y) sres scur sq).2
        < Sparse.Degree scur ∧
      (∃ a r, Sparse.divLoop (fun x y : F => x / y)
        (Sparse.Degree sp - Sparse.Degree sq + 1).toNat (Sparse.fromScalar 0) sp sq
          = some (a, r)) ∧
      (Sparse.Degree sp < Sparse.Degree sq →
        Sparse.divLoop (fun x y : F => x / y) 0 (Sparse.fromScalar 0) sp sq
          = some (Sparse.fromScalar 0, sp))) := by
  constructor
  · obtain ⟨Q, hQ⟩ := Dense.rep_exists_dense q
    have hQ0 : Q ≠ 0 := fun h => hq0 ((Dense.Rep.eq_nil_iff_dense hq hQ).2 h)
    have hlc : Dense.opIndex q (toSizeT (Dense.Degree q)) ≠ 0 := by
      rw [Dense.Rep.lead_dense hq hQ]; exact Polynomial.leadingCoeff_ne_zero.2 hQ0
    obtain ⟨h1, h2⟩ := Dense.divStep_decreases_dense (fun x y : F => x / y) res
      hcur hq hq0 (field_dv _ hlc) hcond
    refine ⟨fun fuel r c => Dense.divLoop_succ_dense _ fuel r c q,
      fun r c => Dense.divLoop_zero_dense _ r c q, h1, h2, ?_, ?_⟩
    · obtain ⟨a, r, h, _⟩ := Dense.div_mod_field_dense hp hq hq0
        (Dense.Degree p - Dense.Degree q + 1).toNat (by unfold Dense.Degree; omega)
      exact ⟨a, r, h⟩
    · intro hlt
      rw [Dense.divLoop_zero_dense, if_neg (by omega)]
  · obtain ⟨Q, hQ⟩ := Sparse.rep_exists_sparse hsq.1
    have hQ0 : Q ≠ 0 := fun h => hsq0 ((Sparse.Rep.eq_nil_iff_sparse hsq hQ).2 h)
    have hlc : Sparse.opIndex sq (toSizeT (Sparse.Degree sq)) ≠ 0 := by
      rw [Sparse.Rep.lead_sparse hsq hQ hsqr]; exact Polynomial.leadingCoeff_ne_zero.2 hQ0
    obtain ⟨h1, h2, _⟩ := Sparse.divStep_decreases_sparse (fun x y : F => x / y) sres
      hscur hsq hsq0 hscr hsqr (field_dv _ hlc) hscond
    refine ⟨fun fuel r c => Sparse.divLoop_succ_sparse _ fuel r c sq,
      fun r c => Sparse.divLoop_zero_sparse _ r c sq, h1, h2, ?_, ?_⟩
    · obtain ⟨a, r, h, _⟩ := Sparse.div_mod_field_sparse hsp hsq hsq0 hspr hsqr
        (Sparse.Degree sp - Sparse.Degree sq + 1).toNat
        (by rw [Sparse.degree_eq_bound sp hspr, Sparse.degree_eq_bound sq hsqr]; omega)
      exact ⟨a, r, h⟩
    · intro hlt
      rw [Sparse.divLoop_zero_sparse, if_neg (by omega)]

/-- Witness for C17 over the rationals: `p = cur = x^2 - 1`, `q = x - 1`; the first iteration
leaves `cur = x - 1`, and two iterations finish the division. -/
theorem division_loop_terminates_witness :
    (Dense.divStep (fun x y : ℚ => x / y) [] [-1, 0, 1] [-1, 1]).2 = [-1, 1] ∧
    Dense.divLoop (fun x y : ℚ => x / y) 2 (Dense.fromScalar 0) [-1, 0, 1] [-1, 1]
      = some ([1, 1], []) ∧
    Dense.divLoop (fun x y : ℚ => x / y) 1 (Dense.fromScalar 0) [-1, 0, 1] [-1, 1] = none ∧
    (((∀ fuel r c, Dense.divLoop (fun x y : ℚ => x / y) (fuel + 1) r c [-1, 1] =
        if Dense.Degree c ≥ Dense.Degree ([-1, 1] : List ℚ) then
          Dense.divLoop (fun x y : ℚ => x / y) fuel
            (Dense.divStep (fun x y : ℚ => x / y) r c [-1, 1]).1
            (Dense.divStep (fun x y : ℚ => x / y) r c [-1, 1]).2 [-1, 1]
        else some (r, c)) ∧
      (∀ r c, Dense.divLoop (fun x y : ℚ => x / y) 0 r c [-1, 1] =
        if Dense.Degree c ≥ Dense.Degree ([-1, 1] : List ℚ) then none else some (r, c)) ∧
      Dense.Canonical (Dense.divStep (fun x y : ℚ => x / y) [] [-1, 0, 1] [-1, 1]).2 ∧
      Dense.Degree (Dense.divStep (fun x y : ℚ => x / y) [] [-1, 0, 1] [-1, 1]).2
        < Dense.Degree ([-1, 0, 1] : List ℚ) ∧
      (∃ a r, Dense.divLoop (fun x y : ℚ => x / y)
        (Dense.Degree ([-1, 0, 1] : List ℚ) - Dense.Degree ([-1, 1] : List ℚ) + 1).toNat
        (Dense.fromScalar 0) [-1, 0, 1] [-1, 1] = some (a, r)) ∧
      (Dense.Degree ([-1, 0, 1] : List ℚ) < Dense.Degree ([-1, 1] : List ℚ) →
        Dense.divLoop (fun x y : ℚ => x / y) 0 (Dense.fromScalar 0) [-1, 0, 1] [-1, 1]
          = some (Dense.fromScalar 0, [-1, 0, 1]))) ∧
    ((∀ fuel r c, Sparse.divLoop (fun x y : ℚ => x / y) (fuel + 1) r c [(0, -1), (1, 1)] =
        if Sparse.Degree c ≥ Sparse.Degree ([(0, -1), (1, 1)] : List (Nat × ℚ)) then
          Sparse.divLoop (fun x y : ℚ => x / y) fuel
            (Sparse.divStep (fun x y : ℚ => x / y) r c [(0, -1), (1, 1)]).1
            (Sparse.divStep (fun x y : ℚ => x / y) r c [(0, -1), (1, 1)]).2
            [(0, -1), (1, 1)]
        else some (r, c)) ∧
      (∀ r c, Sparse.divLoop (fun x y : ℚ => x / y) 0 r c [(0, -1), (1, 1)] =
        if Sparse.Degree c ≥ Sparse.Degree ([(0, -1), (1, 1)] : List (Nat × ℚ)) then none
        else some (r, c)) ∧
      Sparse.Canonical (Sparse.divStep (fun x y : ℚ => x / y) [] [(0, -1), (2, 1)]
        [(0, -1), (1, 1)]).2 ∧
      Sparse.Degree (Sparse.divStep (fun x y : ℚ => x / y) [] [(0, -1), (2, 1)]
        [(0, -1), (1, 1)]).2 < Sparse.Degree ([(0, -1), (2, 1)] : List (Nat × ℚ)) ∧
      (∃ a r, Sparse.divLoop (fun x y : ℚ => x / y)
        (Sparse.Degree ([(0, -1), (2, 1)] : List (Nat × ℚ))
          - Sparse.Degree ([(0, -1), (1, 1)] : List (Nat × ℚ)) + 1).toNat
        (Sparse.fromScalar 0) [(0, -1), (2, 1)] [(0, -1), (1, 1)] = some (a, r)) ∧
      (Sparse.Degree ([(0, -1), (2, 1)] : List (Nat × ℚ))
          < Sparse.Degree ([(0, -1), (1, 1)] : List (Nat × ℚ)) →
        Sparse.divLoop (fun x y : ℚ => x / y) 0 (Sparse.fromScalar 0) [(0, -1), (2, 1)]
          [(0, -1), (1, 1)] = some (Sparse.fromScalar 0, [(0, -1), (2, 1)])))) :=
  ⟨by decide!, by decide!, by decide!,
    division_loop_terminates [-1, 0, 1] [-1, 1] [] [-1, 0, 1]
      [(0, -1), (2, 1)] [(0, -1), (1, 1)] [] [(0, -1), (2, 1)]
      (by decide) (by decide) (by decide) (by decide) (by decide)
      (by decide) (by decide) (by decide) (by decide) (by decide)
      (by decide) (by decide) (by decide)⟩

/-- Counterexample to C17 as stated: over the rationals, in the sparse form, for the canonical
`p = cur = x^(2^32)` and the nonzero `q = 1` the loop condition holds (`Degree(cur)` is the
`int` `0`), one iteration leaves `cur` unchanged, so its degree does not decrease, and the
loop does not exit within any number of iterations. -/
theorem division_loop_terminates_fails_beyond_int :
    Sparse.Canonical ([(2 ^ 32, 1)] : List (Nat × ℚ)) ∧
    Sparse.Canonical ([(0, 1)] : List (Nat × ℚ)) ∧
    ([(0, 1)] : List (Nat × ℚ)) ≠ [] ∧
    Sparse.Degree ([(2 ^ 32, 1)] : List (Nat × ℚ))
      ≥ Sparse.Degree ([(0, 1)] : List (Nat × ℚ)) ∧
    (Sparse.divStep (fun x y : ℚ => x / y) [] [(2 ^ 32, 1)] [(0, 1)]).2 = [(2 ^ 32, 1)] ∧
    (¬ Sparse.Degree (Sparse.divStep (fun x y : ℚ => x / y) [] [(2 ^ 32, 1)] [(0, 1)]).2
      < Sparse.Degree ([(2 ^ 32, 1)] : List (Nat × ℚ))) ∧
    (¬ ∃ fuel x, Sparse.divLoop (fun x y : ℚ => x / y) fuel (Sparse.fromScalar 0)
      [(2 ^ 32, 1)] [(0, 1)] = some x) := by
  have hs := sparse_wrap_div_step (fun x y : ℚ => x / y) (by norm_num) []
  refine ⟨by decide, by decide, by decide, by decide, hs, ?_, ?_⟩
  · rw [hs]; exact lt_irrefl _
  · rintro ⟨fuel, x, hx⟩
    rw [sparse_wrap_div_loops (fun x y : ℚ => x / y) (by norm_num)] at hx
    cases hx

/-- Truncating integer division by `1` or `-1` is exact. -/
theorem int_unit_dv (b : ℤ) (hb : b = 1 ∨ b = -1) : ∀ a, b * Int.tdiv a b = a := by
  intro a
  rcases hb with h | h
  · rw [h, Int.tdiv_one, one_mul]
  · rw [h, Int.tdiv_neg, Int.tdiv_one]; ring

/-- With integer coefficients the dense loop of `[0, 1] / [0, 2]` never exits: `1 / 2`
truncates to `0` and `cur` stays `[0, 1]`. -/
theorem dense_int_half_loops :
    ∀ (fuel : Nat) (res : List ℤ), Dense.divLoop Int.tdiv fuel res [0, 1] [0, 2] = none := by
  intro fuel
  induction fuel with
  | zero =>
    intro res
    rw [Dense.divLoop_zero_dense, if_pos (by decide)]
  | succ fuel ih =>
    intro res
    rw [Dense.divLoop_succ_dense, if_pos (by decide), Dense.divStep_snd_dense]
    have : Dense.opSubAssign ([0, 1] : List ℤ) (Dense.opMul [0, 2] (Dense.fromVector
        ((List.replicate (toSizeT (Dense.Degree ([0, 1] : List ℤ)
            - Dense.Degree ([0, 2] : List ℤ)) + 1) (0 : ℤ)).set
          ((List.replicate (toSizeT (Dense.Degree ([0, 1] : List ℤ)
            - Dense.Degree ([0, 2] : List ℤ)) + 1) (0 : ℤ)).length - 1)
          (Int.tdiv (Dense.opIndex ([0, 1] : List ℤ) (toSizeT (Dense.Degree ([0, 1] : List ℤ))))
            (Dense.opIndex ([0, 2] : List ℤ) (toSizeT (Dense.Degree ([0, 2] : List ℤ))))))))
        = [0, 1] := by decide
    rw [this]
    exact ih _

/-- With integer coefficients the sparse loop of `x / 2x` never exits. -/
theorem sparse_int_half_loops :
    ∀ (fuel : Nat) (res : List (Nat × ℤ)),
      Sparse.divLoop Int.tdiv fuel res [(1, 1)] [(1, 2)] = none := by
  intro fuel
  induction fuel with
  | zero =>
    intro res
    rw [Sparse.divLoop_zero_sparse, if_pos (by decide)]
  | succ fuel ih =>
    intro res
    rw [Sparse.divLoop_succ_sparse, if_pos (by decide), Sparse.divStep_snd_sparse]
    have : Sparse.opSubAssign ([(1, 1)] : List (Nat × ℤ)) (Sparse.opMul [(1, 2)]
        (Sparse.set (Sparse.fromScalar 0)
          (toSizeT (Sparse.Degree ([(1, 1)] : List (Nat × ℤ))
            - Sparse.Degree ([(1, 2)] : List (Nat × ℤ))))
          (Int.tdiv (Sparse.opIndex ([(1, 1)] : List (Nat × ℤ))
              (toSizeT (Sparse.Degree ([(1, 1)] : List (Nat × ℤ)))))
            (Sparse.opIndex ([(1, 2)] : List (Nat × ℤ))
              (toSizeT (Sparse.Degree ([(1, 2)] : List (Nat × ℤ)))))))) = [(1, 1)] := by
      decide
    rw [this]
    exact ih _

/-- Counterexample to C18 as stated: with integer coefficients and `p = [0, 1]`,
`q = [0, 2]`, one iteration leaves the remainder `[0, 1]` unchanged (`1 / 2` truncates to
`0`), so its degree does not decrease, and `p / q` has no result for any number of
iterations; the same in the sparse form. -/
theorem int_division_does_not_terminate :
    (Dense.divStep Int.tdiv [] ([0, 1] : List ℤ) [0, 2]).2 = [0, 1] ∧
    (¬ Dense.Degree (Dense.divStep Int.tdiv [] ([0, 1] : List ℤ) [0, 2]).2
      < Dense.Degree ([0, 1] : List ℤ)) ∧
    (¬ ∃ fuel r, Dense.opDiv Int.tdiv fuel ([0, 1] : List ℤ) [0, 2] = some r) ∧
    (Sparse.divStep Int.tdiv [] ([(1, 1)] : List (Nat × ℤ)) [(1, 2)]).2 = [(1, 1)] ∧
    (¬ Sparse.Degree (Sparse.divStep Int.tdiv [] ([(1, 1)] : List (Nat × ℤ)) [(1, 2)]).2
      < Sparse.Degree ([(1, 1)] : List (Nat × ℤ))) ∧
    (¬ ∃ fuel r, Sparse.opDiv Int.tdiv fuel ([(1, 1)] : List (Nat × ℤ)) [(1, 2)] = some r) := by
  refine ⟨by decide, by decide, ?_, by decide, by decide, ?_⟩
  · rintro ⟨fuel, r, h⟩
    unfold Dense.opDiv at h
    rw [dense_int_half_loops] at h
    cases h
  · rintro ⟨fuel, r, h⟩
    unfold Sparse.opDiv at h
    rw [sparse_int_half_loops] at h
    cases h

/-- C18 (as the code behaves). With integer coefficients and truncating division, for
canonical `p` and a nonzero canonical `q` whose leading coefficient is `1` or `-1`, in the
dense form, and in the sparse form when every exponent of `p`, `q` and `cur` is below `2^31`:
one iteration from a canonical `cur` with `Degree(cur) >= Degree(q)` strictly lowers
`Degree(cur)`, and the loop of `operator/` exits within `Degree(p) - Degree(q) + 1`
iterations. -/
theorem int_division_terminates_unit_lead
    (p q res cur : List ℤ) (sp sq sres scur : List (Nat × ℤ))
    (hp : Dense.Canonical p) (hq : Dense.Canonical q) (hq0 : q ≠ [])
    (hlead : Dense.opIndex q (toSizeT (Dense.Degree q)) = 1 ∨
      Dense.opIndex q (toSizeT (Dense.Degree q)) = -1)
    (hcur : Dense.Canonical cur) (hcond : Dense.Degree cur ≥ Dense.Degree q)
    (hsp : Sparse.Canonical sp) (hsq : Sparse.Canonical sq) (hsq0 : sq ≠ [])
    (hslead : Sparse.opIndex sq (toSizeT (Sparse.Degree sq)) = 1 ∨
      Sparse.opIndex sq (toSizeT (Sparse.Degree sq)) = -1)
    (hscur : Sparse.Canonical scur) (hscond : Sparse.Degree scur ≥ Sparse.Degree sq)
    (hspr : Sparse.bound sp ≤ 2 ^ 31) (hsqr : Sparse.bound sq ≤ 2 ^ 31)
    (hscr : Sparse.bound scur ≤ 2 ^ 31) :
    (Dense.Canonical (Dense.divStep Int.tdiv res cur q).2 ∧
      Dense.Degree (Dense.divStep Int.tdiv res cur q).2 < Dense.Degree cur ∧
      (∃ a r, Dense.divLoop Int.tdiv (Dense.Degree p - Dense.Degree q + 1).toNat
        (Dense.fromScalar 0) p q = some (a, r) ∧
        Dense.opDiv Int.tdiv (Dense.Degree p - Dense.Degree q + 1).toNat p q = some a)) ∧
    (Sparse.Canonical (Sparse.divStep Int.tdiv sres scur sq).2 ∧
      Sparse.Degree (Sparse.divStep Int.tdiv sres scur sq).2 < Sparse.Degree scur ∧
      (∃ a r, Sparse.divLoop Int.tdiv (Sparse.Degree sp - Sparse.Degree sq + 1).toNat
        (Sparse.fromScalar 0) sp sq = some (a, r) ∧
        Sparse.opDiv Int.tdiv (Sparse.Degree sp - Sparse.Degree sq + 1).toNat sp sq
          = some a)) := by
  constructor
  · obtain ⟨h1, h2⟩ := Dense.divStep_decreases_dense Int.tdiv res
      hcur hq hq0 (int_unit_dv _ hlead) hcond
    refine ⟨h1, h2, ?_⟩
    obtain ⟨P, hP⟩ := Dense.rep_exists_dense p
    obtain ⟨Q, hQ⟩ := Dense.rep_exists_dense q
    have hQ0 : Q ≠ 0 := fun h => hq0 ((Dense.Rep.eq_nil_iff_dense hq hQ).2 h)
    rw [Dense.Rep.lead_dense hq hQ] at hlead
    obtain ⟨a, r, _, h3, h4, _⟩ := Dense.div_mod_spec_dense Int.tdiv hp hq hP hQ hQ0
      (int_unit_dv _ hlead) (Dense.Degree p - Dense.Degree q + 1).toNat
      (by unfold Dense.Degree; omega)
    exact ⟨a, r, h3, h4⟩
  · obtain ⟨h1, h2, _⟩ := Sparse.divStep_decreases_sparse Int.tdiv sres
      hscur hsq hsq0 hscr hsqr (int_unit_dv _ hslead) hscond
    refine ⟨h1, h2, ?_⟩
    obtain ⟨P, hP⟩ := Sparse.rep_exists_sparse hsp.1
    obtain ⟨Q, hQ⟩ := Sparse.rep_exists_sparse hsq.1
    have hQ0 : Q ≠ 0 := fun h => hsq0 ((Sparse.Rep.eq_nil_iff_sparse hsq hQ).2 h)
    rw [Sparse.Rep.lead_sparse hsq hQ hsqr] at hslead
    obtain ⟨a, r, _, h3, h4, _⟩ := Sparse.div_mod_spec_sparse Int.tdiv hsp hsq hP hQ hQ0
      (int_unit_dv _ hslead) hspr hsqr (Sparse.Degree sp - Sparse.Degree sq + 1).toNat
      (by rw [Sparse.degree_eq_bound sp hspr, Sparse.degree_eq_bound sq hsqr]; omega)
    exact ⟨a, r, h3, h4⟩

/-- Witness for C18 as amended: `p = cur = 3x^2 + 1` divided by `q = 2 - x` (leading
coefficient `-1`) over the integers. -/
theorem int_division_terminates_unit_lead_witness :
    Dense.opDiv Int.tdiv 2 ([1, 0, 3] : List ℤ) [2, -1] = some [-6, -3] ∧
    Sparse.opDiv Int.tdiv 2 ([(0, 1), (2, 3)] : List (Nat × ℤ)) [(0, 2), (1, -1)]
      = some [(0, -6), (1, -3)] ∧
    ((Dense.Canonical (Dense.divStep Int.tdiv [] ([1, 0, 3] : List ℤ) [2, -1]).2 ∧
      Dense.Degree (Dense.divStep Int.tdiv [] ([1, 0, 3] : List ℤ) [2, -1]).2
        < Dense.Degree ([1, 0, 3] : List ℤ) ∧
      (∃ a r, Dense.divLoop Int.tdiv
        (Dense.Degree ([1, 0, 3] : List ℤ) - Dense.Degree ([2, -1] : List ℤ) + 1).toNat
        (Dense.fromScalar 0) [1, 0, 3] [2, -1] = some (a, r) ∧
        Dense.opDiv Int.tdiv
          (Dense.Degree ([1, 0, 3] : List ℤ) - Dense.Degree ([2, -1] : List ℤ) + 1).toNat
          [1, 0, 3] [2, -1] = some a)) ∧
    (Sparse.Canonical (Sparse.divStep Int.tdiv [] ([(0, 1), (2, 3)] : List (Nat × ℤ))
        [(0, 2), (1, -1)]).2 ∧
      Sparse.Degree (Sparse.divStep Int.tdiv [] ([(0, 1), (2, 3)] : List (Nat × ℤ))
        [(0, 2), (1, -1)]).2 < Sparse.Degree ([(0, 1), (2, 3)] : List (Nat × ℤ)) ∧
      (∃ a r, Sparse.divLoop Int.tdiv
        (Sparse.Degree ([(0, 1), (2, 3)] : List (Nat × ℤ))
          - Sparse.Degree ([(0, 2), (1, -1)] : List (Nat × ℤ)) + 1).toNat
        (Sparse.fromScalar 0) [(0, 1), (2, 3)] [(0, 2), (1, -1)] = some (a, r) ∧
        Sparse.opDiv Int.tdiv
          (Sparse.Degree ([(0, 1), (2, 3)] : List (Nat × ℤ))
            - Sparse.Degree ([(0, 2), (1, -1)] : List (Nat × ℤ)) + 1).toNat
          [(0, 1), (2, 3)] [(0, 2), (1, -1)] = some a))) :=
  ⟨by decide, by decide,
    int_division_terminates_unit_lead [1, 0, 3] [2, -1] [] [1, 0, 3]
      [(0, 1), (2, 3)] [(0, 2), (1, -1)] [] [(0, 1), (2, 3)]
      (by decide) (by decide) (by decide) (Or.inr (by decide)) (by decide) (by decide)
      (by decide) (by decide) (by decide) (Or.inr (by decide)) (by decide) (by decide)
      (by decide) (by decide) (by decide)⟩

/-- C19 (as the code behaves). Over a commutative ring, in the dense form, and in the sparse
form when no sum of two exponents of the factors reaches `2^64`: `(p * q)[k]` is the
convolution sum of `p[i] * q[k - i]` over `0 <= i <= k`; `p * 0 == 0` and `0 * p == 0`; and
`p *= p` has the coefficients of the square of `p`. -/
theorem mul_is_convolution {T : Type} [CommRing T] [DecidableEq T]
    (p q : List T) (sp sq : List (Nat × T))
    (hsp : Sparse.Canonical sp) (hsq : Sparse.Canonical sq)
    (hw : Sparse.NoWrap sp sq) (hww : Sparse.NoWrap sp sp) :
    ((∀ k, Dense.opIndex (Dense.opMul p q) k =
        ∑ i in Finset.range (k + 1), Dense.opIndex p i * Dense.opIndex q (k - i)) ∧
      Dense.opEq (Dense.opMul p (Dense.fromScalar 0)) (Dense.fromScalar 0) = some true ∧
      Dense.opEq (Dense.opMul (Dense.fromScalar 0) p) (Dense.fromScalar 0) = some true ∧
      (∀ k, Dense.opIndex (Dense.opMulAssign p p) k =
        ∑ i in Finset.range (k + 1), Dense.opIndex p i * Dense.opIndex p (k - i))) ∧
    ((∀ k, Sparse.opIndex (Sparse.opMul sp sq) k =
        ∑ i in Finset.range (k + 1), Sparse.opIndex sp i * Sparse.opIndex sq (k - i)) ∧
      Sparse.opEq (Sparse.opMul sp (Sparse.fromScalar 0)) (Sparse.fromScalar 0) = some true ∧
      Sparse.opEq (Sparse.opMul (Sparse.fromScalar 0) sp) (Sparse.fromScalar 0) = some true ∧
      (∀ k, Sparse.opIndex (Sparse.opMulAssign sp sp) k =
        ∑ i in Finset.range (k + 1), Sparse.opIndex sp i * Sparse.opIndex sp (k - i))) := by
  have dconv : ∀ (a b : List T) k, Dense.opIndex (Dense.opMulAssign a b) k =
      ∑ i in Finset.range (k + 1), Dense.opIndex a i * Dense.opIndex b (k - i) := by
    intro a b k
    rw [Dense.opIndex_eq_getD, Dense.getD_opMulAssign]
    apply Finset.sum_congr rfl
    intro i _
    rw [Dense.opIndex_eq_getD, Dense.opIndex_eq_getD]
  have sconv : ∀ (a b : List (Nat × T)), Sparse.Sorted a → Sparse.Sorted b →
      Sparse.NoWrap a b → ∀ k,
      Sparse.opIndex (Sparse.opMulAssign a b) k =
      ∑ i in Finset.range (k + 1), Sparse.opIndex a i * Sparse.opIndex b (k - i) := by
    intro a b ha hb hab k
    obtain ⟨A, hA⟩ := Sparse.rep_exists_sparse ha
    obtain ⟨B, hB⟩ := Sparse.rep_exists_sparse hb
    rw [← Sparse.Rep.mul_sparse ha hb hab hA hB k, Polynomial.coeff_mul,
      Finset.Nat.sum_antidiagonal_eq_sum_range_succ_mk]
    apply Finset.sum_congr rfl
    intro i _
    rw [hA i, hB (k - i)]
  obtain ⟨P, hP⟩ := Dense.rep_exists_dense p
  obtain ⟨SP, hSP⟩ := Sparse.rep_exists_sparse hsp.1
  have d1 : Dense.opMul p (Dense.fromScalar 0) = [] := by
    apply (Dense.Rep.eq_nil_iff_dense (Dense.canonical_opMulAssign_dense _ _)
      (Dense.Rep.mul_dense hP (Dense.rep_fromScalar_dense 0))).2
    simp
  have d2 : Dense.opMul (Dense.fromScalar 0) p = [] := by
    apply (Dense.Rep.eq_nil_iff_dense (Dense.canonical_opMulAssign_dense _ _)
      (Dense.Rep.mul_dense (Dense.rep_fromScalar_dense 0) hP)).2
    simp
  have s1 : Sparse.opMul sp (Sparse.fromScalar 0) = [] :=
    Sparse.opMul_nil_sparse _ _ (Or.inr Sparse.fromScalar_zero_sparse)
  have s2 : Sparse.opMul (Sparse.fromScalar 0) sp = [] :=
    Sparse.opMul_nil_sparse _ _ (Or.inl Sparse.fromScalar_zero_sparse)
  refine ⟨⟨dconv p q, ?_, ?_, dconv p p⟩, ⟨sconv sp sq hsp.1 hsq.1 hw, ?_, ?_,
    sconv sp sp hsp.1 hsp.1 hww⟩⟩
  · rw [d1, Dense.fromScalar_zero_dense]; exact Dense.opEq_self_dense _
  · rw [d2, Dense.fromScalar_zero_dense]; exact Dense.opEq_self_dense _
  · rw [s1, Sparse.fromScalar_zero_sparse]; exact Sparse.opEq_self_sparse _
  · rw [s2, Sparse.fromScalar_zero_sparse]; exact Sparse.opEq_self_sparse _

/-- Witness for C19 over the integers: `(1 + 2x + 3x^2) * (1 + x) = 1 + 3x + 5x^2 + 3x^3`
and `(1 + x)^2 = 1 + 2x + x^2` by `p *= p`. -/
theorem mul_is_convolution_witness :
    Dense.opMul ([1, 2, 3] : List ℤ) [1, 1] = [1, 3, 5, 3] ∧
    Sparse.opMul ([(0, 1), (1, 2), (2, 3)] : List (Nat × ℤ)) [(0, 1), (1, 1)]
      = [(0, 1), (1, 3), (2, 5), (3, 3)] ∧
    Dense.opMulAssign ([1, 1] : List ℤ) [1, 1] = [1, 2, 1] ∧
    (((∀ k, Dense.opIndex (Dense.opMul ([1, 2, 3] : List ℤ) [1, 1]) k =
        ∑ i in Finset.range (k + 1),
          Dense.opIndex ([1, 2, 3] : List ℤ) i * Dense.opIndex ([1, 1] : List ℤ) (k - i)) ∧
      Dense.opEq (Dense.opMul ([1, 2, 3] : List ℤ) (Dense.fromScalar 0)) (Dense.fromScalar 0)
        = some true ∧
      Dense.opEq (Dense.opMul (Dense.fromScalar 0) ([1, 2, 3] : List ℤ)) (Dense.fromScalar 0)
        = some true ∧
      (∀ k, Dense.opIndex (Dense.opMulAssign ([1, 2, 3] : List ℤ) [1, 2, 3]) k =
        ∑ i in Finset.range (k + 1),
          Dense.opIndex ([1, 2, 3] : List ℤ) i * Dense.opIndex ([1, 2, 3] : List ℤ) (k - i))) ∧
    ((∀ k, Sparse.opIndex (Sparse.opMul ([(0, 1), (1, 2), (2, 3)] : List (Nat × ℤ))
          [(0, 1), (1, 1)]) k =
        ∑ i in Finset.range (k + 1),
          Sparse.opIndex ([(0, 1), (1, 2), (2, 3)] : List (Nat × ℤ)) i
            * Sparse.opIndex ([(0, 1), (1, 1)] : List (Nat × ℤ)) (k - i)) ∧
      Sparse.opEq (Sparse.opMul ([(0, 1), (1, 2), (2, 3)] : List (Nat × ℤ))
        (Sparse.fromScalar 0)) (Sparse.fromScalar 0) = some true ∧
      Sparse.opEq (Sparse.opMul (Sparse.fromScalar 0)
        ([(0, 1), (1, 2), (2, 3)] : List (Nat × ℤ))) (Sparse.fromScalar 0) = some true ∧
      (∀ k, Sparse.opIndex (Sparse.opMulAssign ([(0, 1), (1, 2), (2, 3)] : List (Nat × ℤ))
          [(0, 1), (1, 2), (2, 3)]) k =
        ∑ i in Finset.range (k + 1),
          Sparse.opIndex ([(0, 1), (1, 2), (2, 3)] : List (Nat × ℤ)) i
            * Sparse.opIndex ([(0, 1), (1, 2), (2, 3)] : List (Nat × ℤ)) (k - i)))) :=
  ⟨by decide, by decide, by decide,
    mul_is_convolution [1, 2, 3] [1, 1] [(0, 1), (1, 2), (2, 3)] [(0, 1), (1, 1)]
      (by decide) (by decide) (by decide) (by decide)⟩

/-- Counterexample to C19 as stated: over the integers, in the sparse form, for the canonical
`p = q = x^(2^63)` the key `2^63 + 2^63` of the only product term wraps to `0`, so
`(p * q)[0] = 1`, while the convolution sum at `k = 0` is `p[0] * q[0] = 0`. -/
theorem mul_is_convolution_fails_on_key_wrap :
    Sparse.Canonical ([(2 ^ 63, 1)] : List (Nat × ℤ)) ∧
    Sparse.opIndex (Sparse.opMul ([(2 ^ 63, 1)] : List (Nat × ℤ)) [(2 ^ 63, 1)]) 0 = 1 ∧
    (∑ i in Finset.range (0 + 1), Sparse.opIndex ([(2 ^ 63, 1)] : List (Nat × ℤ)) i
      * Sparse.opIndex ([(2 ^ 63, 1)] : List (Nat × ℤ)) (0 - i)) = 0 ∧
    Sparse.opIndex (Sparse.opMul ([(2 ^ 63, 1)] : List (Nat × ℤ)) [(2 ^ 63, 1)]) 0 ≠
      ∑ i in Finset.range (0 + 1), Sparse.opIndex ([(2 ^ 63, 1)] : List (Nat × ℤ)) i
        * Sparse.opIndex ([(2 ^ 63, 1)] : List (Nat × ℤ)) (0 - i) := by
  have h1 : Sparse.opIndex (Sparse.opMul ([(2 ^ 63, 1)] : List (Nat × ℤ)) [(2 ^ 63, 1)]) 0
      = 1 := by
    rw [sparse_wrap_square]; decide
  have h2 : (∑ i in Finset.range (0 + 1), Sparse.opIndex ([(2 ^ 63, 1)] : List (Nat × ℤ)) i
      * Sparse.opIndex ([(2 ^ 63, 1)] : List (Nat × ℤ)) (0 - i)) = 0 := by
    rw [Finset.sum_range_one]; decide
  refine ⟨by decide, h1, h2, ?_⟩
  rw [h1, h2]
  exact one_ne_zero

/-- C20. The double loop of the dense `operator*=` never leaves its buffer: for operands with
`n` and `m` stored coefficients every index `i + j` it accesses (`i < n`, `j < m`) is below the
buffer length `n * m`; when `n` or `m` is `0` it accesses no index; and the loop with every
access checked against the buffer completes with the writes of `operator*=`. -/
theorem dense_mul_stays_in_buffer {T : Type} [CommRing T] [DecidableEq T]
    (p other : List T) :
    (∀ i j, i < p.length → j < other.length → i + j < Dense.new_size p other) ∧
    (∀ k ∈ Dense.mulWrites p other, k < Dense.new_size p other) ∧
    (p.length = 0 ∨ other.length = 0 → Dense.mulWrites p other = []) ∧
    Dense.mulLoopChecked p other (List.replicate (Dense.new_size p other) 0) =
      some (Dense.mulLoop p other (List.replicate (Dense.new_size p other) 0)) ∧
    Dense.opMulAssign p other =
      Dense.cut (Dense.mulLoop p other (List.replicate (Dense.new_size p other) 0)) := by
  refine ⟨Dense.index_lt_new_size p other, ?_, ?_, Dense.mulLoopChecked_eq p other, rfl⟩
  · intro k hk
    obtain ⟨i, hi, j, hj, hij⟩ := (Dense.mem_mulWrites p other k).1 hk
    rw [← hij]
    exact Dense.index_lt_new_size p other i j hi hj
  · intro h
    apply List.eq_nil_iff_forall_not_mem.2
    intro k hk
    obtain ⟨i, hi, j, hj, _⟩ := (Dense.mem_mulWrites p other k).1 hk
    omega

/-- C15 (as the code behaves). For integer coefficients, the text written by `operator<<` is
the canonical form, for a well-formed dense polynomial `d` and a well-formed sparse
polynomial `s` whose exponents are below `2^31`: the zero
polynomial renders as `0`; a polynomial of degree 0 renders as its coefficient; otherwise the
output is the concatenation, over the exponents `e` from `Degree()` down to 0 whose
coefficient `c` is not zero, of `+` if the term is not the first and `c > 0`, then for
`e >= 1` nothing if `c == 1`, `-` if `c == -1`, else `c` followed by `*`, then `x`, then `^e`
if `e > 1`, and for `e == 0` just `c` (`canonicalTextSpec`).  The dense and the sparse form
of one polynomial produce the same text, in particular when both are built from the same
coefficient sequence held in memory (at most `2^31` entries), and `[2, 3, 3]` renders as
`3*x^2+3*x+2` in both. -/
theorem print_is_canonical_text (d : List ℤ) (s : List (Nat × ℤ))
    (hd : Dense.Canonical d) (hs : Sparse.Canonical s) (hsr : Sparse.bound s ≤ 2 ^ 31) :
    Dense.print (fun c : ℤ => toString c) d
        = canonicalTextSpec (Dense.opIndex d) (Dense.Degree d) ∧
      Sparse.print (fun c : ℤ => toString c) s
        = canonicalTextSpec (Sparse.opIndex s) (Sparse.Degree s) ∧
      ((∀ i, Dense.opIndex d i = Sparse.opIndex s i) →
        Dense.print (fun c : ℤ => toString c) d = Sparse.print (fun c : ℤ => toString c) s) ∧
      (∀ a : List ℤ, a.length ≤ 2 ^ 31 →
        Dense.print (fun c : ℤ => toString c) (Dense.fromVector a)
          = Sparse.print (fun c : ℤ => toString c) (Sparse.fromVector a)) ∧
      (∀ coeff : Nat → ℤ, canonicalTextSpec coeff (-1) = "0") ∧
      (∀ coeff : Nat → ℤ, canonicalTextSpec coeff 0 = toString (coeff 0)) ∧
      Dense.print (fun c : ℤ => toString c) (Dense.fromVector [2, 3, 3]) = "3*x^2+3*x+2" ∧
      Sparse.print (fun c : ℤ => toString c) (Sparse.fromVector [2, 3, 3]) = "3*x^2+3*x+2" := by
  have key : ∀ (d : List ℤ) (s : List (Nat × ℤ)), Dense.Canonical d → Sparse.Canonical s →
      Sparse.bound s ≤ 2 ^ 31 → (∀ i, Dense.opIndex d i = Sparse.opIndex s i) →
      Dense.print (fun c : ℤ => toString c) d = Sparse.print (fun c : ℤ => toString c) s := by
    intro d s hd hs hr h
    obtain ⟨P, hP⟩ := Sparse.rep_exists_sparse hs.1
    have hD : Dense.Rep d P := fun i => (hP i).trans (h i).symm
    rw [Dense.print_eq_canonicalText hd, Sparse.print_eq_canonicalText_sparse hs hr,
      degree_dense_eq_sparse hd hs hD hP hr, funext h]
  refine ⟨Dense.print_eq_canonicalText hd, Sparse.print_eq_canonicalText_sparse hs hsr,
    key d s hd hs hsr, ?_, fun _ => rfl, fun _ => rfl, by decide, by decide⟩
  intro a ha
  refine key _ _ (Dense.canonical_cut a) (Sparse.canonical_fromVector a)
    (le_trans (Sparse.bound_fromVector_le a) ha) (fun i => ?_)
  rw [Dense.opIndex_eq_getD]
  show (Dense.cut a).getD i 0 = Sparse.get (Sparse.fromVector a) i
  rw [Dense.getD_cut, Sparse.get_fromVector]

theorem print_is_canonical_text_witness :
    Dense.Canonical ([2, 3, 3] : List ℤ) ∧
      Sparse.Canonical ([(0, 2), (1, 3), (2, 3)] : List (Nat × ℤ)) ∧
      (Dense.print (fun c : ℤ => toString c) [2, 3, 3]
          = canonicalTextSpec (Dense.opIndex ([2, 3, 3] : List ℤ)) (Dense.Degree [2, 3, 3]) ∧
        Sparse.print (fun c : ℤ => toString c) [(0, 2), (1, 3), (2, 3)]
          = canonicalTextSpec (Sparse.opIndex ([(0, 2), (1, 3), (2, 3)] : List (Nat × ℤ)))
              (Sparse.Degree [(0, 2), (1, 3), (2, 3)]) ∧
        ((∀ i, Dense.opIndex ([2, 3, 3] : List ℤ) i
            = Sparse.opIndex ([(0, 2), (1, 3), (2, 3)] : List (Nat × ℤ)) i) →
          Dense.print (fun c : ℤ => toString c) [2, 3, 3]
            = Sparse.print (fun c : ℤ => toString c) [(0, 2), (1, 3), (2, 3)]) ∧
        (∀ a : List ℤ, a.length ≤ 2 ^ 31 →
          Dense.print (fun c : ℤ => toString c) (Dense.fromVector a)
            = Sparse.print (fun c : ℤ => toString c) (Sparse.fromVector a)) ∧
        (∀ coeff : Nat → ℤ, canonicalTextSpec coeff (-1) = "0") ∧
        (∀ coeff : Nat → ℤ, canonicalTextSpec coeff 0 = toString (coeff 0)) ∧
        Dense.print (fun c : ℤ => toString c) (Dense.fromVector [2, 3, 3]) = "3*x^2+3*x+2" ∧
        Sparse.print (fun c : ℤ => toString c) (Sparse.fromVector [2, 3, 3])
          = "3*x^2+3*x+2") :=
  ⟨by decide, by decide,
    print_is_canonical_text [2, 3, 3] [(0, 2), (1, 3), (2, 3)] (by decide) (by decide)
      (by decide)⟩

/-- Counterexample to C15 as stated: over the integers, in the sparse form, the canonical
`x^(2^32 + 1)` has `Degree() = 1`, and its text `x^4294967297` is not the concatenation over
the exponents from `Degree()` down to `0` with a nonzero coefficient, which is empty; the
canonical `5 + x^(2^31)` has `Degree() = -2^31`, matches no branch of `operator<<` and
renders as the empty text, although its coefficient at exponent `0` is `5`. -/
theorem print_is_canonical_text_fails_beyond_int :
    Sparse.Canonical ([(2 ^ 32 + 1, 1)] : List (Nat × ℤ)) ∧
    Sparse.Degree ([(2 ^ 32 + 1, 1)] : List (Nat × ℤ)) = 1 ∧
    Sparse.print (fun c : ℤ => toString c) [(2 ^ 32 + 1, 1)] = "x^4294967297" ∧
    canonicalTextSpec (Sparse.opIndex ([(2 ^ 32 + 1, 1)] : List (Nat × ℤ)))
      (Sparse.Degree ([(2 ^ 32 + 1, 1)] : List (Nat × ℤ))) = "" ∧
    Sparse.Canonical ([(0, 5), (2 ^ 31, 1)] : List (Nat × ℤ)) ∧
    Sparse.Degree ([(0, 5), (2 ^ 31, 1)] : List (Nat × ℤ)) = -2 ^ 31 ∧
    Sparse.print (fun c : ℤ => toString c) [(0, 5), (2 ^ 31, 1)] = "" ∧
    canonicalTextSpec (Sparse.opIndex ([(0, 5), (2 ^ 31, 1)] : List (Nat × ℤ)))
      (Sparse.Degree ([(0, 5), (2 ^ 31, 1)] : List (Nat × ℤ))) = "5" := by
  refine ⟨by decide, by decide, by decide, by decide, by decide, by decide, by decide,
    by decide⟩

/-- C21 (as the code behaves). In the sparse `operator==`, for canonical `p` and `q` with
`Degree(p) == Degree(q)`, where the exponents of `p` are below `2^31`, the element-wise comparison `std::equal` returns a boolean, which
is the result of `operator==`, and reads at most as many elements of `q` as `q` stores; if
`p` stores more entries than `q`, there is a position `k` smaller than the number of entries
of `q` where the entries of `p` and `q` differ, the entries before `k` agree, the comparison
reads `k + 1` elements of `q` and returns `false`. -/
theorem sparse_eq_reads_within_range {T : Type} [CommRing T] [DecidableEq T]
    (p q : List (Nat × T)) (hp : Sparse.Canonical p) (hq : Sparse.Canonical q)
    (hpr : Sparse.bound p ≤ 2 ^ 31) (hd : Sparse.Degree p = Sparse.Degree q) :
    (∃ b, std_equal p q = some b ∧ Sparse.opEq p q = some b) ∧
    std_equal_reads p q ≤ q.length ∧
    (q.length < p.length →
      ∃ k, k < q.length ∧ p.take k = q.take k ∧ p[k]? ≠ q[k]? ∧
        std_equal_reads p q = k + 1 ∧ std_equal p q = some false ∧
        Sparse.opEq p q = some false) := by
  obtain ⟨s1, s2, s3⟩ := std_equal_reads_spec p q
  have hop : Sparse.opEq p q = std_equal p q := by
    unfold Sparse.opEq; rw [if_pos hd]
  have hnone : std_equal p q ≠ none := by
    intro h
    obtain ⟨t, ht, hpt⟩ := (std_equal_eq_none_iff p q).1 h
    subst hpt
    have := Sparse.degree_append_lt hp.1 ht hpr
    omega
  cases h : std_equal p q with
  | none => exact absurd h hnone
  | some b =>
    refine ⟨⟨b, rfl, by rw [hop, h]⟩, ?_, ?_⟩
    · cases b with
      | true => obtain ⟨h1, h2⟩ := s2 h; omega
      | false => obtain ⟨k, _, h2, _, _, h5⟩ := s3 h; omega
    · intro hlen
      cases b with
      | true => obtain ⟨_, h2⟩ := s2 h; omega
      | false =>
        obtain ⟨k, _, h2, h3, h4, h5⟩ := s3 h
        exact ⟨k, h2, h3, h4, h5, rfl, by rw [hop, h]⟩

/-- Witness for C21 over the integers: `p = 1 + x + x^2` and `q = 1 + x^2` have the same
degree and `p` stores one entry more; the comparison stops at position `1`, inside `q`. -/
theorem sparse_eq_reads_within_range_witness :
    Sparse.Canonical ([(0, 1), (1, 1), (2, 1)] : List (Nat × ℤ)) ∧
    Sparse.Canonical ([(0, 1), (2, 1)] : List (Nat × ℤ)) ∧
    Sparse.Degree ([(0, 1), (1, 1), (2, 1)] : List (Nat × ℤ))
      = Sparse.Degree ([(0, 1), (2, 1)] : List (Nat × ℤ)) ∧
    std_equal_reads ([(0, 1), (1, 1), (2, 1)] : List (Nat × ℤ)) [(0, 1), (2, 1)] = 2 ∧
    ((∃ b, std_equal ([(0, 1), (1, 1), (2, 1)] : List (Nat × ℤ)) [(0, 1), (2, 1)] = some b ∧
        Sparse.opEq ([(0, 1), (1, 1), (2, 1)] : List (Nat × ℤ)) [(0, 1), (2, 1)] = some b) ∧
      std_equal_reads ([(0, 1), (1, 1), (2, 1)] : List (Nat × ℤ)) [(0, 1), (2, 1)]
        ≤ ([(0, 1), (2, 1)] : List (Nat × ℤ)).length ∧
      (([(0, 1), (2, 1)] : List (Nat × ℤ)).length
          < ([(0, 1), (1, 1), (2, 1)] : List (Nat × ℤ)).length →
        ∃ k, k < ([(0, 1), (2, 1)] : List (Nat × ℤ)).length ∧
          ([(0, 1), (1, 1), (2, 1)] : List (Nat × ℤ)).take k
            = ([(0, 1), (2, 1)] : List (Nat × ℤ)).take k ∧
          ([(0, 1), (1, 1), (2, 1)] : List (Nat × ℤ))[k]?
            ≠ ([(0, 1), (2, 1)] : List (Nat × ℤ))[k]? ∧
          std_equal_reads ([(0, 1), (1, 1), (2, 1)] : List (Nat × ℤ)) [(0, 1), (2, 1)]
            = k + 1 ∧
          std_equal ([(0, 1), (1, 1), (2, 1)] : List (Nat × ℤ)) [(0, 1), (2, 1)]
            = some false ∧
          Sparse.opEq ([(0, 1), (1, 1), (2, 1)] : List (Nat × ℤ)) [(0, 1), (2, 1)]
            = some false)) :=
  ⟨by decide, by decide, by decide, by decide,
    sparse_eq_reads_within_range [(0, 1), (1, 1), (2, 1)] [(0, 1), (2, 1)]
      (by decide) (by decide) (by decide) (by decide)⟩

/-- Counterexample to C21 as stated: over the integers, `p = 1 + x^(2^32)` and `q = 1` are
canonical and `Degree(p) == Degree(q) == 0`, since `Degree()` narrows the exponent `2^32` to
`int`; `p` stores more entries than `q`, no mismatch occurs inside the range of `q`, and the
comparison reads a second element of `q`, which stores one: `operator==` has no result. -/
theorem sparse_eq_reads_beyond_int :
    Sparse.Canonical ([(0, 1), (2 ^ 32, 1)] : List (Nat × ℤ)) ∧
    Sparse.Canonical ([(0, 1)] : List (Nat × ℤ)) ∧
    Sparse.Degree ([(0, 1), (2 ^ 32, 1)] : List (Nat × ℤ))
      = Sparse.Degree ([(0, 1)] : List (Nat × ℤ)) ∧
    ([(0, 1)] : List (Nat × ℤ)).length < ([(0, 1), (2 ^ 32, 1)] : List (Nat × ℤ)).length ∧
    (¬ ∃ k, k < ([(0, 1)] : List (Nat × ℤ)).length ∧
      ([(0, 1), (2 ^ 32, 1)] : List (Nat × ℤ))[k]? ≠ ([(0, 1)] : List (Nat × ℤ))[k]?) ∧
    std_equal_reads ([(0, 1), (2 ^ 32, 1)] : List (Nat × ℤ)) [(0, 1)] = 2 ∧
    ¬ std_equal_reads ([(0, 1), (2 ^ 32, 1)] : List (Nat × ℤ)) [(0, 1)]
      ≤ ([(0, 1)] : List (Nat × ℤ)).length ∧
    std_equal ([(0, 1), (2 ^ 32, 1)] : List (Nat × ℤ)) [(0, 1)] = none ∧
    Sparse.opEq ([(0, 1), (2 ^ 32, 1)] : List (Nat × ℤ)) [(0, 1)] = none := by
  refine ⟨by decide, by decide, by decide, by decide, ?_, by decide, by decide, by decide,
    by decide⟩
  rintro ⟨k, hk, h⟩
  have hk0 : k = 0 := by simpa using hk
  subst hk0
  exact h rfl

/-- C22 (as the code behaves). Over a commutative ring without zero divisors, in particular
over every field, for canonical `p` and `q`, in both forms: if `p` and `q` are nonzero and,
in the sparse form, the sum of their degrees is below `2^31`, `p * q` is nonzero,
`Degree(p * q) == Degree(p) + Degree(q)` and the leading coefficient of `p * q` is the
product of the leading coefficients of `p` and `q`; if `p` or `q` is zero,
`Degree(p * q) == -1`. -/
theorem mul_degree_and_leading_coefficient {T : Type} [CommRing T] [IsDomain T]
    [DecidableEq T] (p q : List T) (sp sq : List (Nat × T))
    (hp : Dense.Canonical p) (hq : Dense.Canonical q)
    (hsp : Sparse.Canonical sp) (hsq : Sparse.Canonical sq) :
    ((p ≠ [] → q ≠ [] →
        Dense.opMul p q ≠ [] ∧
        Dense.Degree (Dense.opMul p q) = Dense.Degree p + Dense.Degree q ∧
        Dense.opIndex (Dense.opMul p q) (toSizeT (Dense.Degree (Dense.opMul p q))) =
          Dense.opIndex p (toSizeT (Dense.Degree p)) *
            Dense.opIndex q (toSizeT (Dense.Degree q))) ∧
      (p = [] ∨ q = [] → Dense.Degree (Dense.opMul p q) = -1)) ∧
    ((sp ≠ [] → sq ≠ [] → Sparse.bound sp + Sparse.bound sq ≤ 2 ^ 31 + 1 →
        Sparse.opMul sp sq ≠ [] ∧
        Sparse.Degree (Sparse.opMul sp sq) = Sparse.Degree sp + Sparse.Degree sq ∧
        Sparse.opIndex (Sparse.opMul sp sq) (toSizeT (Sparse.Degree (Sparse.opMul sp sq))) =
          Sparse.opIndex sp (toSizeT (Sparse.Degree sp)) *
            Sparse.opIndex sq (toSizeT (Sparse.Degree sq))) ∧
      (sp = [] ∨ sq = [] → Sparse.Degree (Sparse.opMul sp sq) = -1)) := by
  refine ⟨⟨fun hp0 hq0 => Dense.degree_opMul_dense hp hq hp0 hq0, fun h => ?_⟩,
    ⟨fun hp0 hq0 hr => Sparse.degree_opMul_sparse hsp hsq hp0 hq0 hr, fun h => ?_⟩⟩
  · rw [Dense.opMul_nil_dense p q h]; rfl
  · rw [Sparse.opMul_nil_sparse sp sq h]; rfl

/-- Witness for C22 over the integers: `(1 + 2x) * (3 + 4x^2) = 3 + 6x + 4x^2 + 8x^3`, of
degree `1 + 2` and leading coefficient `2 * 4`, in both forms. -/
theorem mul_degree_and_leading_coefficient_witness :
    Dense.Canonical ([1, 2] : List ℤ) ∧ Dense.Canonical ([3, 0, 4] : List ℤ) ∧
    Sparse.Canonical ([(0, 1), (1, 2)] : List (Nat × ℤ)) ∧
    Sparse.Canonical ([(0, 3), (2, 4)] : List (Nat × ℤ)) ∧
    Sparse.bound ([(0, 1), (1, 2)] : List (Nat × ℤ))
      + Sparse.bound ([(0, 3), (2, 4)] : List (Nat × ℤ)) ≤ 2 ^ 31 + 1 ∧
    Dense.opMul ([1, 2] : List ℤ) [3, 0, 4] = [3, 6, 4, 8] ∧
    Sparse.opMul ([(0, 1), (1, 2)] : List (Nat × ℤ)) [(0, 3), (2, 4)]
      = [(0, 3), (1, 6), (2, 4), (3, 8)] ∧
    ((([1, 2] : List ℤ) ≠ [] → ([3, 0, 4] : List ℤ) ≠ [] →
        Dense.opMul ([1, 2] : List ℤ) [3, 0, 4] ≠ [] ∧
        Dense.Degree (Dense.opMul ([1, 2] : List ℤ) [3, 0, 4])
          = Dense.Degree ([1, 2] : List ℤ) + Dense.Degree ([3, 0, 4] : List ℤ) ∧
        Dense.opIndex (Dense.opMul ([1, 2] : List ℤ) [3, 0, 4])
            (toSizeT (Dense.Degree (Dense.opMul ([1, 2] : List ℤ) [3, 0, 4]))) =
          Dense.opIndex ([1, 2] : List ℤ) (toSizeT (Dense.Degree ([1, 2] : List ℤ))) *
            Dense.opIndex ([3, 0, 4] : List ℤ)
              (toSizeT (Dense.Degree ([3, 0, 4] : List ℤ)))) ∧
      (([1, 2] : List ℤ) = [] ∨ ([3, 0, 4] : List ℤ) = [] →
        Dense.Degree (Dense.opMul ([1, 2] : List ℤ) [3, 0, 4]) = -1)) ∧
    ((([(0, 1), (1, 2)] : List (Nat × ℤ)) ≠ [] → ([(0, 3), (2, 4)] : List (Nat × ℤ)) ≠ [] →
        Sparse.bound ([(0, 1), (1, 2)] : List (Nat × ℤ))
          + Sparse.bound ([(0, 3), (2, 4)] : List (Nat × ℤ)) ≤ 2 ^ 31 + 1 →
        Sparse.opMul ([(0, 1), (1, 2)] : List (Nat × ℤ)) [(0, 3), (2, 4)] ≠ [] ∧
        Sparse.Degree (Sparse.opMul ([(0, 1), (1, 2)] : List (Nat × ℤ)) [(0, 3), (2, 4)])
          = Sparse.Degree ([(0, 1), (1, 2)] : List (Nat × ℤ))
            + Sparse.Degree ([(0, 3), (2, 4)] : List (Nat × ℤ)) ∧
        Sparse.opIndex (Sparse.opMul ([(0, 1), (1, 2)] : List (Nat × ℤ)) [(0, 3), (2, 4)])
            (toSizeT (Sparse.Degree
              (Sparse.opMul ([(0, 1), (1, 2)] : List (Nat × ℤ)) [(0, 3), (2, 4)]))) =
          Sparse.opIndex ([(0, 1), (1, 2)] : List (Nat × ℤ))
              (toSizeT (Sparse.Degree ([(0, 1), (1, 2)] : List (Nat × ℤ)))) *
            Sparse.opIndex ([(0, 3), (2, 4)] : List (Nat × ℤ))
              (toSizeT (Sparse.Degree ([(0, 3), (2, 4)] : List (Nat × ℤ))))) ∧
      (([(0, 1), (1, 2)] : List (Nat × ℤ)) = [] ∨ ([(0, 3), (2, 4)] : List (Nat × ℤ)) = [] →
        Sparse.Degree (Sparse.opMul ([(0, 1), (1, 2)] : List (Nat × ℤ)) [(0, 3), (2, 4)])
          = -1)) :=
  ⟨by decide, by decide, by decide, by decide, by decide, by decide, by decide,
    mul_degree_and_leading_coefficient [1, 2] [3, 0, 4] [(0, 1), (1, 2)] [(0, 3), (2, 4)]
      (by decide) (by decide) (by decide) (by decide)⟩

/-- Counterexample to C22 as stated: over the rationals, in the sparse form, `p = q = x^(2^30)`
are canonical and nonzero, of degree `2^30`; `p * q` stores the single entry `x^(2^31)`, so
`Degree(p * q)` is `-2^31` and not `Degree(p) + Degree(q) = 2^31`, and the coefficient read
at `Degree(p * q)` is `0`, not the product `1` of the leading coefficients. -/
theorem mul_degree_fails_beyond_int :
    Sparse.Canonical ([(2 ^ 30, 1)] : List (Nat × ℚ)) ∧
    ([(2 ^ 30, 1)] : List (Nat × ℚ)) ≠ [] ∧
    Sparse.opMul ([(2 ^ 30, 1)] : List (Nat × ℚ)) [(2 ^ 30, 1)] = [(2 ^ 31, 1)] ∧
    Sparse.Degree ([(2 ^ 30, 1)] : List (Nat × ℚ)) = 2 ^ 30 ∧
    Sparse.Degree (Sparse.opMul ([(2 ^ 30, 1)] : List (Nat × ℚ)) [(2 ^ 30, 1)]) = -2 ^ 31 ∧
    Sparse.Degree (Sparse.opMul ([(2 ^ 30, 1)] : List (Nat × ℚ)) [(2 ^ 30, 1)]) ≠
      Sparse.Degree ([(2 ^ 30, 1)] : List (Nat × ℚ))
        + Sparse.Degree ([(2 ^ 30, 1)] : List (Nat × ℚ)) ∧
    Sparse.opIndex (Sparse.opMul ([(2 ^ 30, 1)] : List (Nat × ℚ)) [(2 ^ 30, 1)])
      (toSizeT (Sparse.Degree (Sparse.opMul ([(2 ^ 30, 1)] : List (Nat × ℚ)) [(2 ^ 30, 1)])))
      = 0 ∧
    Sparse.opIndex ([(2 ^ 30, 1)] : List (Nat × ℚ))
        (toSizeT (Sparse.Degree ([(2 ^ 30, 1)] : List (Nat × ℚ)))) *
      Sparse.opIndex ([(2 ^ 30, 1)] : List (Nat × ℚ))
        (toSizeT (Sparse.Degree ([(2 ^ 30, 1)] : List (Nat × ℚ)))) = 1 := by
  have hm : Sparse.opMul ([(2 ^ 30, 1)] : List (Nat × ℚ)) [(2 ^ 30, 1)] = [(2 ^ 31, 1)] := by
    decide!
  rw [hm]
  refine ⟨by decide, by decide, rfl, by decide, by decide, by decide, by decide!, by decide!⟩

/-- C23 (as the code behaves). With integer coefficients and truncating division, for
canonical `p` and a canonical monic divisor `q` (leading coefficient `1`), in both forms,
where in the sparse form the exponents of `p` and `q` are below `2^31`: the loop of `operator/` exits
within `Degree(p) - Degree(q) + 1` iterations, so that `p / q` and `p % q` return results;
`(p / q) * q + (p % q) == p` evaluates to `true`; and `Degree(p % q) < Degree(q)`. -/
theorem int_monic_division_identity
    (p q : List ℤ) (sp sq : List (Nat × ℤ)) (fuel : Nat)
    (hp : Dense.Canonical p) (hq : Dense.Canonical q)
    (hlead : Dense.opIndex q (toSizeT (Dense.Degree q)) = 1)
    (hsp : Sparse.Canonical sp) (hsq : Sparse.Canonical sq)
    (hslead : Sparse.opIndex sq (toSizeT (Sparse.Degree sq)) = 1)
    (hspr : Sparse.bound sp ≤ 2 ^ 31) (hsqr : Sparse.bound sq ≤ 2 ^ 31)
    (hfuel : Dense.Degree p - Dense.Degree q + 1 ≤ (fuel : Int))
    (hsfuel : Sparse.Degree sp - Sparse.Degree sq + 1 ≤ (fuel : Int)) :
    (∃ a r, Dense.divLoop Int.tdiv fuel (Dense.fromScalar 0) p q = some (a, r) ∧
      Dense.opDiv Int.tdiv fuel p q = some a ∧
      Dense.opMod Int.tdiv fuel p q = some r ∧
      Dense.opEq (Dense.opAdd (Dense.opMul a q) r) p = some true ∧
      Dense.Degree r < Dense.Degree q) ∧
    (∃ a r, Sparse.divLoop Int.tdiv fuel (Sparse.fromScalar 0) sp sq = some (a, r) ∧
      Sparse.opDiv Int.tdiv fuel sp sq = some a ∧
      Sparse.opMod Int.tdiv fuel sp sq = some r ∧
      Sparse.opEq (Sparse.opAdd (Sparse.opMul a sq) r) sp = some true ∧
      Sparse.Degree r < Sparse.Degree sq) := by
  constructor
  · obtain ⟨P, hP⟩ := Dense.rep_exists_dense p
    obtain ⟨Q, hQ⟩ := Dense.rep_exists_dense q
    rw [Dense.Rep.lead_dense hq hQ] at hlead
    have hQ0 : Q ≠ 0 := by
      intro h
      rw [h, Polynomial.leadingCoeff_zero] at hlead
      exact zero_ne_one hlead
    obtain ⟨a, r, A, h1, h2, h3, h4, h5, h6, h7, h8⟩ :=
      Dense.div_mod_spec_dense Int.tdiv hp hq hP hQ hQ0 (int_unit_dv _ (Or.inl hlead)) fuel
        (by unfold Dense.Degree at hfuel; omega)
    refine ⟨a, r, h1, h2, h3, ?_, by unfold Dense.Degree; omega⟩
    have e : Dense.opAdd (Dense.opMul a q) r = p := by
      apply Dense.Rep.ext_dense (Dense.canonical_opAddAssign_dense _ _) hp _ hP
      have := Dense.Rep.add_dense (Dense.Rep.mul_dense h6 hQ) h7
      have e : A * Q + (P - A * Q) = P := by ring
      rw [e] at this
      exact this
    rw [e]
    exact Dense.opEq_self_dense p
  · obtain ⟨P, hP⟩ := Sparse.rep_exists_sparse hsp.1
    obtain ⟨Q, hQ⟩ := Sparse.rep_exists_sparse hsq.1
    rw [Sparse.Rep.lead_sparse hsq hQ hsqr] at hslead
    have hQ0 : Q ≠ 0 := by
      intro h
      rw [h, Polynomial.leadingCoeff_zero] at hslead
      exact zero_ne_one hslead
    obtain ⟨a, r, A, h1, h2, h3, h4, h5, h6, h7, h8, h9⟩ :=
      Sparse.div_mod_spec_sparse Int.tdiv hsp hsq hP hQ hQ0 (int_unit_dv _ (Or.inl hslead))
        hspr hsqr fuel
        (by rw [Sparse.degree_eq_bound sp hspr, Sparse.degree_eq_bound sq hsqr] at hsfuel
            omega)
    refine ⟨a, r, h1, h2, h3, ?_,
      by rw [Sparse.degree_eq_bound r (by omega), Sparse.degree_eq_bound sq hsqr]; omega⟩
    have e : Sparse.opAdd (Sparse.opMul a sq) r = sp := by
      apply Sparse.Rep.ext_sparse
        (Sparse.canonical_opAddAssign_sparse (Sparse.canonical_opMulAssign_sparse _ _) _)
        hsp _ hP
      have := Sparse.Rep.add_sparse h5.1
        (Sparse.Rep.mul_sparse h4.1 hsq.1 (Sparse.noWrap_of_bound h4.1 hsq.1 (by omega)) h6 hQ)
        h7
      have e : A * Q + (P - A * Q) = P := by ring
      rw [e] at this
      exact this
    rw [e]
    exact Sparse.opEq_self_sparse sp

/-- Witness for C23: `p = 7 + 5x^2 + 3x^3` divided by the monic `q = 2 + x` over the
integers gives the quotient `2 - x + 3x^2` and the remainder `3`, in both forms, within
`3 - 1 + 1 = 3` iterations. -/
theorem int_monic_division_identity_witness :
    Dense.opDiv Int.tdiv 3 ([7, 0, 5, 3] : List ℤ) [2, 1] = some [2, -1, 3] ∧
    Dense.opMod Int.tdiv 3 ([7, 0, 5, 3] : List ℤ) [2, 1] = some [3] ∧
    Sparse.opDiv Int.tdiv 3 ([(0, 7), (2, 5), (3, 3)] : List (Nat × ℤ)) [(0, 2), (1, 1)]
      = some [(0, 2), (1, -1), (2, 3)] ∧
    Sparse.opMod Int.tdiv 3 ([(0, 7), (2, 5), (3, 3)] : List (Nat × ℤ)) [(0, 2), (1, 1)]
      = some [(0, 3)] ∧
    ((∃ a r, Dense.divLoop Int.tdiv 3 (Dense.fromScalar 0) ([7, 0, 5, 3] : List ℤ) [2, 1]
        = some (a, r) ∧
      Dense.opDiv Int.tdiv 3 ([7, 0, 5, 3] : List ℤ) [2, 1] = some a ∧
      Dense.opMod Int.tdiv 3 ([7, 0, 5, 3] : List ℤ) [2, 1] = some r ∧
      Dense.opEq (Dense.opAdd (Dense.opMul a [2, 1]) r) ([7, 0, 5, 3] : List ℤ) = some true ∧
      Dense.Degree r < Dense.Degree ([2, 1] : List ℤ)) ∧
    (∃ a r, Sparse.divLoop Int.tdiv 3 (Sparse.fromScalar 0)
        ([(0, 7), (2, 5), (3, 3)] : List (Nat × ℤ)) [(0, 2), (1, 1)] = some (a, r) ∧
      Sparse.opDiv Int.tdiv 3 ([(0, 7), (2, 5), (3, 3)] : List (Nat × ℤ)) [(0, 2), (1, 1)]
        = some a ∧
      Sparse.opMod Int.tdiv 3 ([(0, 7), (2, 5), (3, 3)] : List (Nat × ℤ)) [(0, 2), (1, 1)]
        = some r ∧
      Sparse.opEq (Sparse.opAdd (Sparse.opMul a [(0, 2), (1, 1)]) r)
        ([(0, 7), (2, 5), (3, 3)] : List (Nat × ℤ)) = some true ∧
      Sparse.Degree r < Sparse.Degree ([(0, 2), (1, 1)] : List (Nat × ℤ)))) :=
  ⟨by decide, by decide, by decide, by decide,
    int_monic_division_identity [7, 0, 5, 3] [2, 1] [(0, 7), (2, 5), (3, 3)] [(0, 2), (1, 1)] 3
      (by decide) (by decide) (by decide) (by decide) (by decide) (by decide)
      (by decide) (by decide) (by decide) (by decide)⟩

/-- Counterexample to C23 as stated: with integer coefficients and truncating division, in
the sparse form, `p = x^(2^32)` and the monic `q = 1` are canonical, but `Degree(p)` is the
`int` `0`, every iteration of the loop subtracts `0 * q` and leaves `p` unchanged, and
`p / q` and `p % q` have no result for any number of iterations. -/
theorem int_monic_division_fails_beyond_int :
    Sparse.Canonical ([(2 ^ 32, 1)] : List (Nat × ℤ)) ∧
    Sparse.Canonical ([(0, 1)] : List (Nat × ℤ)) ∧
    Sparse.opIndex ([(0, 1)] : List (Nat × ℤ))
      (toSizeT (Sparse.Degree ([(0, 1)] : List (Nat × ℤ)))) = 1 ∧
    Sparse.Degree ([(2 ^ 32, 1)] : List (Nat × ℤ)) = 0 ∧
    (Sparse.divStep Int.tdiv [] ([(2 ^ 32, 1)] : List (Nat × ℤ)) [(0, 1)]).2
      = [(2 ^ 32, 1)] ∧
    (¬ ∃ fuel a, Sparse.opDiv Int.tdiv fuel ([(2 ^ 32, 1)] : List (Nat × ℤ)) [(0, 1)]
      = some a) ∧
    (¬ ∃ fuel r, Sparse.opMod Int.tdiv fuel ([(2 ^ 32, 1)] : List (Nat × ℤ)) [(0, 1)]
      = some r) := by
  have h := sparse_wrap_div_none Int.tdiv (by decide)
  refine ⟨by decide, by decide, by decide, sparse_wrap_degree 1,
    sparse_wrap_div_step Int.tdiv (by decide) [], ?_, ?_⟩
  · rintro ⟨fuel, a, ha⟩
    rw [(h fuel).1] at ha
    cases ha
  · rintro ⟨fuel, r, hr⟩
    rw [(h fuel).2] at hr
    cases hr
